import Mathlib

/-!
Verification of the markdown segmenter in `src/components/ResultDisplay.tsx`.

The segmenter `parseMarkdown` splits a document string into prose parts and
table parts by repeatedly executing the JavaScript regular expression

  (\|.*\|(?:\r?\n|\r)?\|(?:-+\|)+(\r?\n|\r)?(?:\|.*\|(?:\r?\n|\r)?)*)   (global)

against the document.  We embed the regular expression as a syntax tree `RE`
and execute it with a backtracking engine `run` that mirrors ECMAScript
matching semantics: alternatives are tried left to right, quantifiers are
greedy, and the first successful path wins.  The engine carries fuel so that
it is structurally recursive (hence computable by the kernel); each unit of
fuel pays for one iteration of a starred subpattern, and an iteration is only
taken when the body consumed at least one character, so fuel
`2 * length + 2` is never exhausted for this pattern (its stars nest two
deep).
-/

namespace MdSeg

/-- Line terminator characters, which the ECMAScript dot does not match. -/
def isNL (c : Char) : Bool :=
  c = '\n' || c = '\r' || c = Char.ofNat 0x2028 || c = Char.ofNat 0x2029

/-- Syntax of the fragment of ECMAScript regular expressions used by the
table-detection pattern. -/
inductive RE : Type where
  | eps : RE
  | chr : Char → RE
  | dot : RE
  | seq : RE → RE → RE
  | alt : RE → RE → RE
  | star : RE → RE
deriving Repr, DecidableEq

/-- Greedy optional subpattern, `r?`. -/
def RE.opt (r : RE) : RE := RE.alt r RE.eps

/-- Greedy repetition `r+`, which ECMAScript matches like `r r*`. -/
def RE.plus (r : RE) : RE := RE.seq r (RE.star r)

/-- One step of the backtracking matcher, structurally recursive in the
regular expression.  `loop` re-enters the engine for a further iteration of a
starred subpattern (it is the engine at one unit of fuel less).  The
continuation `k` receives the unconsumed suffix; a star iterates only when
its body consumed at least one character, exactly as the ECMAScript
RepeatMatcher refuses empty iterations. -/
def runAux (loop : RE → List Char → (List Char → Option (List Char)) → Option (List Char)) :
    RE → List Char → (List Char → Option (List Char)) → Option (List Char)
  | RE.eps, s, k => k s
  | RE.chr c, s, k =>
      match s with
      | [] => none
      | a :: t => if a = c then k t else none
  | RE.dot, s, k =>
      match s with
      | [] => none
      | a :: t => if isNL a then none else k t
  | RE.seq r1 r2, s, k => runAux loop r1 s (fun t => runAux loop r2 t k)
  | RE.alt r1 r2, s, k =>
      match runAux loop r1 s k with
      | some v => some v
      | none => runAux loop r2 s k
  | RE.star r, s, k =>
      match runAux loop r s
          (fun t => if t.length < s.length then loop (RE.star r) t k else none) with
      | some v => some v
      | none => k s

/-- Backtracking matcher with fuel.  Returns the unconsumed suffix of the
first successful path, in ECMAScript priority order. -/
def run : Nat → RE → List Char → (List Char → Option (List Char)) → Option (List Char)
  | 0, _, _, _ => none
  | fuel + 1, r, s, k => runAux (run fuel) r s k

/-- Embedding of the header fragment `\|.*\|`. -/
def hdrRE : RE := RE.seq (RE.chr '|') (RE.seq (RE.star RE.dot) (RE.chr '|'))

/-- Embedding of the line-terminator fragment `(?:\r?\n|\r)`. -/
def nlRE : RE := RE.alt (RE.seq (RE.opt (RE.chr '\r')) (RE.chr '\n')) (RE.chr '\r')

/-- Embedding of the delimiter fragment `\|(?:-+\|)+`. -/
def delimRE : RE :=
  RE.seq (RE.chr '|') (RE.plus (RE.seq (RE.plus (RE.chr '-')) (RE.chr '|')))

/-- Embedding of the further-row fragment `\|.*\|(?:\r?\n|\r)?`. -/
def rowRE : RE := RE.seq hdrRE (RE.opt nlRE)

/-- Embedding of the whole table pattern
`\|.*\|(?:\r?\n|\r)?\|(?:-+\|)+(\r?\n|\r)?(?:\|.*\|(?:\r?\n|\r)?)*`. -/
def tableRE : RE :=
  RE.seq hdrRE (RE.seq (RE.opt nlRE) (RE.seq delimRE (RE.seq (RE.opt nlRE) (RE.star rowRE))))

/-- Length of the match of the table pattern anchored at the start of `s`,
if any. -/
def matchAt (s : List Char) : Option Nat :=
  (run (2 * s.length + 2) tableRE s some).map (fun t => s.length - t.length)

/-- Scan for the leftmost match at or after the current position, as
`RegExp.prototype.exec` does from `lastIndex`.  `i` is the absolute offset of
`s` inside the whole document; the result is the absolute match offset
together with the match length. -/
def scanAux : Nat → List Char → Option (Nat × Nat)
  | i, [] =>
    match matchAt [] with
    | some len => some (i, len)
    | none => none
  | i, a :: t =>
    match matchAt (a :: t) with
    | some len => some (i, len)
    | none => scanAux (i + 1) t

/-- Discriminator of the two part types of `DocumentPart`. -/
inductive PartType : Type where
  | markdown : PartType
  | table : PartType
deriving Repr, DecidableEq

/-- Embedding of the `DocumentPart` record. -/
structure DocumentPart where
  id : String
  type : PartType
  content : String
deriving Repr, DecidableEq

/-- Main loop of `parseMarkdown`: find the next table match, emit the prose
gap before it (when non-empty) and the table itself, and continue after the
match.  `rest` is the document suffix starting at absolute offset
`lastIndex`.  The fuel is for structural recursion only; every iteration
consumes at least one character, so `rest.length + 1` units suffice. -/
def parseLoop : Nat → List Char → Nat → List DocumentPart
  | 0, _, _ => []
  | fuel + 1, rest, lastIndex =>
    match scanAux lastIndex rest with
    | none =>
        if rest.isEmpty then []
        else [⟨"md-" ++ toString lastIndex, PartType.markdown, String.mk rest⟩]
    | some (idx, len) =>
        (if lastIndex < idx then
          [⟨"md-" ++ toString lastIndex, PartType.markdown,
            String.mk (rest.take (idx - lastIndex))⟩]
         else []) ++
        ⟨"tbl-" ++ toString idx, PartType.table,
          String.mk ((rest.drop (idx - lastIndex)).take len)⟩ ::
          parseLoop fuel (rest.drop (idx - lastIndex + len)) (idx + len)

/-- Embedding of `parseMarkdown`. -/
def parseMarkdown (markdown : String) : List DocumentPart :=
  parseLoop (markdown.length + 1) markdown.data 0

/-- Embedding of `handleTableUpdate`: replace the content of the part whose
id matches, leaving every other part unchanged. -/
def handleTableUpdate (parts : List DocumentPart) (tableId : String)
    (updatedMarkdown : String) : List DocumentPart :=
  parts.map (fun part => if part.id = tableId then { part with content := updatedMarkdown } else part)

/-- Embedding of the reassembly in `handleSaveAsDocx`:
`documentParts.map(p => p.content).join(backslash-n backslash-n)`. -/
def combineParts (parts : List DocumentPart) : String :=
  String.intercalate "\n\n" (parts.map (fun p => p.content))

/-! ### Engine lemmas -/

/-- The matcher only consumes characters: any successful run hands its
continuation a suffix no longer than the input. -/
theorem runAux_some_le
    {loop : RE → List Char → (List Char → Option (List Char)) → Option (List Char)}
    (hloop : ∀ r s k v, loop r s k = some v → ∃ t, t.length ≤ s.length ∧ k t = some v) :
    ∀ r s k v, runAux loop r s k = some v → ∃ t, t.length ≤ s.length ∧ k t = some v := by
  intro r
  induction r with
  | eps =>
      intro s k v h
      exact ⟨s, Nat.le_refl _, h⟩
  | chr c =>
      intro s k v h
      cases s with
      | nil => simp [runAux] at h
      | cons a t =>
          simp only [runAux] at h
          by_cases hac : a = c
          · rw [if_pos hac] at h
            exact ⟨t, Nat.le_succ _, h⟩
          · rw [if_neg hac] at h
            exact absurd h (by simp)
  | dot =>
      intro s k v h
      cases s with
      | nil => simp [runAux] at h
      | cons a t =>
          simp only [runAux] at h
          by_cases hna : isNL a
          · rw [if_pos hna] at h
            exact absurd h (by simp)
          · rw [if_neg hna] at h
            exact ⟨t, Nat.le_succ _, h⟩
  | seq r1 r2 ih1 ih2 =>
      intro s k v h
      simp only [runAux] at h
      obtain ⟨t, ht, h2⟩ := ih1 s _ v h
      obtain ⟨u, hu, h3⟩ := ih2 t k v h2
      exact ⟨u, Nat.le_trans hu ht, h3⟩
  | alt r1 r2 ih1 ih2 =>
      intro s k v h
      simp only [runAux] at h
      cases h1 : runAux loop r1 s k with
      | some w => rw [h1] at h; exact ih1 s k v (h1.trans h)
      | none => rw [h1] at h; exact ih2 s k v h
  | star r ih =>
      intro s k v h
      simp only [runAux] at h
      cases h1 : runAux loop r s
          (fun t => if t.length < s.length then loop (RE.star r) t k else none) with
      | some w =>
          rw [h1] at h
          have hwv : w = v := Option.some.inj h
          obtain ⟨t, ht, h2⟩ := ih s _ w h1
          by_cases hlt : t.length < s.length
          · rw [if_pos hlt] at h2
            obtain ⟨u, hu, h3⟩ := hloop (RE.star r) t k w h2
            exact ⟨u, Nat.le_trans hu ht, hwv ▸ h3⟩
          · rw [if_neg hlt] at h2
            exact absurd h2 (by simp)
      | none =>
          rw [h1] at h
          exact ⟨s, Nat.le_refl _, h⟩

/-- Fuel-carrying version of `runAux_some_le`. -/
theorem run_some_le :
    ∀ fuel r s k v, run fuel r s k = some v → ∃ t, t.length ≤ s.length ∧ k t = some v := by
  intro fuel
  induction fuel with
  | zero => intro r s k v h; simp [run] at h
  | succ f ih =>
      intro r s k v h
      exact runAux_some_le ih r s k v h

/-! Unfolding equations for the engine, for controlled rewriting. -/

theorem run_succ (f : Nat) (r : RE) (s : List Char) (k : List Char → Option (List Char)) :
    run (f + 1) r s k = runAux (run f) r s k := rfl

theorem runAux_eps {loop} (s : List Char) (k : List Char → Option (List Char)) :
    runAux loop RE.eps s k = k s := rfl

theorem runAux_chr_nil {loop} (c : Char) (k : List Char → Option (List Char)) :
    runAux loop (RE.chr c) [] k = none := rfl

theorem runAux_chr_cons {loop} (c a : Char) (t : List Char) (k : List Char → Option (List Char)) :
    runAux loop (RE.chr c) (a :: t) k = if a = c then k t else none := rfl

theorem runAux_dot_nil {loop} (k : List Char → Option (List Char)) :
    runAux loop RE.dot [] k = none := rfl

theorem runAux_dot_cons {loop} (a : Char) (t : List Char) (k : List Char → Option (List Char)) :
    runAux loop RE.dot (a :: t) k = if isNL a then none else k t := rfl

theorem runAux_seq {loop} (r1 r2 : RE) (s : List Char) (k : List Char → Option (List Char)) :
    runAux loop (RE.seq r1 r2) s k = runAux loop r1 s (fun t => runAux loop r2 t k) := rfl

theorem runAux_alt {loop} (r1 r2 : RE) (s : List Char) (k : List Char → Option (List Char)) :
    runAux loop (RE.alt r1 r2) s k =
      match runAux loop r1 s k with
      | some v => some v
      | none => runAux loop r2 s k := rfl

theorem runAux_star {loop} (r : RE) (s : List Char) (k : List Char → Option (List Char)) :
    runAux loop (RE.star r) s k =
      match runAux loop r s
          (fun t => if t.length < s.length then loop (RE.star r) t k else none) with
      | some v => some v
      | none => k s := rfl

/-- A match of the table pattern is nonempty and fits inside the input. -/
theorem matchAt_pos {s : List Char} {len : Nat} (h : matchAt s = some len) :
    1 ≤ len ∧ len ≤ s.length := by
  unfold matchAt at h
  obtain ⟨f, hf⟩ : ∃ f, 2 * s.length + 2 = f + 1 := ⟨2 * s.length + 1, by omega⟩
  rw [hf] at h
  cases hrun : run (f + 1) tableRE s some with
  | none => rw [hrun] at h; simp at h
  | some t =>
      rw [hrun] at h
      have hv : s.length - t.length = len := by simpa using h
      have hlen : t.length < s.length := by
        rw [run_succ, tableRE, hdrRE, runAux_seq, runAux_seq] at hrun
        cases s with
        | nil => rw [runAux_chr_nil] at hrun; exact absurd hrun (by simp)
        | cons a s' =>
            rw [runAux_chr_cons] at hrun
            by_cases hap : a = '|'
            · rw [if_pos hap] at hrun
              obtain ⟨w, hw, hkw⟩ := runAux_some_le (run_some_le f) _ _ _ _ hrun
              obtain ⟨x, hx, hkx⟩ := runAux_some_le (run_some_le f) _ _ _ _ hkw
              have hxt : x = t := by simpa using hkx
              subst hxt
              exact Nat.lt_succ_of_le (Nat.le_trans hx hw)
            · rw [if_neg hap] at hrun
              exact absurd hrun (by simp)
      omega

/-! ### Scan lemmas -/

theorem scanAux_eq (i : Nat) (s : List Char) :
    scanAux i s =
      match matchAt s with
      | some len => some (i, len)
      | none =>
        match s with
        | [] => none
        | _ :: t => scanAux (i + 1) t := by
  cases s <;> rfl

/-- Characterization of a successful scan: the match offset is at or after
the scan origin, the match is nonempty and in range, it is a real anchored
match, and it is the leftmost one. -/
theorem scanAux_spec {i idx len : Nat} {s : List Char} (h : scanAux i s = some (idx, len)) :
    ∃ j, idx = i + j ∧ j + len ≤ s.length ∧ 1 ≤ len ∧
      matchAt (s.drop j) = some len ∧ ∀ j' < j, matchAt (s.drop j') = none := by
  induction s generalizing i with
  | nil =>
      rw [scanAux_eq] at h
      have hm : matchAt ([] : List Char) = none := rfl
      rw [hm] at h
      exact absurd h (by simp)
  | cons a t ih =>
      rw [scanAux_eq] at h
      cases hm : matchAt (a :: t) with
      | some L =>
          rw [hm] at h
          have h1 : i = idx ∧ L = len := by
            have := Option.some.inj h
            exact ⟨congrArg Prod.fst this, congrArg Prod.snd this⟩
          obtain ⟨hi, hL⟩ := h1
          subst hi; subst hL
          obtain ⟨h1, h2⟩ := matchAt_pos hm
          exact ⟨0, by omega, by simpa using h2, h1, by simpa using hm, by omega⟩
      | none =>
          rw [hm] at h
          obtain ⟨j, hj, hrange, hpos, hmatch, hmin⟩ := ih h
          refine ⟨j + 1, by omega, by simp; omega, hpos, by simpa using hmatch, ?_⟩
          intro j' hj'
          cases j' with
          | zero => simpa using hm
          | succ j'' =>
              have : j'' < j := by omega
              simpa using hmin j'' this

/-! ### Structure of the parse loop -/

theorem parseLoop_zero (rest : List Char) (i : Nat) : parseLoop 0 rest i = [] := rfl

theorem parseLoop_succ (fuel : Nat) (rest : List Char) (lastIndex : Nat) :
    parseLoop (fuel + 1) rest lastIndex =
      match scanAux lastIndex rest with
      | none =>
          if rest.isEmpty then []
          else [⟨"md-" ++ toString lastIndex, PartType.markdown, String.mk rest⟩]
      | some (idx, len) =>
          (if lastIndex < idx then
            [⟨"md-" ++ toString lastIndex, PartType.markdown,
              String.mk (rest.take (idx - lastIndex))⟩]
           else []) ++
          ⟨"tbl-" ++ toString idx, PartType.table,
            String.mk ((rest.drop (idx - lastIndex)).take len)⟩ ::
            parseLoop fuel (rest.drop (idx - lastIndex + len)) (idx + len) := rfl

theorem parseLoop_succ_none {fuel : Nat} {rest : List Char} {lastIndex : Nat}
    (h : scanAux lastIndex rest = none) :
    parseLoop (fuel + 1) rest lastIndex =
      if rest.isEmpty then []
      else [⟨"md-" ++ toString lastIndex, PartType.markdown, String.mk rest⟩] := by
  rw [parseLoop_succ, h]

theorem parseLoop_succ_some {fuel : Nat} {rest : List Char} {lastIndex idx len : Nat}
    (h : scanAux lastIndex rest = some (idx, len)) :
    parseLoop (fuel + 1) rest lastIndex =
      (if lastIndex < idx then
        [⟨"md-" ++ toString lastIndex, PartType.markdown,
          String.mk (rest.take (idx - lastIndex))⟩]
       else []) ++
      ⟨"tbl-" ++ toString idx, PartType.table,
        String.mk ((rest.drop (idx - lastIndex)).take len)⟩ ::
        parseLoop fuel (rest.drop (idx - lastIndex + len)) (idx + len) := by
  rw [parseLoop_succ, h]

/-- Concatenation of the contents of a list of parts, with no separator. -/
def partsData (parts : List DocumentPart) : List Char :=
  parts.foldr (fun p acc => p.content.data ++ acc) []

theorem partsData_nil : partsData [] = [] := rfl

theorem partsData_cons (p : DocumentPart) (ps : List DocumentPart) :
    partsData (p :: ps) = p.content.data ++ partsData ps := rfl

theorem partsData_append (l1 l2 : List DocumentPart) :
    partsData (l1 ++ l2) = partsData l1 ++ partsData l2 := by
  induction l1 with
  | nil => simp [partsData]
  | cons p ps ih => simp [partsData_cons, ih, List.append_assoc]

/-- Tiling: the loop output concatenates back to exactly the suffix it was
run on. -/
theorem parseLoop_data : ∀ fuel rest i, rest.length < fuel →
    partsData (parseLoop fuel rest i) = rest := by
  intro fuel
  induction fuel with
  | zero => intro rest i h; exact absurd h (Nat.not_lt_zero _)
  | succ f ih =>
      intro rest i h
      rw [parseLoop_succ]
      cases hs : scanAux i rest with
      | none =>
          cases rest with
          | nil => simp [partsData]
          | cons a t => simp [partsData_cons, partsData_nil]
      | some p =>
          obtain ⟨idx, len⟩ := p
          obtain ⟨j, hj, hrange, hpos, hmatch, hmin⟩ := scanAux_spec hs
          have hd : idx - i = j := by omega
          have hrec : partsData (parseLoop f (rest.drop (idx - i + len)) (idx + len)) =
              rest.drop (idx - i + len) := by
            apply ih
            have : (rest.drop (idx - i + len)).length = rest.length - (idx - i + len) := by
              simp
            omega
          rw [partsData_append, partsData_cons, hrec]
          have hsplit : (rest.drop (idx - i)).take len ++ rest.drop (idx - i + len) =
              rest.drop (idx - i) := List.drop_take_append_drop rest (idx - i) len
          by_cases hlt : i < idx
          · rw [if_pos hlt]
            rw [partsData_cons, partsData_nil]
            show rest.take (idx - i) ++ [] ++
              ((rest.drop (idx - i)).take len ++ rest.drop (idx - i + len)) = rest
            rw [hsplit, List.append_nil]
            exact List.take_append_drop (idx - i) rest
          · rw [if_neg hlt]
            rw [partsData_nil]
            show [] ++ ((rest.drop (idx - i)).take len ++ rest.drop (idx - i + len)) = rest
            rw [List.nil_append, hsplit]
            have : idx - i = 0 := by omega
            rw [this]
            rfl

/-- Every part emitted by the loop has nonempty content: prose gaps are
only emitted when the match starts strictly later, the table match itself
is nonempty, and the trailing prose part is only emitted when text remains. -/
theorem parseLoop_content_ne : ∀ fuel rest i, rest.length < fuel →
    ∀ p ∈ parseLoop fuel rest i, p.content ≠ "" := by
  intro fuel
  induction fuel with
  | zero => intro rest i h; exact absurd h (Nat.not_lt_zero _)
  | succ f ih =>
      intro rest i h p hp
      rw [parseLoop_succ] at hp
      have hmk : ∀ l : List Char, l ≠ [] → String.mk l ≠ "" := by
        intro l hl hcon
        exact hl (congrArg String.data hcon)
      cases hs : scanAux i rest with
      | none =>
          rw [hs] at hp
          cases hrest : rest.isEmpty with
          | true => rw [hrest] at hp; simp at hp
          | false =>
              rw [hrest] at hp
              simp at hp
              subst hp
              exact hmk rest (by simpa using hrest)
      | some q =>
          obtain ⟨idx, len⟩ := q
          rw [hs] at hp
          obtain ⟨j, hj, hrange, hpos, hmatch, hmin⟩ := scanAux_spec hs
          simp only [List.mem_append, List.mem_cons] at hp
          rcases hp with hgap | htbl | hrec
          · by_cases hlt : i < idx
            · rw [if_pos hlt] at hgap
              simp only [List.mem_singleton] at hgap
              subst hgap
              apply hmk
              have : (rest.take (idx - i)).length = min (idx - i) rest.length := by simp
              intro hcon
              rw [hcon] at this
              simp at this
              omega
            · rw [if_neg hlt] at hgap
              simp at hgap
          · subst htbl
            apply hmk
            have : ((rest.drop (idx - i)).take len).length =
                min len (rest.length - (idx - i)) := by simp
            intro hcon
            rw [hcon] at this
            simp at this
            omega
          · apply ih _ (idx + len) _ p hrec
            have : (rest.drop (idx - i + len)).length = rest.length - (idx - i + len) := by
              simp
            omega

/-- Concatenation of the content fields of a list of parts, in order,
with no separator. -/
def concatContents (parts : List DocumentPart) : String :=
  parts.foldr (fun p acc => p.content ++ acc) ""

theorem concatContents_data (parts : List DocumentPart) :
    (concatContents parts).data = partsData parts := by
  induction parts with
  | nil => rfl
  | cons p ps ih =>
      show (p.content ++ concatContents ps).data = p.content.data ++ partsData ps
      rw [String.data_append, ih]

/-- C1: concatenating the text fields of the blocks returned by segmenting
a document, in order and without separator, reconstructs the document
exactly; the prose and table blocks partition the source without loss or
duplication. -/
theorem parseMarkdown_partition (D : String) :
    concatContents (parseMarkdown D) = D := by
  apply String.ext
  rw [concatContents_data]
  show partsData (parseLoop (D.length + 1) D.data 0) = D.data
  apply parseLoop_data
  have : D.length = D.data.length := rfl
  omega

/-! ### Concrete scenarios (claims C3, C4, C5) -/

/-- C3 counterexample: on the scenario-A input the third block is NOT the
claimed Prose block with two leading newlines; the table match consumes one
of the two newline characters after the last row, so only one newline is
left for the trailing prose block. -/
theorem scenarioA_cex :
    (parseMarkdown "Hello\n\n| a | b |\n|---|---|\n| 1 | 2 |\n\nBye").map
      (fun p => (p.type, p.content)) ≠
    [(PartType.markdown, "Hello\n\n"),
     (PartType.table, "| a | b |\n|---|---|\n| 1 | 2 |\n"),
     (PartType.markdown, "\n\nBye")] := by decide

/-- C3 amended: scenario A returns exactly the three blocks
Prose, Table, Prose, where the trailing prose block carries a single
leading newline. -/
theorem scenarioA_amended :
    (parseMarkdown "Hello\n\n| a | b |\n|---|---|\n| 1 | 2 |\n\nBye").map
      (fun p => (p.type, p.content)) =
    [(PartType.markdown, "Hello\n\n"),
     (PartType.table, "| a | b |\n|---|---|\n| 1 | 2 |\n"),
     (PartType.markdown, "\nBye")] := by decide

/-- C4 counterexample: two tables separated by a single blank line do NOT
segment into exactly two adjacent Table blocks: a one-character Prose block
holding the leftover newline appears between them. -/
theorem scenarioB_cex :
    (parseMarkdown "| a |\n|---|\n\n| b |\n|---|").map (fun p => p.type) =
    [PartType.table, PartType.markdown, PartType.table] := by decide

/-- C5: segmentation is total (it is a function in this embedding) and
always yields blocks with nonempty text, and a header row with no delimiter
row is classified as prose: scenario C yields a single Prose block holding
the whole input. -/
theorem parseMarkdown_total_scenarioC :
    (∀ (D : String), ∀ p ∈ parseMarkdown D, p.content ≠ "") ∧
    (parseMarkdown "| a | b |\n| 1 | 2 |").map (fun p => (p.type, p.content)) =
      [(PartType.markdown, "| a | b |\n| 1 | 2 |")] := by
  constructor
  · intro D p hp
    apply parseLoop_content_ne (D.length + 1) D.data 0 _ p hp
    have : D.length = D.data.length := rfl
    omega
  · decide

/-- C5 witness: the totality part applied at a concrete document and block. -/
theorem parseMarkdown_total_scenarioC_witness :
    (⟨"md-0", PartType.markdown, "| a | b |\n| 1 | 2 |"⟩ : DocumentPart).content ≠ "" :=
  parseMarkdown_total_scenarioC.1 "| a | b |\n| 1 | 2 |" _ (by decide)

/-! ### Round trip without tables (claim C7) -/

/-- C7: on a document with no table region (the scan finds no match),
segmentation yields a single Prose block holding the whole document (or no
blocks for the empty document), and flattening reproduces the document. -/
theorem flatten_roundtrip_no_tables (D : String) (h : scanAux 0 D.data = none) :
    combineParts (parseMarkdown D) = D ∧
    parseMarkdown D = (if D = "" then [] else [⟨"md-0", PartType.markdown, D⟩]) := by
  have hparse : parseMarkdown D = (if D = "" then [] else [⟨"md-0", PartType.markdown, D⟩]) := by
    show parseLoop (D.length + 1) D.data 0 = _
    rw [parseLoop_succ, h]
    have hmk : String.mk D.data = D := by cases D; rfl
    by_cases hD : D = ""
    · rw [if_pos hD]
      have : D.data.isEmpty = true := by subst hD; rfl
      rw [this]
      rfl
    · rw [if_neg hD]
      have : D.data.isEmpty = false := by
        cases hde : D.data.isEmpty with
        | true =>
            exfalso
            apply hD
            apply String.ext
            simpa [List.isEmpty_iff] using hde
        | false => rfl
      rw [this]
      simp only [hmk]
      rfl
  refine ⟨?_, hparse⟩
  rw [hparse]
  by_cases hD : D = ""
  · rw [if_pos hD, hD]; rfl
  · rw [if_neg hD]
    show String.intercalate "\n\n" [D] = D
    rfl

/-- C7 witness: applied to a concrete table-free document and to the empty
document. -/
theorem flatten_roundtrip_no_tables_witness :
    (combineParts (parseMarkdown "Hello") = "Hello" ∧
      parseMarkdown "Hello" =
        (if ("Hello" : String) = "" then []
         else [⟨"md-0", PartType.markdown, "Hello"⟩])) ∧
    (combineParts (parseMarkdown "") = "" ∧
      parseMarkdown "" = (if ("" : String) = "" then [] else [⟨"md-0", PartType.markdown, ""⟩])) :=
  ⟨flatten_roundtrip_no_tables "Hello" (by decide),
   flatten_roundtrip_no_tables "" (by decide)⟩

/-! ### Updates (claims C9, C10) -/

/-- Updating with an id that no part carries rewrites nothing. -/
theorem handleTableUpdate_no_match (parts : List DocumentPart) (tableId txt : String)
    (h : tableId ∉ parts.map DocumentPart.id) :
    handleTableUpdate parts tableId txt = parts := by
  induction parts with
  | nil => rfl
  | cons p ps ih =>
      simp only [List.map_cons, List.mem_cons] at h
      push_neg at h
      show (if p.id = tableId then _ else p) :: handleTableUpdate ps tableId txt = p :: ps
      rw [if_neg (fun hc => h.1 hc.symm), ih h.2]

/-- C9: updating with an id absent from the held sequence (including the
empty sequence) is a silent no-op. -/
theorem updateBlock_stale_id_noop (parts : List DocumentPart) (tableId txt : String)
    (h : tableId ∉ parts.map DocumentPart.id) :
    handleTableUpdate parts tableId txt = parts :=
  handleTableUpdate_no_match parts tableId txt h

/-- C9 witness: applied to a concrete held sequence with a stale id, and to
the empty sequence. -/
theorem updateBlock_stale_id_noop_witness :
    handleTableUpdate [⟨"tbl-0", PartType.table, "| a |\n|---|"⟩] "md-9" "x" =
      [⟨"tbl-0", PartType.table, "| a |\n|---|"⟩] ∧
    handleTableUpdate [] "tbl-0" "x" = [] :=
  ⟨updateBlock_stale_id_noop _ _ _ (by decide), updateBlock_stale_id_noop [] _ _ (by decide)⟩

/-- C10: updating the one part carrying the id replaces exactly its content,
keeping its id and type and every other part intact, and the flattened
document then carries the new text verbatim in place of the old one with
the surrounding texts unchanged. -/
theorem updateBlock_replaces_exactly (pre post : List DocumentPart) (b : DocumentPart)
    (txt : String) (hpre : b.id ∉ pre.map DocumentPart.id)
    (hpost : b.id ∉ post.map DocumentPart.id) :
    handleTableUpdate (pre ++ b :: post) b.id txt =
      pre ++ ⟨b.id, b.type, txt⟩ :: post ∧
    combineParts (handleTableUpdate (pre ++ b :: post) b.id txt) =
      String.intercalate "\n\n"
        (pre.map DocumentPart.content ++ txt :: post.map DocumentPart.content) := by
  have h1 : handleTableUpdate (pre ++ b :: post) b.id txt =
      pre ++ ⟨b.id, b.type, txt⟩ :: post := by
    show ((pre ++ b :: post).map _) = _
    rw [List.map_append, List.map_cons]
    show handleTableUpdate pre b.id txt ++
      (if b.id = b.id then { b with content := txt } else b) :: handleTableUpdate post b.id txt = _
    rw [if_pos rfl, handleTableUpdate_no_match pre b.id txt hpre,
      handleTableUpdate_no_match post b.id txt hpost]
  refine ⟨h1, ?_⟩
  rw [h1]
  show String.intercalate "\n\n" ((pre ++ _ :: post).map DocumentPart.content) = _
  rw [List.map_append, List.map_cons]

/-- C10 witness: applied to a concrete three-block document, updating the
table block in the middle with the scenario-E replacement text. -/
theorem updateBlock_replaces_exactly_witness :
    handleTableUpdate
        [⟨"md-0", PartType.markdown, "Hello\n\n"⟩,
         ⟨"tbl-7", PartType.table, "| a |\n|---|"⟩,
         ⟨"md-19", PartType.markdown, "\nBye"⟩] "tbl-7" "| x |\n|---|\n| 9 |" =
      [⟨"md-0", PartType.markdown, "Hello\n\n"⟩,
       ⟨"tbl-7", PartType.table, "| x |\n|---|\n| 9 |"⟩,
       ⟨"md-19", PartType.markdown, "\nBye"⟩] ∧
    combineParts
        (handleTableUpdate
          [⟨"md-0", PartType.markdown, "Hello\n\n"⟩,
           ⟨"tbl-7", PartType.table, "| a |\n|---|"⟩,
           ⟨"md-19", PartType.markdown, "\nBye"⟩] "tbl-7" "| x |\n|---|\n| 9 |") =
      String.intercalate "\n\n" ["Hello\n\n", "| x |\n|---|\n| 9 |", "\nBye"] :=
  updateBlock_replaces_exactly
    [⟨"md-0", PartType.markdown, "Hello\n\n"⟩]
    [⟨"md-19", PartType.markdown, "\nBye"⟩]
    ⟨"tbl-7", PartType.table, "| a |\n|---|"⟩
    "| x |\n|---|\n| 9 |" (by decide) (by decide)

/-! ### Ids (claim C8) -/

/-- Decimal decoding of a digit string, a left inverse of the digit
printing used by `Nat.repr`. -/
def decodeDigits (l : List Char) : Nat :=
  l.foldl (fun acc c => 10 * acc + (c.toNat - 48)) 0

theorem toDigitsCore_append10 : ∀ f n ds,
    Nat.toDigitsCore 10 f n ds = Nat.toDigitsCore 10 f n [] ++ ds := by
  intro f
  induction f with
  | zero => intro n ds; rfl
  | succ f ih =>
      intro n ds
      simp only [Nat.toDigitsCore]
      by_cases h : n / 10 = 0
      · simp [h]
      · rw [if_neg h, if_neg h]
        rw [ih (n / 10) (Nat.digitChar (n % 10) :: ds), ih (n / 10) [Nat.digitChar (n % 10)]]
        simp [List.append_assoc]

theorem digitChar_toNat : ∀ m, m < 10 → (Nat.digitChar m).toNat = 48 + m := by decide

theorem decodeDigits_append_digit (l : List Char) (c : Char) :
    decodeDigits (l ++ [c]) = 10 * decodeDigits l + (c.toNat - 48) := by
  simp [decodeDigits, List.foldl_append]

theorem decode_toDigitsCore10 : ∀ f n, n < f →
    decodeDigits (Nat.toDigitsCore 10 f n []) = n := by
  intro f
  induction f with
  | zero => intro n h; exact absurd h (Nat.not_lt_zero _)
  | succ f ih =>
      intro n h
      simp only [Nat.toDigitsCore]
      by_cases h0 : n / 10 = 0
      · rw [if_pos h0]
        have hm : n % 10 < 10 := Nat.mod_lt _ (by omega)
        have h1 : decodeDigits [Nat.digitChar (n % 10)] =
            (Nat.digitChar (n % 10)).toNat - 48 := by
          simp [decodeDigits]
        show decodeDigits [Nat.digitChar (n % 10)] = n
        rw [h1, digitChar_toNat _ hm]
        omega
      · rw [if_neg h0, toDigitsCore_append10, decodeDigits_append_digit]
        have hlt : n / 10 < f := by
          have h1 : 0 < n := by omega
          have := Nat.div_lt_self h1 (by norm_num : 1 < 10)
          omega
        rw [ih (n / 10) hlt]
        have hm : n % 10 < 10 := Nat.mod_lt _ (by omega)
        rw [digitChar_toNat _ hm]
        omega

/-- The decimal printing of naturals is injective. -/
theorem repr_data_inj {m n : Nat} (h : (Nat.repr m).data = (Nat.repr n).data) : m = n := by
  have hdm : decodeDigits (Nat.repr m).data = m :=
    decode_toDigitsCore10 (m + 1) m (Nat.lt_succ_self m)
  have hdn : decodeDigits (Nat.repr n).data = n :=
    decode_toDigitsCore10 (n + 1) n (Nat.lt_succ_self n)
  rw [h] at hdm
  omega

/-- The id assigned to a block, as a function of its kind and its starting
character offset. -/
def idOf : PartType → Nat → String
  | PartType.markdown, n => "md-" ++ Nat.repr n
  | PartType.table, n => "tbl-" ++ Nat.repr n

theorem idOf_offset_inj {t1 t2 : PartType} {n1 n2 : Nat} (h : idOf t1 n1 = idOf t2 n2) :
    n1 = n2 := by
  have hd := congrArg String.data h
  cases t1 <;> cases t2 <;>
    simp only [idOf, String.data_append] at hd
  · exact repr_data_inj (List.append_cancel_left hd)
  · have hh := congrArg List.head? hd
    rw [show (['m', 'd', '-'] ++ (Nat.repr n1).data).head? = some 'm' from rfl,
      show (['t', 'b', 'l', '-'] ++ (Nat.repr n2).data).head? = some 't' from rfl] at hh
    exact absurd hh (by decide)
  · have hh := congrArg List.head? hd
    rw [show (['t', 'b', 'l', '-'] ++ (Nat.repr n1).data).head? = some 't' from rfl,
      show (['m', 'd', '-'] ++ (Nat.repr n2).data).head? = some 'm' from rfl] at hh
    exact absurd hh (by decide)
  · exact repr_data_inj (List.append_cancel_left hd)

/-- Specification of the ids along a part list: each part carries the id
computed from its kind and its starting offset, offsets accumulating the
content lengths. -/
def IdSpec : Nat → List DocumentPart → Prop
  | _, [] => True
  | i, p :: ps => p.id = idOf p.type i ∧ IdSpec (i + p.content.length) ps

theorem parseLoop_ids : ∀ fuel rest i, rest.length < fuel →
    IdSpec i (parseLoop fuel rest i) := by
  intro fuel
  induction fuel with
  | zero => intro rest i h; exact absurd h (Nat.not_lt_zero _)
  | succ f ih =>
      intro rest i h
      cases hs : scanAux i rest with
      | none =>
          rw [parseLoop_succ_none hs]
          by_cases hrest : rest.isEmpty
          · rw [if_pos hrest]; exact trivial
          · rw [if_neg hrest]; exact ⟨rfl, trivial⟩
      | some q =>
          obtain ⟨idx, len⟩ := q
          rw [parseLoop_succ_some hs]
          obtain ⟨j, hj, hrange, hpos, hmatch, hmin⟩ := scanAux_spec hs
          have hrecfuel : (rest.drop (idx - i + len)).length < f := by
            have : (rest.drop (idx - i + len)).length = rest.length - (idx - i + len) := by
              simp
            omega
          have hrec := ih (rest.drop (idx - i + len)) (idx + len) hrecfuel
          have htbl_len : (String.mk ((rest.drop (idx - i)).take len)).length = len := by
            show ((rest.drop (idx - i)).take len).length = len
            simp
            omega
          by_cases hlt : i < idx
          · rw [if_pos hlt]
            have hgap_len : (String.mk (rest.take (idx - i))).length = idx - i := by
              show (rest.take (idx - i)).length = idx - i
              simp
              omega
            refine ⟨rfl, ?_⟩
            rw [hgap_len]
            have hoff : i + (idx - i) = idx := by omega
            rw [hoff]
            refine ⟨rfl, ?_⟩
            rw [htbl_len]
            exact hrec
          · rw [if_neg hlt]
            have hidx : idx = i := by omega
            subst hidx
            refine ⟨rfl, ?_⟩
            rw [htbl_len]
            exact hrec

theorem IdSpec_mono : ∀ (ps : List DocumentPart) (i : Nat), IdSpec i ps →
    ∀ q ∈ ps, ∃ m, i ≤ m ∧ q.id = idOf q.type m := by
  intro ps
  induction ps with
  | nil => intro i _ q hq; exact absurd hq (by simp)
  | cons p ps ih =>
      intro i hspec q hq
      obtain ⟨hid, hrest⟩ := hspec
      rcases List.mem_cons.mp hq with hqp | hq
      · subst hqp; exact ⟨i, Nat.le_refl _, hid⟩
      · obtain ⟨m, hm, hqid⟩ := ih (i + p.content.length) hrest q hq
        exact ⟨m, by omega, hqid⟩

theorem IdSpec_nodup : ∀ (ps : List DocumentPart) (i : Nat), IdSpec i ps →
    (∀ p ∈ ps, p.content ≠ "") → (ps.map DocumentPart.id).Nodup := by
  intro ps
  induction ps with
  | nil => intro i _ _; simp
  | cons p ps ih =>
      intro i hspec hne
      obtain ⟨hid, hrest⟩ := hspec
      rw [List.map_cons, List.nodup_cons]
      constructor
      · intro hmem
        obtain ⟨q, hq, hqid⟩ := List.mem_map.mp hmem
        obtain ⟨m, hm, hqid2⟩ := IdSpec_mono ps (i + p.content.length) hrest q hq
        have hcl : 0 < p.content.length := by
          rcases Nat.eq_zero_or_pos p.content.length with h0 | h0
          · exfalso
            apply hne p (List.mem_cons_self _ _)
            apply String.ext
            have hdl : p.content.data.length = 0 := h0
            exact List.length_eq_zero.mp hdl
          · exact h0
        have : m = i := idOf_offset_inj (hqid2.symm.trans (hqid.trans hid))
        omega
      · exact ih (i + p.content.length) hrest (fun q hq => hne q (by simp [hq]))

/-- C8: for every document, the ids of the returned blocks are pairwise
distinct, and each block's id is the deterministic function `idOf` of the
block's kind and its starting character offset (the accumulated length of
the preceding block texts, which tile the document). -/
theorem parseMarkdown_ids_unique (D : String) :
    ((parseMarkdown D).map DocumentPart.id).Nodup ∧ IdSpec 0 (parseMarkdown D) := by
  have hfuel : D.data.length < D.length + 1 := by
    have : D.length = D.data.length := rfl
    omega
  have hspec : IdSpec 0 (parseMarkdown D) := parseLoop_ids (D.length + 1) D.data 0 hfuel
  exact ⟨IdSpec_nodup _ 0 hspec
    (fun p hp => parseLoop_content_ne (D.length + 1) D.data 0 hfuel p hp), hspec⟩

/-! ### Deterministic characterization of the table matcher

The backtracking run of the table pattern is equivalent to the following
deterministic description: the match starts at a pipe; the header extends to
some later pipe on the same line (candidates tried rightmost first); then at
most one line terminator; then the delimiter fragment, a maximal chain of
hyphen-runs each followed by a pipe; after the delimiter everything is
optional, so the greedy engine then deterministically takes one optional
terminator and a maximal run of further rows, each extending to the
rightmost pipe of its line followed by an optional terminator. -/

/-- Try the continuation on suffixes obtained by consuming characters
satisfying `ok`, longest consumption first; this is the exploration order of
a greedy star over a one-character pattern. -/
def predStarRun (ok : Char → Bool) : List Char → (List Char → Option (List Char)) → Option (List Char)
  | [], k => k []
  | a :: t, k =>
      if ok a then
        match predStarRun ok t k with
        | some v => some v
        | none => k (a :: t)
      else k (a :: t)

/-- Try the continuation on the given suffixes in order. -/
def firstSome (k : List Char → Option (List Char)) : List (List Char) → Option (List Char)
  | [] => none
  | c :: cs =>
      match k c with
      | some v => some v
      | none => firstSome k cs

/-- Suffixes that the optional line-terminator pattern hands to its
continuation, in greedy priority order. -/
def nlCands : List Char → List (List Char)
  | [] => [[]]
  | a :: t =>
      if a = '\r' then
        match t with
        | b :: u => if b = '\n' then [u, t, a :: t] else [t, a :: t]
        | [] => [t, a :: t]
      else if a = '\n' then [t, a :: t]
      else [a :: t]

/-- Number of characters the optional line-terminator pattern consumes when
its continuation always succeeds: the first candidate. -/
def nlTake : List Char → Nat
  | [] => 0
  | a :: t =>
      if a = '\r' then
        match t with
        | b :: _ => if b = '\n' then 2 else 1
        | [] => 1
      else if a = '\n' then 1 else 0

/-- Length of the initial run of hyphens. -/
def dashCount : List Char → Nat
  | [] => 0
  | a :: t => if a = '-' then dashCount t + 1 else 0

/-- Length of one delimiter group, a nonempty hyphen run followed by a
pipe. -/
def groupLen (s : List Char) : Option Nat :=
  match s.drop (dashCount s) with
  | c :: _ =>
      if c = '|' then
        if dashCount s = 0 then none else some (dashCount s + 1)
      else none
  | [] => none

/-- Total length of the maximal chain of complete delimiter groups, with
fuel for structural recursion. -/
def chainSkipF : Nat → List Char → Nat
  | 0, _ => 0
  | fuel + 1, s =>
      match groupLen s with
      | some g => g + chainSkipF fuel (s.drop g)
      | none => 0

/-- Total length of the maximal chain of complete delimiter groups. -/
def chainSkip (s : List Char) : Nat := chainSkipF (s.length + 1) s

/-- Suffix left after the delimiter fragment, when it matches: a pipe
followed by at least one complete group, consuming the maximal chain. -/
def delimSpec : List Char → Option (List Char)
  | [] => none
  | a :: s1 =>
      if a = '|' then
        match groupLen s1 with
        | some _ => some (s1.drop (chainSkip s1))
        | none => none
      else none

/-- Index of the last pipe within the current line (the run of
non-terminator characters), if any. -/
def lineLastPipe : List Char → Option Nat
  | [] => none
  | a :: t =>
      if isNL a then none
      else
        match lineLastPipe t with
        | some m => some (m + 1)
        | none => if a = '|' then some 0 else none

/-- Length one further row consumes when the continuation always succeeds:
a pipe, the line up to its rightmost pipe, and an optional terminator. -/
def rowLen : List Char → Option Nat
  | [] => none
  | a :: s1 =>
      if a = '|' then
        match lineLastPipe s1 with
        | some e => some (1 + (e + 1) + nlTake (s1.drop (e + 1)))
        | none => none
      else none

/-- Total length of the maximal run of further rows, with fuel. -/
def rowsSkipF : Nat → List Char → Nat
  | 0, _ => 0
  | fuel + 1, s =>
      match rowLen s with
      | some g => g + rowsSkipF fuel (s.drop g)
      | none => 0

/-- Total length of the maximal run of further rows. -/
def rowsSkip (s : List Char) : Nat := rowsSkipF (s.length + 1) s

/-- Suffix left after the all-optional tail of the pattern (one optional
terminator, then further rows). -/
def tailSpec (r : List Char) : List Char :=
  (r.drop (nlTake r)).drop (rowsSkip (r.drop (nlTake r)))

/-- Continuation used by `specRun` after the closing pipe of the header:
an optional line terminator, then the delimiter, then the all-optional
tail. -/
def afterHdr (u1 : List Char) : Option (List Char) :=
  firstSome (fun c => (delimSpec c).map tailSpec) (nlCands u1)

/-- Deterministic description of the full table-pattern match: the
unconsumed suffix of the first successful backtracking path. -/
def specRun : List Char → Option (List Char)
  | [] => none
  | a :: s1 =>
      if a = '|' then
        predStarRun (fun c => !isNL c) s1 (fun u =>
          match u with
          | [] => none
          | b :: u1 => if b = '|' then afterHdr u1 else none)
      else none

/-- Deterministic description of the match length of the table pattern. -/
def matchAtSpec (s : List Char) : Option Nat :=
  (specRun s).map (fun t => s.length - t.length)

/-! ### Equivalence of the engine with the deterministic description -/

theorem match_opt_id {α : Type} (x : Option α) :
    (match x with | some v => some v | none => none) = x := by
  cases x <;> rfl

theorem firstSome_singleton (k : List Char → Option (List Char)) (c : List Char) :
    firstSome k [c] = k c := by
  cases hk : k c <;> simp [firstSome, hk]

/-- A greedy star over a one-character pattern explores exactly the
suffixes in `predStarRun` order. -/
theorem runAux_star_pred {r : RE} {ok : Char → Bool}
    (hnil : ∀ (loop : RE → List Char → (List Char → Option (List Char)) → Option (List Char))
      (k : List Char → Option (List Char)), runAux loop r [] k = none)
    (hcons : ∀ loop (a : Char) (t : List Char) (k : List Char → Option (List Char)),
      runAux loop r (a :: t) k = if ok a then k t else none) :
    ∀ f (s : List Char) (k : List Char → Option (List Char)), s.length ≤ f →
      runAux (run f) (RE.star r) s k = predStarRun ok s k := by
  intro f s
  induction s generalizing f with
  | nil =>
      intro k h
      rw [runAux_star, hnil]
      rfl
  | cons a t ih =>
      intro k h
      rw [runAux_star, hcons]
      by_cases hok : ok a
      · rw [if_pos hok]
        have hlt : t.length < (a :: t).length := by simp
        rw [if_pos hlt]
        obtain ⟨f', rfl⟩ : ∃ f', f = f' + 1 :=
          ⟨f - 1, by simp only [List.length_cons] at h; omega⟩
        rw [run_succ, ih f' _ (by simp only [List.length_cons] at h; omega)]
        show _ = predStarRun ok (a :: t) k
        rw [predStarRun, if_pos hok]
      · rw [if_neg hok]
        show k (a :: t) = predStarRun ok (a :: t) k
        rw [predStarRun, if_neg hok]

theorem runAux_dot_shape :
    (∀ loop (k : List Char → Option (List Char)), runAux loop RE.dot [] k = none) ∧
    ∀ loop (a : Char) (t : List Char) (k : List Char → Option (List Char)),
      runAux loop RE.dot (a :: t) k = if (!isNL a) then k t else none := by
  refine ⟨fun loop k => runAux_dot_nil k, fun loop a t k => ?_⟩
  rw [runAux_dot_cons]
  cases h : isNL a <;> simp [h]

theorem runAux_dash_shape :
    (∀ loop (k : List Char → Option (List Char)), runAux loop (RE.chr '-') [] k = none) ∧
    ∀ loop (a : Char) (t : List Char) (k : List Char → Option (List Char)),
      runAux loop (RE.chr '-') (a :: t) k = if (a == '-') then k t else none := by
  refine ⟨fun loop k => runAux_chr_nil '-' k, fun loop a t k => ?_⟩
  rw [runAux_chr_cons]
  by_cases h : a = '-'
  · rw [if_pos h, if_pos (by simp [h])]
  · rw [if_neg h, if_neg (by simp [h])]

/-- Pointwise equal continuations give equal explorations. -/
theorem predStarRun_congr {ok : Char → Bool} {k1 k2 : List Char → Option (List Char)}
    (h : ∀ u, k1 u = k2 u) : ∀ s, predStarRun ok s k1 = predStarRun ok s k2 := by
  intro s
  induction s with
  | nil => exact h []
  | cons a t ih =>
      rw [predStarRun, predStarRun]
      by_cases hok : ok a
      · rw [if_pos hok, if_pos hok, ih, h]
      · rw [if_neg hok, if_neg hok, h]

theorem firstSome_congr {k1 k2 : List Char → Option (List Char)}
    (h : ∀ u, k1 u = k2 u) : ∀ cs, firstSome k1 cs = firstSome k2 cs := by
  intro cs
  induction cs with
  | nil => rfl
  | cons c cs ih => rw [firstSome, firstSome, h, ih]

/-- The optional line-terminator pattern explores exactly the `nlCands`
suffixes in order. -/
theorem runAux_optnl (loop : RE → List Char → (List Char → Option (List Char)) → Option (List Char))
    (s : List Char) (k : List Char → Option (List Char)) :
    runAux loop (RE.opt nlRE) s k = firstSome k (nlCands s) := by
  cases s with
  | nil =>
      rw [show nlCands [] = [[]] from rfl, firstSome_singleton]
      rfl
  | cons a t =>
      by_cases har : a = '\r'
      · subst har
        cases t with
        | nil =>
            rw [show nlCands ['\r'] = [[], ['\r']] from rfl]
            cases hk1 : k [] <;> cases hk2 : k ['\r'] <;>
              simp [RE.opt, nlRE, runAux_alt, runAux_seq, runAux_eps,
                runAux_chr_cons, runAux_chr_nil, firstSome, hk1, hk2]
        | cons b u =>
            by_cases hbn : b = '\n'
            · subst hbn
              rw [show nlCands ('\r' :: '\n' :: u) = [u, '\n' :: u, '\r' :: '\n' :: u] from rfl]
              cases hk1 : k u <;> cases hk2 : k ('\n' :: u) <;> cases hk3 : k ('\r' :: '\n' :: u) <;>
                simp [RE.opt, nlRE, runAux_alt, runAux_seq, runAux_eps,
                  runAux_chr_cons, runAux_chr_nil, firstSome, hk1, hk2, hk3]
            · rw [show nlCands ('\r' :: b :: u) =
                (if b = '\n' then [u, b :: u, '\r' :: b :: u] else [b :: u, '\r' :: b :: u])
                from rfl, if_neg hbn]
              cases hk1 : k (b :: u) <;> cases hk2 : k ('\r' :: b :: u) <;>
                simp [RE.opt, nlRE, runAux_alt, runAux_seq, runAux_eps,
                  runAux_chr_cons, runAux_chr_nil, firstSome, hbn, hk1, hk2]
      · by_cases han : a = '\n'
        · subst han
          rw [show nlCands ('\n' :: t) =
            (if ('\n' : Char) = '\r' then [] else if ('\n' : Char) = '\n' then [t, '\n' :: t]
              else ['\n' :: t]) from rfl]
          rw [if_neg (by decide), if_pos rfl]
          cases hk1 : k t <;> cases hk2 : k ('\n' :: t) <;>
            simp [RE.opt, nlRE, runAux_alt, runAux_seq, runAux_eps,
              runAux_chr_cons, runAux_chr_nil, firstSome, hk1, hk2]
        · rw [show nlCands (a :: t) =
            (if a = '\r' then
              (match t with
               | b :: u => if b = '\n' then [u, t, a :: t] else [t, a :: t]
               | [] => [t, a :: t])
             else if a = '\n' then [t, a :: t] else [a :: t]) from rfl,
            if_neg har, if_neg han, firstSome_singleton]
          simp [RE.opt, nlRE, runAux_alt, runAux_seq, runAux_eps,
            runAux_chr_cons, runAux_chr_nil, har, han]

/-! Structural facts about the deterministic pieces. -/

theorem nlTake_le (s : List Char) : nlTake s ≤ s.length := by
  cases s with
  | nil => exact Nat.le_refl _
  | cons a t =>
      cases t with
      | nil =>
          show (if a = '\r' then 1 else if a = '\n' then 1 else 0) ≤ ([a] : List Char).length
          by_cases har : a = '\r' <;> by_cases han : a = '\n' <;> simp [har, han]
      | cons b u =>
          show (if a = '\r' then (if b = '\n' then 2 else 1)
            else if a = '\n' then 1 else 0) ≤ (a :: b :: u).length
          by_cases har : a = '\r' <;> by_cases hbn : b = '\n' <;> by_cases han : a = '\n' <;>
            simp [har, hbn, han]

theorem nlCands_head (s : List Char) : ∃ cs, nlCands s = s.drop (nlTake s) :: cs := by
  cases s with
  | nil => exact ⟨[], rfl⟩
  | cons a t =>
      cases t with
      | nil =>
          by_cases har : a = '\r'
          · subst har
            exact ⟨[['\r']], rfl⟩
          · by_cases han : a = '\n'
            · subst han
              exact ⟨[['\n']], rfl⟩
            · refine ⟨[], ?_⟩
              show (if a = '\r' then ([] : List Char) :: [[a]]
                else if a = '\n' then [[], [a]] else [[a]]) =
                ([a] : List Char).drop (if a = '\r' then 1 else if a = '\n' then 1 else 0) :: []
              rw [if_neg har, if_neg han, if_neg har, if_neg han]
              rfl
      | cons b u =>
          by_cases har : a = '\r'
          · subst har
            by_cases hbn : b = '\n'
            · subst hbn
              exact ⟨['\n' :: u, '\r' :: '\n' :: u], rfl⟩
            · refine ⟨['\r' :: b :: u], ?_⟩
              show (if b = '\n' then [u, b :: u, '\r' :: b :: u] else [b :: u, '\r' :: b :: u]) =
                ('\r' :: b :: u).drop (if b = '\n' then 2 else 1) :: ['\r' :: b :: u]
              rw [if_neg hbn, if_neg hbn]
              rfl
          · by_cases han : a = '\n'
            · subst han
              exact ⟨['\n' :: b :: u], rfl⟩
            · refine ⟨[], ?_⟩
              show (if a = '\r' then
                  (if b = '\n' then [u, b :: u, a :: b :: u] else [b :: u, a :: b :: u])
                else if a = '\n' then [b :: u, a :: b :: u] else [a :: b :: u]) =
                (a :: b :: u).drop
                  (if a = '\r' then (if b = '\n' then 2 else 1)
                   else if a = '\n' then 1 else 0) :: []
              rw [if_neg har, if_neg han, if_neg har, if_neg han]
              rfl

theorem firstSome_head_isSome {k : List Char → Option (List Char)} {c : List Char}
    (h : (k c).isSome) (cs : List (List Char)) : firstSome k (c :: cs) = k c := by
  cases hk : k c with
  | none => rw [hk] at h; exact absurd h (by simp)
  | some v => simp [firstSome, hk]

/-- With a continuation that succeeds on the first candidate, the optional
terminator consumes greedily. -/
theorem firstSome_nlCands {k : List Char → Option (List Char)} {s : List Char}
    (h : (k (s.drop (nlTake s))).isSome) :
    firstSome k (nlCands s) = k (s.drop (nlTake s)) := by
  obtain ⟨cs, hcs⟩ := nlCands_head s
  rw [hcs]
  exact firstSome_head_isSome h cs

theorem dashCount_le (s : List Char) : dashCount s ≤ s.length := by
  induction s with
  | nil => exact Nat.le_refl _
  | cons a t ih =>
      show (if a = '-' then dashCount t + 1 else 0) ≤ (a :: t).length
      by_cases h : a = '-'
      · rw [if_pos h]; simpa using ih
      · rw [if_neg h]; simp

theorem groupLen_bounds {s : List Char} {g : Nat} (h : groupLen s = some g) :
    2 ≤ g ∧ g ≤ s.length := by
  unfold groupLen at h
  cases hd : s.drop (dashCount s) with
  | nil => rw [hd] at h; exact absurd h (by simp)
  | cons c l =>
      rw [hd] at h
      have h' : (if c = '|' then
          (if dashCount s = 0 then none else some (dashCount s + 1))
        else none) = some g := h
      by_cases hc : c = '|'
      · rw [if_pos hc] at h'
        by_cases h0 : dashCount s = 0
        · rw [if_pos h0] at h'; exact absurd h' (by simp)
        · rw [if_neg h0] at h'
          have hg : dashCount s + 1 = g := Option.some.inj h'
          have hlen : (s.drop (dashCount s)).length = s.length - dashCount s := by simp
          rw [hd] at hlen
          simp only [List.length_cons] at hlen
          omega
      · rw [if_neg hc] at h'; exact absurd h' (by simp)

theorem chainSkipF_irrel : ∀ f1 f2 s, s.length < f1 → s.length < f2 →
    chainSkipF f1 s = chainSkipF f2 s := by
  intro f1
  induction f1 with
  | zero => intro f2 s h1 _; exact absurd h1 (Nat.not_lt_zero _)
  | succ f1 ih =>
      intro f2 s h1 h2
      obtain ⟨f2', rfl⟩ : ∃ f2', f2 = f2' + 1 := ⟨f2 - 1, by omega⟩
      cases hg : groupLen s with
      | none =>
          show (match groupLen s with
            | some g => g + chainSkipF f1 (s.drop g)
            | none => 0) =
            (match groupLen s with
            | some g => g + chainSkipF f2' (s.drop g)
            | none => 0)
          rw [hg]
      | some g =>
          obtain ⟨hg2, hgle⟩ := groupLen_bounds hg
          have hdl : (s.drop g).length = s.length - g := by simp
          show (match groupLen s with
            | some g => g + chainSkipF f1 (s.drop g)
            | none => 0) =
            (match groupLen s with
            | some g => g + chainSkipF f2' (s.drop g)
            | none => 0)
          rw [hg]
          show g + chainSkipF f1 (s.drop g) = g + chainSkipF f2' (s.drop g)
          rw [ih f2' (s.drop g) (by omega) (by omega)]

theorem chainSkip_unfold (s : List Char) :
    chainSkip s =
      match groupLen s with
      | some g => g + chainSkip (s.drop g)
      | none => 0 := by
  cases hg : groupLen s with
  | none =>
      show chainSkipF (s.length + 1) s = _
      rw [show chainSkipF (s.length + 1) s =
        (match groupLen s with
         | some g => g + chainSkipF s.length (s.drop g)
         | none => 0) from rfl, hg]
  | some g =>
      obtain ⟨hg2, hgle⟩ := groupLen_bounds hg
      have hdl : (s.drop g).length = s.length - g := by simp
      show chainSkipF (s.length + 1) s = _
      rw [show chainSkipF (s.length + 1) s =
        (match groupLen s with
         | some g => g + chainSkipF s.length (s.drop g)
         | none => 0) from rfl, hg]
      show g + chainSkipF s.length (s.drop g) = g + chainSkip (s.drop g)
      rw [chainSkip, chainSkipF_irrel s.length ((s.drop g).length + 1) (s.drop g)
        (by omega) (by omega)]

theorem lineLastPipe_lt {s : List Char} {e : Nat} (h : lineLastPipe s = some e) :
    e < s.length := by
  induction s generalizing e with
  | nil => exact absurd h (by simp [lineLastPipe])
  | cons a t ih =>
      have h' : (if isNL a then none
        else match lineLastPipe t with
          | some m => some (m + 1)
          | none => if a = '|' then some 0 else none) = some e := h
      by_cases hnl : isNL a
      · rw [if_pos hnl] at h'; exact absurd h' (by simp)
      · rw [if_neg hnl] at h'
        cases hm : lineLastPipe t with
        | some m =>
            rw [hm] at h'
            have := ih hm
            have he : m + 1 = e := Option.some.inj h'
            simp only [List.length_cons]
            omega
        | none =>
            rw [hm] at h'
            by_cases hp : a = '|'
            · rw [if_pos hp] at h'
              have he : 0 = e := Option.some.inj h'
              simp only [List.length_cons]
              omega
            · rw [if_neg hp] at h'; exact absurd h' (by simp)

theorem rowLen_bounds {s : List Char} {g : Nat} (h : rowLen s = some g) :
    2 ≤ g ∧ g ≤ s.length := by
  cases s with
  | nil => exact absurd h (by simp [rowLen])
  | cons a s1 =>
      have h' : (if a = '|' then
          (match lineLastPipe s1 with
           | some e => some (1 + (e + 1) + nlTake (s1.drop (e + 1)))
           | none => none)
        else none) = some g := h
      by_cases hp : a = '|'
      · rw [if_pos hp] at h'
        cases he : lineLastPipe s1 with
        | none => rw [he] at h'; exact absurd h' (by simp)
        | some e =>
            rw [he] at h'
            have hg : 1 + (e + 1) + nlTake (s1.drop (e + 1)) = g := Option.some.inj h'
            have h1 := lineLastPipe_lt he
            have h2 := nlTake_le (s1.drop (e + 1))
            have h3 : (s1.drop (e + 1)).length = s1.length - (e + 1) := by simp
            simp only [List.length_cons]
            omega
      · rw [if_neg hp] at h'; exact absurd h' (by simp)

theorem rowsSkipF_irrel : ∀ f1 f2 s, s.length < f1 → s.length < f2 →
    rowsSkipF f1 s = rowsSkipF f2 s := by
  intro f1
  induction f1 with
  | zero => intro f2 s h1 _; exact absurd h1 (Nat.not_lt_zero _)
  | succ f1 ih =>
      intro f2 s h1 h2
      obtain ⟨f2', rfl⟩ : ∃ f2', f2 = f2' + 1 := ⟨f2 - 1, by omega⟩
      cases hg : rowLen s with
      | none =>
          show (match rowLen s with
            | some g => g + rowsSkipF f1 (s.drop g)
            | none => 0) =
            (match rowLen s with
            | some g => g + rowsSkipF f2' (s.drop g)
            | none => 0)
          rw [hg]
      | some g =>
          obtain ⟨hg2, hgle⟩ := rowLen_bounds hg
          have hdl : (s.drop g).length = s.length - g := by simp
          show (match rowLen s with
            | some g => g + rowsSkipF f1 (s.drop g)
            | none => 0) =
            (match rowLen s with
            | some g => g + rowsSkipF f2' (s.drop g)
            | none => 0)
          rw [hg]
          show g + rowsSkipF f1 (s.drop g) = g + rowsSkipF f2' (s.drop g)
          rw [ih f2' (s.drop g) (by omega) (by omega)]

theorem rowsSkip_unfold (s : List Char) :
    rowsSkip s =
      match rowLen s with
      | some g => g + rowsSkip (s.drop g)
      | none => 0 := by
  cases hg : rowLen s with
  | none =>
      show rowsSkipF (s.length + 1) s = _
      rw [show rowsSkipF (s.length + 1) s =
        (match rowLen s with
         | some g => g + rowsSkipF s.length (s.drop g)
         | none => 0) from rfl, hg]
  | some g =>
      obtain ⟨hg2, hgle⟩ := rowLen_bounds hg
      have hdl : (s.drop g).length = s.length - g := by simp
      show rowsSkipF (s.length + 1) s = _
      rw [show rowsSkipF (s.length + 1) s =
        (match rowLen s with
         | some g => g + rowsSkipF s.length (s.drop g)
         | none => 0) from rfl, hg]
      show g + rowsSkipF s.length (s.drop g) = g + rowsSkip (s.drop g)
      rw [rowsSkip, rowsSkipF_irrel s.length ((s.drop g).length + 1) (s.drop g)
        (by omega) (by omega)]

theorem nlCands_length {c s : List Char} (h : c ∈ nlCands s) : c.length ≤ s.length := by
  cases s with
  | nil =>
      have : c ∈ [([] : List Char)] := h
      simp at this
      subst this
      exact Nat.le_refl _
  | cons a t =>
      cases t with
      | nil =>
          by_cases har : a = '\r'
          · subst har
            have : c ∈ [([] : List Char), ['\r']] := h
            rcases (by simpa using this : c = [] ∨ c = ['\r']) with rfl | rfl <;>
              (try simp only [List.length_cons]) <;> omega
          · by_cases han : a = '\n'
            · subst han
              have : c ∈ [([] : List Char), ['\n']] := h
              rcases (by simpa using this : c = [] ∨ c = ['\n']) with rfl | rfl <;>
                (try simp only [List.length_cons]) <;> omega
            · have hc : c ∈ [[a]] := by
                have heq : nlCands [a] = [[a]] := by
                  show (if a = '\r' then ([] : List Char) :: [[a]]
                    else if a = '\n' then [[], [a]] else [[a]]) = [[a]]
                  rw [if_neg har, if_neg han]
                rw [heq] at h
                exact h
              simp at hc
              subst hc
              exact Nat.le_refl _
      | cons b u =>
          by_cases har : a = '\r'
          · subst har
            by_cases hbn : b = '\n'
            · subst hbn
              have : c ∈ [u, '\n' :: u, '\r' :: '\n' :: u] := h
              rcases (by simpa using this) with rfl | rfl | rfl <;>
                (try simp only [List.length_cons]) <;> omega
            · have heq : nlCands ('\r' :: b :: u) = [b :: u, '\r' :: b :: u] := by
                show (if b = '\n' then [u, b :: u, '\r' :: b :: u]
                  else [b :: u, '\r' :: b :: u]) = [b :: u, '\r' :: b :: u]
                rw [if_neg hbn]
              rw [heq] at h
              rcases (by simpa using h : c = b :: u ∨ c = '\r' :: b :: u) with rfl | rfl <;>
                (try simp only [List.length_cons]) <;> omega
          · by_cases han : a = '\n'
            · subst han
              have : c ∈ [b :: u, '\n' :: b :: u] := h
              rcases (by simpa using this) with rfl | rfl <;>
                (try simp only [List.length_cons]) <;> omega
            · have heq : nlCands (a :: b :: u) = [a :: b :: u] := by
                show (if a = '\r' then
                    (if b = '\n' then [u, b :: u, a :: b :: u] else [b :: u, a :: b :: u])
                  else if a = '\n' then [b :: u, a :: b :: u] else [a :: b :: u]) = [a :: b :: u]
                rw [if_neg har, if_neg han]
              rw [heq] at h
              simp at h
              subst h
              exact Nat.le_refl _

theorem predStarRun_congr_le {ok : Char → Bool} {k1 k2 : List Char → Option (List Char)} :
    ∀ s, (∀ u, u.length ≤ s.length → k1 u = k2 u) →
      predStarRun ok s k1 = predStarRun ok s k2 := by
  intro s
  induction s with
  | nil => intro h; exact h [] (Nat.le_refl _)
  | cons a t ih =>
      intro h
      rw [predStarRun, predStarRun]
      by_cases hok : ok a
      · rw [if_pos hok, if_pos hok,
          ih (fun u hu => h u (by simp only [List.length_cons]; omega)),
          h (a :: t) (Nat.le_refl _)]
      · rw [if_neg hok, if_neg hok, h (a :: t) (Nat.le_refl _)]

theorem firstSome_congr_mem {k1 k2 : List Char → Option (List Char)} :
    ∀ cs, (∀ c ∈ cs, k1 c = k2 c) → firstSome k1 cs = firstSome k2 cs := by
  intro cs
  induction cs with
  | nil => intro _; rfl
  | cons c cs ih =>
      intro h
      rw [firstSome, firstSome, h c (by simp), ih (fun d hd => h d (by simp [hd]))]

/-- The shape of the literal-pipe pattern as a continuation. -/
theorem runAux_chr_pipe_shape {loop} (u : List Char) (k : List Char → Option (List Char)) :
    runAux loop (RE.chr '|') u k =
      match u with
      | [] => none
      | b :: u1 => if b = '|' then k u1 else none := by
  cases u with
  | nil => rw [runAux_chr_nil]
  | cons b u1 => rw [runAux_chr_cons]

/-- Exploring dash consumptions longest-first against a continuation that
fails on a dash-headed suffix lands exactly after the full dash run. -/
theorem predStarRun_dashes (k : List Char → Option (List Char)) :
    ∀ t : List Char,
      predStarRun (fun c => c == '-') t
        (fun u => match u with
          | [] => none
          | b :: u1 => if b = '|' then k u1 else none) =
      (match t.drop (dashCount t) with
        | [] => none
        | b :: u1 => if b = '|' then k u1 else none) := by
  intro t
  induction t with
  | nil => rfl
  | cons b u ih =>
      by_cases hb : b = '-'
      · subst hb
        have hdc : dashCount ('-' :: u) = dashCount u + 1 := by
          show (if ('-' : Char) = '-' then dashCount u + 1 else 0) = dashCount u + 1
          rw [if_pos rfl]
        rw [hdc, show ('-' :: u).drop (dashCount u + 1) = u.drop (dashCount u) from rfl]
        rw [predStarRun, if_pos (by decide), ih]
        cases hd : u.drop (dashCount u) with
        | nil =>
            show (match (none : Option (List Char)) with
              | some v => some v
              | none => if ('-' : Char) = '|' then k u else none) = none
            rw [if_neg (by decide)]
        | cons b u1 =>
            by_cases hb : b = '|'
            · subst hb
              cases hk : k u1 with
              | some v =>
                  show (match (if ('|' : Char) = '|' then k u1 else none) with
                    | some v => some v
                    | none => if ('-' : Char) = '|' then k u else none) =
                    (if ('|' : Char) = '|' then k u1 else none)
                  rw [if_pos rfl, hk]
              | none =>
                  show (match (if ('|' : Char) = '|' then k u1 else none) with
                    | some v => some v
                    | none => if ('-' : Char) = '|' then k u else none) =
                    (if ('|' : Char) = '|' then k u1 else none)
                  rw [if_pos rfl, hk, if_neg (by decide)]
            · show (match (if b = '|' then k u1 else none : Option (List Char)) with
                | some v => some v
                | none => if ('-' : Char) = '|' then k u else none) =
                (if b = '|' then k u1 else none)
              rw [if_neg hb, if_neg (by decide)]
      · have hdc : dashCount (b :: u) = 0 := by
          show (if b = '-' then dashCount u + 1 else 0) = 0
          rw [if_neg hb]
        rw [hdc, List.drop_zero]
        rw [predStarRun, if_neg (by simp [hb])]

/-- Behavior of the delimiter group pattern `-+\|` against any
continuation. -/
theorem runAux_delimBody (f : Nat) (s : List Char) (k : List Char → Option (List Char))
    (hf : s.length ≤ f + 1) :
    runAux (run f) (RE.seq (RE.plus (RE.chr '-')) (RE.chr '|')) s k =
      match groupLen s with
      | some g => k (s.drop g)
      | none => none := by
  rw [runAux_seq]
  show runAux (run f) (RE.seq (RE.chr '-') (RE.star (RE.chr '-'))) s _ = _
  rw [runAux_seq]
  cases s with
  | nil => rw [runAux_chr_nil]; rfl
  | cons a t =>
      rw [runAux_chr_cons]
      by_cases ha : a = '-'
      · rw [if_pos ha]
        have hfuel : t.length ≤ f := by
          simp only [List.length_cons] at hf
          omega
        show runAux (run f) (RE.star (RE.chr '-')) t
          (fun u => runAux (run f) (RE.chr '|') u k) = _
        rw [runAux_star_pred runAux_dash_shape.1 runAux_dash_shape.2 f t _ hfuel]
        rw [predStarRun_congr_le t (fun u _ => runAux_chr_pipe_shape u k)]
        rw [predStarRun_dashes]
        have hdc : dashCount (a :: t) = dashCount t + 1 := by
          show (if a = '-' then dashCount t + 1 else 0) = dashCount t + 1
          rw [if_pos ha]
        cases hd : t.drop (dashCount t) with
        | nil =>
            have hgl : groupLen (a :: t) = none := by
              unfold groupLen
              rw [hdc, show (a :: t).drop (dashCount t + 1) = t.drop (dashCount t) from rfl, hd]
            rw [hgl]
        | cons b u1 =>
            have hgl : groupLen (a :: t) =
                (if b = '|' then some (dashCount t + 1 + 1) else none) := by
              unfold groupLen
              rw [hdc, show (a :: t).drop (dashCount t + 1) = t.drop (dashCount t) from rfl, hd]
              show (if b = '|' then
                  (if dashCount t + 1 = 0 then none else some (dashCount t + 1 + 1))
                else none) = _
              by_cases hb : b = '|'
              · rw [if_pos hb, if_pos hb, if_neg (by omega : ¬(dashCount t + 1 = 0))]
              · rw [if_neg hb, if_neg hb]
            rw [hgl]
            have hu : t.drop (dashCount t + 1) = u1 := by
              have h1 : List.drop 1 (List.drop (dashCount t) t) = List.drop 1 (b :: u1) := by
                rw [hd]
              rw [List.drop_drop] at h1
              simpa using h1
            show (if b = '|' then k u1 else none) =
              (match (if b = '|' then some (dashCount t + 1 + 1) else none : Option Nat) with
               | some g => k ((a :: t).drop g)
               | none => none)
            by_cases hb : b = '|'
            · rw [if_pos hb, if_pos hb]
              show k u1 = k ((a :: t).drop (dashCount t + 1 + 1))
              rw [show (a :: t).drop (dashCount t + 1 + 1) = t.drop (dashCount t + 1) from rfl,
                hu]
            · rw [if_neg hb, if_neg hb]
      · rw [if_neg ha]
        have hgl : groupLen (a :: t) = none := by
          unfold groupLen
          have hdc : dashCount (a :: t) = 0 := by
            show (if a = '-' then dashCount t + 1 else 0) = 0
            rw [if_neg ha]
          rw [hdc, List.drop_zero]
          show (if a = '|' then (if (0 : Nat) = 0 then none else some (0 + 1)) else none) = none
          by_cases hc : a = '|'
          · rw [if_pos hc, if_pos rfl]
          · rw [if_neg hc]
        rw [hgl]

/-- The maximal-chain loop of delimiter groups: with a continuation that
succeeds on strictly shorter suffixes, the greedy star consumes exactly the
maximal chain. -/
theorem runAux_star_delim : ∀ (f : Nat) (s : List Char) (k : List Char → Option (List Char)),
    s.length ≤ f → (∀ t : List Char, t.length < s.length → (k t).isSome) →
    runAux (run f) (RE.star (RE.seq (RE.plus (RE.chr '-')) (RE.chr '|'))) s k =
      k (s.drop (chainSkip s)) := by
  intro f
  induction f with
  | zero =>
      intro s k h _
      have hs : s = [] := List.length_eq_zero.mp (Nat.le_zero.mp h)
      subst hs
      rw [runAux_star, runAux_delimBody 0 [] _ (by simp)]
      rfl
  | succ f ih =>
      intro s k h hk
      rw [runAux_star, runAux_delimBody (f + 1) s _ (by omega)]
      cases hg : groupLen s with
      | none =>
          have hcs : chainSkip s = 0 := by rw [chainSkip_unfold, hg]
          show k s = k (s.drop (chainSkip s))
          rw [hcs, List.drop_zero]
      | some g =>
          obtain ⟨hg2, hgle⟩ := groupLen_bounds hg
          have hgn : 0 < s.length := by omega
          have hlt : (s.drop g).length < s.length := by
            rw [List.length_drop]
            omega
          have hrec : run (f + 1) (RE.star (RE.seq (RE.plus (RE.chr '-')) (RE.chr '|')))
              (s.drop g) k = k ((s.drop g).drop (chainSkip (s.drop g))) := by
            rw [run_succ]
            apply ih
            · have : (s.drop g).length = s.length - g := by simp
              omega
            · intro t ht
              apply hk
              have : (s.drop g).length = s.length - g := by simp
              omega
          show (match (if (s.drop g).length < s.length then
              run (f + 1) (RE.star (RE.seq (RE.plus (RE.chr '-')) (RE.chr '|'))) (s.drop g) k
            else none) with
            | some v => some v
            | none => k s) = k (s.drop (chainSkip s))
          rw [if_pos hlt, hrec]
          have hkv : (k ((s.drop g).drop (chainSkip (s.drop g)))).isSome := by
            apply hk
            have h1 : ((s.drop g).drop (chainSkip (s.drop g))).length =
                (s.drop g).length - chainSkip (s.drop g) := by
              rw [List.length_drop]
            have h2 : (s.drop g).length = s.length - g := by
              rw [List.length_drop]
            omega
          cases hkval : k ((s.drop g).drop (chainSkip (s.drop g))) with
          | none => rw [hkval] at hkv; exact absurd hkv (by simp)
          | some v =>
              have hcs : chainSkip s = g + chainSkip (s.drop g) := by
                rw [chainSkip_unfold, hg]
              show some v = k (s.drop (chainSkip s))
              rw [hcs, ← List.drop_drop, hkval]

/-- The greedy search for the closing pipe of a row: candidates are tried
rightmost first, and with a continuation succeeding on shorter suffixes the
first viable candidate is the last pipe of the line. -/
theorem predStarRun_line : ∀ (c1 : List Char) (W : List Char → Option (List Char)),
    (∀ u, u.length < c1.length → (W u).isSome) →
    predStarRun (fun ch => !isNL ch) c1
      (fun u => match u with
        | [] => none
        | b :: u1 => if b = '|' then W u1 else none) =
      (match lineLastPipe c1 with
        | some e => W (c1.drop (e + 1))
        | none => none) := by
  intro c1
  induction c1 with
  | nil => intro W _; rfl
  | cons b u ih =>
      intro W hW
      by_cases hnl : isNL b
      · rw [predStarRun, if_neg (by simp [hnl])]
        have hbp : b ≠ '|' := by
          intro hbe
          subst hbe
          exact absurd hnl (by decide)
        have hll : lineLastPipe (b :: u) = none := by
          show (if isNL b then none else _) = none
          rw [if_pos hnl]
        rw [hll]
        show (if b = '|' then W u else none) = none
        rw [if_neg hbp]
      · rw [predStarRun, if_pos (by simp [hnl])]
        rw [ih W (fun u' hu' => hW u' (by simp only [List.length_cons]; omega))]
        have hll : lineLastPipe (b :: u) =
            (match lineLastPipe u with
             | some m => some (m + 1)
             | none => if b = '|' then some 0 else none) := by
          show (if isNL b then none else _) = _
          rw [if_neg hnl]
        rw [hll]
        cases hm : lineLastPipe u with
        | some m =>
            have hsome : (W (u.drop (m + 1))).isSome := by
              apply hW
              have := lineLastPipe_lt hm
              have h1 : (u.drop (m + 1)).length = u.length - (m + 1) := by simp
              simp only [List.length_cons]
              omega
            cases hwv : W (u.drop (m + 1)) with
            | none => rw [hwv] at hsome; exact absurd hsome (by simp)
            | some v =>
                show (match W (u.drop (m + 1)) with
                  | some v => some v
                  | none => if b = '|' then W u else none) =
                  W ((b :: u).drop (m + 1 + 1))
                rw [show (b :: u).drop (m + 1 + 1) = u.drop (m + 1) from rfl, hwv]
        | none =>
            by_cases hbp : b = '|'
            · show (match (none : Option (List Char)) with
                | some v => some v
                | none => if b = '|' then W u else none) =
                (match (if b = '|' then some 0 else none : Option Nat) with
                 | some e => W ((b :: u).drop (e + 1))
                 | none => none)
              rw [if_pos hbp, if_pos hbp]
              rfl
            · show (match (none : Option (List Char)) with
                | some v => some v
                | none => if b = '|' then W u else none) =
                (match (if b = '|' then some 0 else none : Option Nat) with
                 | some e => W ((b :: u).drop (e + 1))
                 | none => none)
              rw [if_neg hbp, if_neg hbp]

/-- Behavior of one further-row pattern against a continuation succeeding
whenever at least two characters were consumed. -/
theorem runAux_rowBody : ∀ (f : Nat) (c : List Char) (K : List Char → Option (List Char)),
    c.length ≤ f + 1 →
    (∀ t : List Char, t.length + 2 ≤ c.length → (K t).isSome) →
    runAux (run f) rowRE c K =
      (match rowLen c with
        | some g => K (c.drop g)
        | none => none) := by
  intro f c K hf hK
  show runAux (run f) (RE.seq hdrRE (RE.opt nlRE)) c K = _
  rw [runAux_seq]
  show runAux (run f) (RE.seq (RE.chr '|') (RE.seq (RE.star RE.dot) (RE.chr '|'))) c _ = _
  rw [runAux_seq]
  cases c with
  | nil => rw [runAux_chr_nil]; rfl
  | cons a c1 =>
      rw [runAux_chr_cons]
      by_cases ha : a = '|'
      · subst ha
        rw [if_pos rfl]
        show runAux (run f) (RE.seq (RE.star RE.dot) (RE.chr '|')) c1
          (fun r => runAux (run f) (RE.opt nlRE) r K) = _
        rw [runAux_seq]
        have hfuel : c1.length ≤ f := by simp only [List.length_cons] at hf; omega
        rw [runAux_star_pred runAux_dot_shape.1 runAux_dot_shape.2 f c1 _ hfuel]
        rw [predStarRun_congr_le c1 (fun u _ => runAux_chr_pipe_shape u _)]
        have hW : ∀ r : List Char, r.length < c1.length →
            (runAux (run f) (RE.opt nlRE) r K).isSome := by
          intro r hr
          rw [runAux_optnl]
          have hks : (K (r.drop (nlTake r))).isSome := by
            apply hK
            have h1 : (r.drop (nlTake r)).length = r.length - nlTake r := by simp
            simp only [List.length_cons]
            omega
          rw [firstSome_nlCands hks]
          exact hks
        rw [predStarRun_line c1 (fun r => runAux (run f) (RE.opt nlRE) r K) hW]
        cases he : lineLastPipe c1 with
        | none =>
            have hrl : rowLen ('|' :: c1) = none := by
              show (if ('|' : Char) = '|' then
                (match lineLastPipe c1 with
                 | some e => some (1 + (e + 1) + nlTake (c1.drop (e + 1)))
                 | none => none)
                else none) = none
              rw [if_pos rfl, he]
            rw [hrl]
        | some e =>
            have hrl : rowLen ('|' :: c1) =
                some (1 + (e + 1) + nlTake (c1.drop (e + 1))) := by
              show (if ('|' : Char) = '|' then
                (match lineLastPipe c1 with
                 | some e => some (1 + (e + 1) + nlTake (c1.drop (e + 1)))
                 | none => none)
                else none) = _
              rw [if_pos rfl, he]
            rw [hrl]
            show runAux (run f) (RE.opt nlRE) (c1.drop (e + 1)) K =
              K (('|' :: c1).drop (1 + (e + 1) + nlTake (c1.drop (e + 1))))
            rw [runAux_optnl]
            have hks : (K ((c1.drop (e + 1)).drop (nlTake (c1.drop (e + 1))))).isSome := by
              apply hK
              have h1 := lineLastPipe_lt he
              have h2 : ((c1.drop (e + 1)).drop (nlTake (c1.drop (e + 1)))).length =
                  (c1.drop (e + 1)).length - nlTake (c1.drop (e + 1)) := by
                rw [List.length_drop]
              have h3 : (c1.drop (e + 1)).length = c1.length - (e + 1) := by
                rw [List.length_drop]
              simp only [List.length_cons]
              omega
            rw [firstSome_nlCands hks]
            rw [show 1 + (e + 1) + nlTake (c1.drop (e + 1)) =
              ((e + 1) + nlTake (c1.drop (e + 1))) + 1 from by omega]
            rw [show ('|' :: c1).drop (((e + 1) + nlTake (c1.drop (e + 1))) + 1) =
              c1.drop ((e + 1) + nlTake (c1.drop (e + 1))) from rfl]
            rw [List.drop_drop]
      · rw [if_neg ha]
        have hrl : rowLen (a :: c1) = none := by
          show (if a = '|' then _ else none) = none
          rw [if_neg ha]
        rw [hrl]

/-- The greedy star over further rows consumes exactly the maximal run of
rows when its continuation always succeeds. -/
theorem runAux_star_row : ∀ (f : Nat) (x : List Char), x.length ≤ f →
    runAux (run f) (RE.star rowRE) x some = some (x.drop (rowsSkip x)) := by
  intro f
  induction f with
  | zero =>
      intro x h
      have hx : x = [] := List.length_eq_zero.mp (Nat.le_zero.mp h)
      subst hx
      rw [runAux_star,
        runAux_rowBody 0 [] _ (by simp) (by intro t ht; simp at ht)]
      rfl
  | succ f ih =>
      intro x h
      rw [runAux_star]
      have hG : ∀ t : List Char, t.length + 2 ≤ x.length →
          ((if t.length < x.length then run (f + 1) (RE.star rowRE) t some else none)).isSome := by
        intro t ht
        rw [if_pos (by omega), run_succ, ih t (by omega)]
        simp
      rw [runAux_rowBody (f + 1) x _ (by omega) hG]
      cases hg : rowLen x with
      | none =>
          have hr0 : rowsSkip x = 0 := by rw [rowsSkip_unfold, hg]
          show (some x : Option (List Char)) = some (x.drop (rowsSkip x))
          rw [hr0, List.drop_zero]
      | some g =>
          obtain ⟨hg2, hgle⟩ := rowLen_bounds hg
          have hlt : (x.drop g).length < x.length := by
            rw [List.length_drop]
            omega
          have hrec : run (f + 1) (RE.star rowRE) (x.drop g) some =
              some ((x.drop g).drop (rowsSkip (x.drop g))) := by
            rw [run_succ]
            apply ih
            have : (x.drop g).length = x.length - g := by rw [List.length_drop]
            omega
          show (match (if (x.drop g).length < x.length then
              run (f + 1) (RE.star rowRE) (x.drop g) some else none) with
            | some v => some v
            | none => some x) = some (x.drop (rowsSkip x))
          rw [if_pos hlt, hrec]
          have hrs : rowsSkip x = g + rowsSkip (x.drop g) := by
            rw [rowsSkip_unfold, hg]
          rw [hrs, ← List.drop_drop]

/-- Everything after the delimiter always succeeds, consuming the optional
terminator and the maximal run of rows: the engine agrees with `tailSpec`. -/
theorem runAux_tail_eq (f : Nat) (r : List Char) (hr : r.length + 1 ≤ f) :
    runAux (run f) (RE.seq (RE.opt nlRE) (RE.star rowRE)) r some = some (tailSpec r) := by
  rw [runAux_seq, runAux_optnl]
  have hnl : (r.drop (nlTake r)).length ≤ r.length := by
    rw [List.length_drop]
    omega
  have hsome : (runAux (run f) (RE.star rowRE) (r.drop (nlTake r)) some).isSome := by
    rw [runAux_star_row f _ (by omega)]
    simp
  rw [firstSome_nlCands hsome, runAux_star_row f _ (by omega)]
  rfl

/-- The engine on the delimiter fragment followed by the optional tail
agrees with `delimSpec` followed by `tailSpec`. -/
theorem runAux_delim_tail_eq (f : Nat) (c : List Char) (hfc : c.length + 2 ≤ f) :
    runAux (run f) (RE.seq delimRE (RE.seq (RE.opt nlRE) (RE.star rowRE))) c some =
      (delimSpec c).map tailSpec := by
  rw [runAux_seq]
  show runAux (run f)
    (RE.seq (RE.chr '|') (RE.plus (RE.seq (RE.plus (RE.chr '-')) (RE.chr '|')))) c _ = _
  rw [runAux_seq]
  cases c with
  | nil => rw [runAux_chr_nil]; rfl
  | cons x c1 =>
      rw [runAux_chr_cons]
      by_cases hx : x = '|'
      · subst hx
        rw [if_pos rfl]
        simp only [List.length_cons] at hfc
        show runAux (run f)
          (RE.seq (RE.seq (RE.plus (RE.chr '-')) (RE.chr '|'))
            (RE.star (RE.seq (RE.plus (RE.chr '-')) (RE.chr '|')))) c1
          (fun r => runAux (run f) (RE.seq (RE.opt nlRE) (RE.star rowRE)) r some) = _
        rw [runAux_seq]
        rw [runAux_delimBody f c1 _ (by omega)]
        cases hg : groupLen c1 with
        | none =>
            have hds : delimSpec ('|' :: c1) = none := by
              show (if ('|' : Char) = '|' then
                (match groupLen c1 with
                 | some _ => some (c1.drop (chainSkip c1))
                 | none => none)
                else none) = none
              rw [if_pos rfl, hg]
            rw [hds]
            rfl
        | some g =>
            obtain ⟨hg2, hgle⟩ := groupLen_bounds hg
            have hds : delimSpec ('|' :: c1) = some (c1.drop (chainSkip c1)) := by
              show (if ('|' : Char) = '|' then
                (match groupLen c1 with
                 | some _ => some (c1.drop (chainSkip c1))
                 | none => none)
                else none) = _
              rw [if_pos rfl, hg]
            rw [hds]
            have hdl : (c1.drop g).length = c1.length - g := by rw [List.length_drop]
            show runAux (run f) (RE.star (RE.seq (RE.plus (RE.chr '-')) (RE.chr '|')))
              (c1.drop g)
              (fun r => runAux (run f) (RE.seq (RE.opt nlRE) (RE.star rowRE)) r some) =
              some (tailSpec (c1.drop (chainSkip c1)))
            rw [runAux_star_delim f (c1.drop g) _ (by omega) ?htot]
            case htot =>
              intro t ht
              rw [runAux_tail_eq f t (by omega)]
              simp
            rw [runAux_tail_eq f _ (by
              have : ((c1.drop g).drop (chainSkip (c1.drop g))).length ≤ (c1.drop g).length := by
                rw [List.length_drop]
                omega
              omega)]
            have hcs : chainSkip c1 = g + chainSkip (c1.drop g) := by
              rw [chainSkip_unfold, hg]
            rw [hcs, ← List.drop_drop]
      · rw [if_neg hx]
        have hds : delimSpec (x :: c1) = none := by
          show (if x = '|' then _ else none) = none
          rw [if_neg hx]
        rw [hds]
        rfl

/-- The engine after the closing header pipe agrees with `afterHdr`. -/
theorem runAux_afterHdr_eq (f : Nat) (u1 : List Char) (hfu : u1.length + 2 ≤ f) :
    runAux (run f)
      (RE.seq (RE.opt nlRE) (RE.seq delimRE (RE.seq (RE.opt nlRE) (RE.star rowRE)))) u1 some =
      afterHdr u1 := by
  rw [runAux_seq, runAux_optnl]
  show _ = firstSome (fun c => (delimSpec c).map tailSpec) (nlCands u1)
  apply firstSome_congr_mem
  intro c hc
  have hcl : c.length ≤ u1.length := nlCands_length hc
  have hfc : c.length + 2 ≤ f := by omega
  exact runAux_delim_tail_eq f c hfc

/-- The backtracking engine on the full table pattern computes exactly the
deterministic description `specRun`. -/
theorem run_tableRE_eq_specRun (s : List Char) :
    run (2 * s.length + 2) tableRE s some = specRun s := by
  cases s with
  | nil => rfl
  | cons a s1 =>
      obtain ⟨f, hf1, hf2⟩ : ∃ f, 2 * (a :: s1).length + 2 = f + 1 ∧ s1.length + 3 ≤ f :=
        ⟨2 * (a :: s1).length + 1, by omega, by simp only [List.length_cons]; omega⟩
      rw [hf1, run_succ]
      show runAux (run f)
        (RE.seq (RE.seq (RE.chr '|') (RE.seq (RE.star RE.dot) (RE.chr '|')))
          (RE.seq (RE.opt nlRE) (RE.seq delimRE (RE.seq (RE.opt nlRE) (RE.star rowRE)))))
        (a :: s1) some = _
      rw [runAux_seq, runAux_seq]
      rw [runAux_chr_cons]
      show _ = (if a = '|' then
        predStarRun (fun c => !isNL c) s1 (fun u =>
          match u with
          | [] => none
          | b :: u1 => if b = '|' then afterHdr u1 else none)
        else none)
      by_cases ha : a = '|'
      · rw [if_pos ha, if_pos ha]
        show runAux (run f) (RE.seq (RE.star RE.dot) (RE.chr '|')) s1
          (fun t => runAux (run f)
            (RE.seq (RE.opt nlRE) (RE.seq delimRE (RE.seq (RE.opt nlRE) (RE.star rowRE))))
            t some) = _
        rw [runAux_seq]
        rw [runAux_star_pred runAux_dot_shape.1 runAux_dot_shape.2 f s1 _ (by omega)]
        rw [predStarRun_congr_le s1 (fun u _ => runAux_chr_pipe_shape u _)]
        refine predStarRun_congr_le s1 (fun u hu => ?_)
        cases u with
        | nil => rfl
        | cons b u1 =>
            simp only [List.length_cons] at hu
            show (if b = '|' then
                runAux (run f)
                  (RE.seq (RE.opt nlRE) (RE.seq delimRE (RE.seq (RE.opt nlRE) (RE.star rowRE))))
                  u1 some
              else none) =
              (if b = '|' then afterHdr u1 else none)
            by_cases hb : b = '|'
            · rw [if_pos hb, if_pos hb, runAux_afterHdr_eq f u1 (by omega)]
            · rw [if_neg hb, if_neg hb]
      · rw [if_neg ha, if_neg ha]

/-- The table matcher agrees with its deterministic description. -/
theorem matchAt_eq_spec (s : List Char) : matchAt s = matchAtSpec s := by
  unfold matchAt matchAtSpec
  rw [run_tableRE_eq_specRun]

/-! ### Claim C2: the line-based characterization versus the code -/

/-- Split a character list into lines at newline characters. -/
def linesOf : List Char → List (List Char)
  | [] => [[]]
  | a :: t =>
      if a = '\n' then [] :: linesOf t
      else
        match linesOf t with
        | l :: ls => (a :: l) :: ls
        | [] => [[a]]

/-- Modelled from the spec: a header row is a line containing at least one
pipe character. -/
def isHeaderLine (l : List Char) : Bool := l.contains '|'

/-- Modelled from the spec: a delimiter row is a nonempty line composed
exclusively of pipe characters and runs of hyphens. -/
def isDelimLine (l : List Char) : Bool :=
  !l.isEmpty && l.all (fun c => c = '|' || c = '-')

/-- Modelled from the spec: whether some line is a header row immediately
followed by a delimiter row, the condition under which the claimed
line-based rule detects a table region. -/
def hasHeaderDelimPair : List (List Char) → Bool
  | l1 :: l2 :: rest =>
      (isHeaderLine l1 && isDelimLine l2) || hasHeaderDelimPair (l2 :: rest)
  | _ => false

/-- Modelled from the spec: the document contains a table region in the
sense of the claimed line-based characterization. -/
def specHasTable (D : String) : Bool := hasHeaderDelimPair (linesOf D.data)

/-- C2 counterexample: the input has a header row with one pipe followed by
a delimiter row made of pipes and hyphens, so the claimed line-based rule
detects a table region, yet segmentation classifies the entire input as a
single Prose block: the code requires at least two pipes on the header line
(the match is a substring of the form pipe, line text, pipe), so the claimed
characterization of the emitted Table blocks is false. -/
theorem tableRegions_cex :
    specHasTable "x | y\n|-|" = true ∧
    (parseMarkdown "x | y\n|-|").map (fun p => p.type) = [PartType.markdown] := by decide

/-- Scan with the deterministic matcher. -/
def specScan : Nat → List Char → Option (Nat × Nat)
  | i, [] =>
    match matchAtSpec [] with
    | some len => some (i, len)
    | none => none
  | i, a :: t =>
    match matchAtSpec (a :: t) with
    | some len => some (i, len)
    | none => specScan (i + 1) t

theorem specScan_eq_scanAux : ∀ (s : List Char) (i : Nat), scanAux i s = specScan i s := by
  intro s
  induction s with
  | nil =>
      intro i
      show (match matchAt [] with
        | some len => some (i, len)
        | none => none) =
        (match matchAtSpec [] with
        | some len => some (i, len)
        | none => none)
      rw [matchAt_eq_spec]
  | cons a t ih =>
      intro i
      show (match matchAt (a :: t) with
        | some len => some (i, len)
        | none => scanAux (i + 1) t) =
        (match matchAtSpec (a :: t) with
        | some len => some (i, len)
        | none => specScan (i + 1) t)
      rw [matchAt_eq_spec]
      cases matchAtSpec (a :: t) with
      | some len => rfl
      | none => exact ih (i + 1)

/-- Reference segmentation built on the deterministic matcher: the kinds
and texts of the blocks, with the same greedy leftmost non-overlapping
scan. -/
def specSegmentLoop : Nat → List Char → Nat → List (PartType × String)
  | 0, _, _ => []
  | fuel + 1, rest, lastIndex =>
    match specScan lastIndex rest with
    | none =>
        if rest.isEmpty then []
        else [(PartType.markdown, String.mk rest)]
    | some (idx, len) =>
        (if lastIndex < idx then
          [(PartType.markdown, String.mk (rest.take (idx - lastIndex)))]
         else []) ++
        (PartType.table, String.mk ((rest.drop (idx - lastIndex)).take len)) ::
          specSegmentLoop fuel (rest.drop (idx - lastIndex + len)) (idx + len)

/-- Reference segmentation of a document. -/
def specSegment (D : String) : List (PartType × String) :=
  specSegmentLoop (D.length + 1) D.data 0

theorem parseLoop_spec : ∀ fuel rest i,
    (parseLoop fuel rest i).map (fun p => (p.type, p.content)) =
      specSegmentLoop fuel rest i := by
  intro fuel
  induction fuel with
  | zero => intro rest i; rfl
  | succ f ih =>
      intro rest i
      show (parseLoop (f + 1) rest i).map (fun p => (p.type, p.content)) =
        (match specScan i rest with
        | none =>
            if rest.isEmpty then []
            else [(PartType.markdown, String.mk rest)]
        | some (idx, len) =>
            (if i < idx then
              [(PartType.markdown, String.mk (rest.take (idx - i)))]
             else []) ++
            (PartType.table, String.mk ((rest.drop (idx - i)).take len)) ::
              specSegmentLoop f (rest.drop (idx - i + len)) (idx + len))
      rw [← specScan_eq_scanAux]
      cases hs : scanAux i rest with
      | none =>
          rw [parseLoop_succ_none hs]
          by_cases hrest : rest.isEmpty
          · rw [if_pos hrest, if_pos hrest]; rfl
          · rw [if_neg hrest, if_neg hrest]; rfl
      | some q =>
          obtain ⟨idx, len⟩ := q
          rw [parseLoop_succ_some hs]
          rw [List.map_append, List.map_cons, ih]
          show _ = (if i < idx then
              [(PartType.markdown, String.mk (rest.take (idx - i)))]
            else []) ++
            (PartType.table, String.mk ((rest.drop (idx - i)).take len)) ::
              specSegmentLoop f (rest.drop (idx - i + len)) (idx + len)
          by_cases hlt : i < idx
          · rw [if_pos hlt, if_pos hlt]; rfl
          · rw [if_neg hlt, if_neg hlt]; rfl

/-- C2 amended: the emitted blocks (kinds and texts) are exactly those of
the reference segmentation built on the deterministic description of the
regular-expression match: Table blocks are the leftmost, greedy,
non-overlapping matches (a pipe, a header fragment extending to a later
pipe on the same line, at most one line terminator, a delimiter fragment of
hyphen runs each closed by a pipe taken maximally, then optionally one
terminator and a maximal run of further pipe-delimited row fragments), and
no other text is classified as Table. -/
theorem parseMarkdown_tables_characterized (D : String) :
    (parseMarkdown D).map (fun p => (p.type, p.content)) = specSegment D :=
  parseLoop_spec (D.length + 1) D.data 0

/-! ### Idempotent reclassification (claim C6): infrastructure

The flattened document interleaves the block texts with a blank-line
separator.  The lemmas below compare a match of the table pattern against
its original continuation with a match against the separator, and show
that the deterministic matcher consumes the same table text, up to
absorbing at most one separator newline. -/

/-- Length of the longest prefix whose characters all satisfy `ok`. -/
def leadCount (ok : Char → Bool) : List Char → Nat
  | [] => 0
  | a :: t => if ok a then leadCount ok t + 1 else 0

theorem leadCount_le (ok : Char → Bool) : ∀ s : List Char, leadCount ok s ≤ s.length := by
  intro s
  induction s with
  | nil => exact Nat.le_refl _
  | cons a t ih =>
      show (if ok a then leadCount ok t + 1 else 0) ≤ t.length + 1
      by_cases h : ok a
      · rw [if_pos h]; omega
      · rw [if_neg h]; omega

theorem leadCount_all (ok : Char → Bool) :
    ∀ (s : List Char) (i : Nat), i ≤ leadCount ok s → ∀ c ∈ s.take i, ok c = true := by
  intro s
  induction s with
  | nil => intro i _ c hc; simp at hc
  | cons a t ih =>
      intro i hi c hc
      cases i with
      | zero => simp at hc
      | succ i' =>
          have ha : ok a = true := by
            by_cases h : ok a
            · exact h
            · exfalso
              have : leadCount ok (a :: t) = 0 := by
                show (if ok a then leadCount ok t + 1 else 0) = 0
                rw [if_neg h]
              omega
          have hi' : i' ≤ leadCount ok t := by
            have : leadCount ok (a :: t) = leadCount ok t + 1 := by
              show (if ok a then leadCount ok t + 1 else 0) = leadCount ok t + 1
              rw [if_pos ha]
            omega
          rw [List.take_succ_cons] at hc
          rcases List.mem_cons.mp hc with h | h
          · rw [h]; exact ha
          · exact ih i' hi' c h

theorem le_leadCount (ok : Char → Bool) :
    ∀ (s : List Char) (i : Nat), i ≤ s.length → (∀ c ∈ s.take i, ok c = true) →
      i ≤ leadCount ok s := by
  intro s
  induction s with
  | nil =>
      intro i hi _
      show i ≤ 0
      simpa using hi
  | cons a t ih =>
      intro i hi hall
      cases i with
      | zero => omega
      | succ i' =>
          have ha : ok a = true := hall a (by simp)
          have : leadCount ok (a :: t) = leadCount ok t + 1 := by
            show (if ok a then leadCount ok t + 1 else 0) = leadCount ok t + 1
            rw [if_pos ha]
          rw [this]
          have : i' ≤ leadCount ok t := by
            refine ih i' (by simpa using hi) ?_
            intro c hc
            exact hall c (by rw [List.take_succ_cons]; exact List.mem_cons_of_mem a hc)
          omega

theorem leadCount_append_mono (ok : Char → Bool) :
    ∀ s z : List Char, leadCount ok s ≤ leadCount ok (s ++ z) := by
  intro s z
  induction s with
  | nil => simp [leadCount]
  | cons a t ih =>
      show (if ok a then leadCount ok t + 1 else 0) ≤
        (if ok a then leadCount ok (t ++ z) + 1 else 0)
      by_cases h : ok a
      · rw [if_pos h, if_pos h]; omega
      · rw [if_neg h, if_neg h]

theorem leadCount_append_nl :
    ∀ s z : List Char, leadCount (fun c => !isNL c) (s ++ '\n' :: z) =
      leadCount (fun c => !isNL c) s := by
  intro s z
  induction s with
  | nil =>
      show (if !isNL '\n' then leadCount (fun c => !isNL c) z + 1 else 0) = 0
      rw [if_neg (by decide)]
  | cons a t ih =>
      show (if !isNL a then leadCount (fun c => !isNL c) (t ++ '\n' :: z) + 1 else 0) =
        (if !isNL a then leadCount (fun c => !isNL c) t + 1 else 0)
      by_cases h : !isNL a
      · rw [if_pos h, if_pos h, ih]
      · rw [if_neg h, if_neg h]

theorem predStarRun_none_elim {ok : Char → Bool} {k : List Char → Option (List Char)} :
    ∀ s : List Char, predStarRun ok s k = none →
      ∀ i ≤ leadCount ok s, k (s.drop i) = none := by
  intro s
  induction s with
  | nil =>
      intro h i hi
      have : i = 0 := by
        have : leadCount ok [] = 0 := rfl
        omega
      rw [this]
      exact h
  | cons a t ih =>
      intro h i hi
      by_cases ha : ok a
      · have hun : predStarRun ok (a :: t) k =
            (match predStarRun ok t k with
             | some v => some v
             | none => k (a :: t)) := by
          show (if ok a then _ else k (a :: t)) = _
          rw [if_pos ha]
        rw [hun] at h
        cases hrec : predStarRun ok t k with
        | some v => rw [hrec] at h; exact absurd h (by simp)
        | none =>
            rw [hrec] at h
            cases i with
            | zero => exact h
            | succ i' =>
                have hlc : leadCount ok (a :: t) = leadCount ok t + 1 := by
                  show (if ok a then leadCount ok t + 1 else 0) = _
                  rw [if_pos ha]
                exact ih hrec i' (by omega)
      · have hun : predStarRun ok (a :: t) k = k (a :: t) := by
          show (if ok a then _ else k (a :: t)) = _
          rw [if_neg ha]
        rw [hun] at h
        have hlc : leadCount ok (a :: t) = 0 := by
          show (if ok a then leadCount ok t + 1 else 0) = 0
          rw [if_neg ha]
        have : i = 0 := by omega
        rw [this]
        exact h

theorem predStarRun_none_intro {ok : Char → Bool} {k : List Char → Option (List Char)} :
    ∀ s : List Char, (∀ i ≤ leadCount ok s, k (s.drop i) = none) →
      predStarRun ok s k = none := by
  intro s
  induction s with
  | nil =>
      intro h
      exact h 0 (Nat.le_refl _)
  | cons a t ih =>
      intro h
      by_cases ha : ok a
      · have hlc : leadCount ok (a :: t) = leadCount ok t + 1 := by
          show (if ok a then leadCount ok t + 1 else 0) = _
          rw [if_pos ha]
        have hrec : predStarRun ok t k = none := by
          refine ih ?_
          intro i hi
          exact h (i + 1) (by omega)
        show (if ok a then
            (match predStarRun ok t k with
             | some v => some v
             | none => k (a :: t)) else k (a :: t)) = none
        rw [if_pos ha, hrec]
        exact h 0 (by omega)
      · show (if ok a then _ else k (a :: t)) = none
        rw [if_neg ha]
        exact h 0 (by omega)

theorem predStarRun_some_elim {ok : Char → Bool} {k : List Char → Option (List Char)} :
    ∀ (s : List Char) (v : List Char), predStarRun ok s k = some v →
      ∃ i, i ≤ leadCount ok s ∧ k (s.drop i) = some v ∧
        ∀ j, i < j → j ≤ leadCount ok s → k (s.drop j) = none := by
  intro s
  induction s with
  | nil =>
      intro v h
      refine ⟨0, Nat.le_refl _, h, ?_⟩
      intro j hj1 hj2
      exfalso
      have hz : leadCount ok ([] : List Char) = 0 := rfl
      omega
  | cons a t ih =>
      intro v h
      by_cases ha : ok a
      · have hlc : leadCount ok (a :: t) = leadCount ok t + 1 := by
          show (if ok a then leadCount ok t + 1 else 0) = _
          rw [if_pos ha]
        have hun : predStarRun ok (a :: t) k =
            (match predStarRun ok t k with
             | some v => some v
             | none => k (a :: t)) := by
          show (if ok a then _ else k (a :: t)) = _
          rw [if_pos ha]
        rw [hun] at h
        cases hrec : predStarRun ok t k with
        | some w =>
            rw [hrec] at h
            have hv : w = v := Option.some.inj h
            subst hv
            obtain ⟨i, hi, hk, hmin⟩ := ih w hrec
            refine ⟨i + 1, by omega, hk, ?_⟩
            intro j hj1 hj2
            cases j with
            | zero => omega
            | succ j' => exact hmin j' (by omega) (by omega)
        | none =>
            rw [hrec] at h
            refine ⟨0, by omega, h, ?_⟩
            intro j hj1 hj2
            cases j with
            | zero => omega
            | succ j' => exact predStarRun_none_elim t hrec j' (by omega)
      · have hlc : leadCount ok (a :: t) = 0 := by
          show (if ok a then leadCount ok t + 1 else 0) = 0
          rw [if_neg ha]
        have hun : predStarRun ok (a :: t) k = k (a :: t) := by
          show (if ok a then _ else k (a :: t)) = _
          rw [if_neg ha]
        rw [hun] at h
        exact ⟨0, by omega, h, by intro j hj1 hj2; omega⟩

theorem predStarRun_some_intro {ok : Char → Bool} {k : List Char → Option (List Char)} :
    ∀ (s : List Char) (v : List Char) (i : Nat), i ≤ leadCount ok s →
      k (s.drop i) = some v →
      (∀ j, i < j → j ≤ leadCount ok s → k (s.drop j) = none) →
      predStarRun ok s k = some v := by
  intro s
  induction s with
  | nil =>
      intro v i hi hk _
      have : i = 0 := by
        have : leadCount ok [] = 0 := rfl
        omega
      rw [this] at hk
      exact hk
  | cons a t ih =>
      intro v i hi hk hmin
      by_cases ha : ok a
      · have hlc : leadCount ok (a :: t) = leadCount ok t + 1 := by
          show (if ok a then leadCount ok t + 1 else 0) = _
          rw [if_pos ha]
        have hun : predStarRun ok (a :: t) k =
            (match predStarRun ok t k with
             | some v => some v
             | none => k (a :: t)) := by
          show (if ok a then _ else k (a :: t)) = _
          rw [if_pos ha]
        rw [hun]
        cases i with
        | zero =>
            have hrec : predStarRun ok t k = none := by
              refine predStarRun_none_intro t ?_
              intro j hj
              exact hmin (j + 1) (by omega) (by omega)
            rw [hrec]
            exact hk
        | succ i' =>
            have hrec : predStarRun ok t k = some v := by
              refine ih v i' (by omega) hk ?_
              intro j hj1 hj2
              exact hmin (j + 1) (by omega) (by omega)
            rw [hrec]
      · have hlc : leadCount ok (a :: t) = 0 := by
          show (if ok a then leadCount ok t + 1 else 0) = 0
          rw [if_neg ha]
        have hun : predStarRun ok (a :: t) k = k (a :: t) := by
          show (if ok a then _ else k (a :: t)) = _
          rw [if_neg ha]
        rw [hun]
        have : i = 0 := by omega
        rw [this] at hk
        exact hk

theorem predStarRun_isSome_intro {ok : Char → Bool} {k : List Char → Option (List Char)} :
    ∀ (s : List Char) (i : Nat), i ≤ leadCount ok s → (k (s.drop i)).isSome →
      (predStarRun ok s k).isSome := by
  intro s
  induction s with
  | nil =>
      intro i hi hk
      have : i = 0 := by
        have : leadCount ok [] = 0 := rfl
        omega
      rw [this] at hk
      exact hk
  | cons a t ih =>
      intro i hi hk
      by_cases ha : ok a
      · have hlc : leadCount ok (a :: t) = leadCount ok t + 1 := by
          show (if ok a then leadCount ok t + 1 else 0) = _
          rw [if_pos ha]
        have hun : predStarRun ok (a :: t) k =
            (match predStarRun ok t k with
             | some v => some v
             | none => k (a :: t)) := by
          show (if ok a then _ else k (a :: t)) = _
          rw [if_pos ha]
        rw [hun]
        cases i with
        | zero =>
            cases hrec : predStarRun ok t k with
            | some w => simp
            | none => exact hk
        | succ i' =>
            have hrt := ih i' (by omega) hk
            cases hrec : predStarRun ok t k with
            | some w => simp
            | none => rw [hrec] at hrt; simp at hrt
      · have hlc : leadCount ok (a :: t) = 0 := by
          show (if ok a then leadCount ok t + 1 else 0) = 0
          rw [if_neg ha]
        have hun : predStarRun ok (a :: t) k = k (a :: t) := by
          show (if ok a then _ else k (a :: t)) = _
          rw [if_neg ha]
        rw [hun]
        have : i = 0 := by omega
        rw [this] at hk
        exact hk

theorem firstSome_some_elim {k : List Char → Option (List Char)} :
    ∀ (cs : List (List Char)) (v : List Char), firstSome k cs = some v →
      ∃ c ∈ cs, k c = some v := by
  intro cs
  induction cs with
  | nil => intro v h; exact absurd h (by simp [firstSome])
  | cons c cs ih =>
      intro v h
      have h' : (match k c with
        | some w => some w
        | none => firstSome k cs) = some v := h
      cases hk : k c with
      | some w =>
          rw [hk] at h'
          exact ⟨c, by simp, by rw [hk]; exact h'⟩
      | none =>
          rw [hk] at h'
          obtain ⟨c', hc', hk'⟩ := ih v h'
          exact ⟨c', List.mem_cons_of_mem c hc', hk'⟩

theorem firstSome_isSome_elim {k : List Char → Option (List Char)} :
    ∀ cs : List (List Char), (firstSome k cs).isSome →
      ∃ c ∈ cs, (k c).isSome := by
  intro cs h
  cases hf : firstSome k cs with
  | none => rw [hf] at h; simp at h
  | some v =>
      obtain ⟨c, hc, hk⟩ := firstSome_some_elim cs v hf
      exact ⟨c, hc, by rw [hk]; simp⟩

theorem firstSome_isSome_intro {k : List Char → Option (List Char)} :
    ∀ (cs : List (List Char)) (c : List Char), c ∈ cs → (k c).isSome →
      (firstSome k cs).isSome := by
  intro cs
  induction cs with
  | nil => intro c hc _; simp at hc
  | cons c0 cs ih =>
      intro c hc hk
      show (match k c0 with
        | some w => some w
        | none => firstSome k cs).isSome
      cases hk0 : k c0 with
      | some w => simp
      | none =>
          rcases List.mem_cons.mp hc with h | h
          · rw [h, hk0] at hk; simp at hk
          · exact ih c h hk

theorem nlCands_mem_drop {c s : List Char} (h : c ∈ nlCands s) :
    ∃ d ≤ 2, c = s.drop d := by
  cases s with
  | nil =>
      have : c ∈ [([] : List Char)] := h
      simp at this
      exact ⟨0, by omega, by simp [this]⟩
  | cons a t =>
      by_cases ha : a = '\r'
      · cases t with
        | nil =>
            have h' : c ∈ [([] : List Char), [a]] := by
              simpa [nlCands, ha] using h
            rcases List.mem_cons.mp h' with h1 | h1
            · exact ⟨1, by omega, by simp [h1]⟩
            · simp at h1
              exact ⟨0, by omega, by simp [h1]⟩
        | cons b u =>
            by_cases hb : b = '\n'
            · have h' : c ∈ [u, b :: u, a :: b :: u] := by
                simpa [nlCands, ha, hb] using h
              rcases List.mem_cons.mp h' with h1 | h1
              · exact ⟨2, by omega, by simp [h1]⟩
              rcases List.mem_cons.mp h1 with h2 | h2
              · exact ⟨1, by omega, by simp [h2]⟩
              · simp at h2
                exact ⟨0, by omega, by simp [h2]⟩
            · have h' : c ∈ [b :: u, a :: b :: u] := by
                simpa [nlCands, ha, hb] using h
              rcases List.mem_cons.mp h' with h1 | h1
              · exact ⟨1, by omega, by simp [h1]⟩
              · simp at h1
                exact ⟨0, by omega, by simp [h1]⟩
      · by_cases ha2 : a = '\n'
        · have h' : c ∈ [t, a :: t] := by
            simpa [nlCands, ha, ha2] using h
          rcases List.mem_cons.mp h' with h1 | h1
          · exact ⟨1, by omega, by simp [h1]⟩
          · simp at h1
            exact ⟨0, by omega, by simp [h1]⟩
        · have h' : c ∈ [a :: t] := by
            simpa [nlCands, ha, ha2] using h
          simp at h'
          exact ⟨0, by omega, by simp [h']⟩

theorem tailSpec_length_le (r : List Char) : (tailSpec r).length ≤ r.length := by
  show ((r.drop (nlTake r)).drop (rowsSkip (r.drop (nlTake r)))).length ≤ r.length
  simp only [List.length_drop]
  omega

theorem delimSpec_is_drop {c v : List Char} (h : delimSpec c = some v) :
    ∃ n, v = c.drop n := by
  cases c with
  | nil => exact absurd h (by simp [delimSpec])
  | cons a s1 =>
      have h' : (if a = '|' then
          (match groupLen s1 with
           | some _ => some (s1.drop (chainSkip s1))
           | none => none)
        else none) = some v := h
      by_cases ha : a = '|'
      · rw [if_pos ha] at h'
        cases hg : groupLen s1 with
        | none => rw [hg] at h'; exact absurd h' (by simp)
        | some g =>
            rw [hg] at h'
            refine ⟨chainSkip s1 + 1, ?_⟩
            have := Option.some.inj h'
            rw [← this]
            show s1.drop (chainSkip s1) = (a :: s1).drop (chainSkip s1 + 1)
            rfl
      · rw [if_neg ha] at h'; exact absurd h' (by simp)

theorem afterHdr_is_drop {u1 v : List Char} (h : afterHdr u1 = some v) :
    ∃ n, v = u1.drop n := by
  obtain ⟨c, hc, hk⟩ := firstSome_some_elim (nlCands u1) v h
  obtain ⟨d, _, hd⟩ := nlCands_mem_drop hc
  cases hds : delimSpec c with
  | none => rw [hds] at hk; exact absurd hk (by simp)
  | some w =>
      rw [hds] at hk
      have hv : tailSpec w = v := Option.some.inj hk
      obtain ⟨m, hm⟩ := delimSpec_is_drop hds
      have htl : tailSpec w = (w.drop (nlTake w)).drop (rowsSkip (w.drop (nlTake w))) := rfl
      refine ⟨d + m + (nlTake w + rowsSkip (w.drop (nlTake w))), ?_⟩
      rw [← hv, htl, hm, hd]
      simp [List.drop_drop]
      ring_nf

/-- Continuation applied by the matcher after the leading pipe of the
header: the closing pipe, then the rest of the pattern. -/
def specK : List Char → Option (List Char) :=
  fun u =>
    match u with
    | [] => none
    | b :: u1 => if b = '|' then afterHdr u1 else none

theorem specRun_cons (a : Char) (s1 : List Char) :
    specRun (a :: s1) =
      if a = '|' then predStarRun (fun c => !isNL c) s1 specK else none := rfl

theorem specK_nil : specK [] = none := rfl

theorem specK_cons (b : Char) (u1 : List Char) :
    specK (b :: u1) = if b = '|' then afterHdr u1 else none := rfl

theorem specRun_is_drop {s v : List Char} (h : specRun s = some v) :
    ∃ n, v = s.drop n := by
  cases s with
  | nil => exact absurd h (by simp [specRun])
  | cons a s1 =>
      rw [specRun_cons] at h
      by_cases ha : a = '|'
      · rw [if_pos ha] at h
        obtain ⟨i, hi, hk, _⟩ := predStarRun_some_elim s1 v h
        cases hd : s1.drop i with
        | nil => rw [hd, specK_nil] at hk; exact absurd hk (by simp)
        | cons b u1 =>
            rw [hd, specK_cons] at hk
            by_cases hb : b = '|'
            · rw [if_pos hb] at hk
              obtain ⟨m, hm⟩ := afterHdr_is_drop hk
              refine ⟨1 + (i + 1 + m), ?_⟩
              have : u1 = s1.drop (i + 1) := by
                have : (s1.drop i).drop 1 = s1.drop (i + 1) := by
                  rw [List.drop_drop]
                rw [hd] at this
                simpa using this
              rw [hm, this, List.drop_drop]
              show (s1.drop (i + 1 + m)) = (a :: s1).drop (1 + (i + 1 + m))
              have : (a :: s1).drop (1 + (i + 1 + m)) = s1.drop (i + 1 + m) := by
                rw [Nat.add_comm 1 (i + 1 + m)]
                rfl
              rw [this]
            · rw [if_neg hb] at hk; exact absurd hk (by simp)
      · rw [if_neg ha] at h; exact absurd h (by simp)

theorem matchAtSpec_some_decomp {s : List Char} {len : Nat}
    (h : matchAtSpec s = some len) :
    len ≤ s.length ∧ specRun s = some (s.drop len) := by
  cases hr : specRun s with
  | none =>
      have : matchAtSpec s = none := by
        show (specRun s).map _ = none
        rw [hr]; rfl
      rw [this] at h; exact absurd h (by simp)
  | some v =>
      have hlen : s.length - v.length = len := by
        have : matchAtSpec s = some (s.length - v.length) := by
          show (specRun s).map _ = _
          rw [hr]; rfl
        rw [this] at h
        exact Option.some.inj h
      obtain ⟨n, hn⟩ := specRun_is_drop hr
      by_cases hns : n ≤ s.length
      · have hvl : v.length = s.length - n := by rw [hn]; simp
        have : n = len := by omega
        refine ⟨by omega, ?_⟩
        rw [hn, this]
      · have hv : v = [] := by
          rw [hn]
          exact List.drop_eq_nil_of_le (by omega)
        have : len = s.length := by rw [hv] at hlen; simpa using hlen.symm
        refine ⟨by omega, ?_⟩
        rw [hv, this, List.drop_length]

theorem dashCount_take : ∀ s : List Char, ∀ c ∈ s.take (dashCount s), c = '-' := by
  intro s
  induction s with
  | nil => intro c hc; simp at hc
  | cons a t ih =>
      intro c hc
      by_cases ha : a = '-'
      · have hd : dashCount (a :: t) = dashCount t + 1 := by
          show (if a = '-' then dashCount t + 1 else 0) = _
          rw [if_pos ha]
        rw [hd, List.take_succ_cons] at hc
        rcases List.mem_cons.mp hc with h | h
        · rw [h]; exact ha
        · exact ih c h
      · have hd : dashCount (a :: t) = 0 := by
          show (if a = '-' then dashCount t + 1 else 0) = 0
          rw [if_neg ha]
        rw [hd] at hc
        simp at hc

theorem dashCount_head : ∀ s : List Char, ∀ c cs,
    s.drop (dashCount s) = c :: cs → c ≠ '-' := by
  intro s
  induction s with
  | nil => intro c cs h; simp at h
  | cons a t ih =>
      intro c cs h
      by_cases ha : a = '-'
      · have hd : dashCount (a :: t) = dashCount t + 1 := by
          show (if a = '-' then dashCount t + 1 else 0) = _
          rw [if_pos ha]
        rw [hd] at h
        exact ih c cs h
      · have hd : dashCount (a :: t) = 0 := by
          show (if a = '-' then dashCount t + 1 else 0) = 0
          rw [if_neg ha]
        rw [hd] at h
        have : a = c := (List.cons.inj h).1
        rw [← this]
        exact ha

theorem dashCount_intro : ∀ (s : List Char) (k : Nat), k ≤ s.length →
    (∀ c ∈ s.take k, c = '-') →
    (∀ c cs, s.drop k = c :: cs → c ≠ '-') →
    dashCount s = k := by
  intro s
  induction s with
  | nil =>
      intro k hk _ _
      simp at hk
      subst hk
      rfl
  | cons a t ih =>
      intro k hk hall hstop
      cases k with
      | zero =>
          have ha : a ≠ '-' := hstop a t rfl
          show (if a = '-' then dashCount t + 1 else 0) = 0
          rw [if_neg ha]
      | succ k' =>
          have ha : a = '-' := hall a (by rw [List.take_succ_cons]; simp)
          have hrec : dashCount t = k' := by
            refine ih k' (by simpa using hk) ?_ ?_
            · intro c hc
              exact hall c (by rw [List.take_succ_cons]; exact List.mem_cons_of_mem a hc)
            · intro c cs hc
              exact hstop c cs hc
          show (if a = '-' then dashCount t + 1 else 0) = k' + 1
          rw [if_pos ha, hrec]

theorem groupLen_eq (s : List Char) :
    groupLen s =
      match s.drop (dashCount s) with
      | c :: _ =>
          if c = '|' then
            if dashCount s = 0 then none else some (dashCount s + 1)
          else none
      | [] => none := rfl

theorem groupLen_some_facts {s : List Char} {g : Nat} (h : groupLen s = some g) :
    1 ≤ dashCount s ∧ g = dashCount s + 1 ∧
      ∃ cs, s.drop (dashCount s) = '|' :: cs := by
  rw [groupLen_eq] at h
  cases hd : s.drop (dashCount s) with
  | nil => rw [hd] at h; exact absurd h (by simp)
  | cons c cs =>
      rw [hd] at h
      have h' : (if c = '|' then
          (if dashCount s = 0 then none else some (dashCount s + 1))
        else none) = some g := h
      by_cases hc : c = '|'
      · rw [if_pos hc] at h'
        by_cases h0 : dashCount s = 0
        · rw [if_pos h0] at h'; exact absurd h' (by simp)
        · rw [if_neg h0] at h'
          refine ⟨by omega, (Option.some.inj h').symm, cs, ?_⟩
          rw [hc]
      · rw [if_neg hc] at h'; exact absurd h' (by simp)

theorem groupLen_some_transfer {a z : List Char} {g : Nat}
    (h : groupLen (a ++ z) = some g) (hg : g ≤ a.length) :
    ∀ z' : List Char, groupLen (a ++ z') = some g := by
  intro z'
  obtain ⟨hk1, hkg, cs, hcs⟩ := groupLen_some_facts h
  set k := dashCount (a ++ z) with hkdef
  have hklt : k < a.length := by omega
  have htk : (a ++ z').take k = (a ++ z).take k := by
    rw [List.take_append_of_le_length (by omega), List.take_append_of_le_length (by omega)]
  have hda : ∃ cs2, a.drop k = '|' :: cs2 := by
    have hdz : (a ++ z).drop k = a.drop k ++ z := List.drop_append_of_le_length (by omega)
    rw [hdz] at hcs
    cases hd : a.drop k with
    | nil =>
        exfalso
        have : a.length - k = 0 := by
          have := congrArg List.length hd
          simpa using this
        omega
    | cons c2 cs2 =>
        rw [hd] at hcs
        have : c2 = '|' := (List.cons.inj hcs).1
        exact ⟨cs2, by rw [this]⟩
  obtain ⟨cs2, hcs2⟩ := hda
  have hdz' : (a ++ z').drop k = '|' :: (cs2 ++ z') := by
    rw [List.drop_append_of_le_length (by omega), hcs2]
    rfl
  have hdc : dashCount (a ++ z') = k := by
    refine dashCount_intro (a ++ z') k (by simp; omega) ?_ ?_
    · intro c hc
      rw [htk] at hc
      exact dashCount_take (a ++ z) c hc
    · intro c cs3 hc
      rw [hdz'] at hc
      have : c = '|' := (List.cons.inj hc).1.symm
      rw [this]
      decide
  rw [groupLen_eq, hdc, hdz']
  show (if '|' = '|' then (if k = 0 then none else some (k + 1)) else none) = some g
  rw [if_pos rfl, if_neg (by omega), hkg]

theorem groupLen_nl_bound {a z : List Char} {g : Nat}
    (h : groupLen (a ++ '\n' :: z) = some g) : g ≤ a.length := by
  obtain ⟨hk1, hkg, cs, hcs⟩ := groupLen_some_facts h
  set k := dashCount (a ++ '\n' :: z) with hkdef
  by_cases hka : k < a.length
  · omega
  · exfalso
    by_cases hke : k = a.length
    · have : (a ++ '\n' :: z).drop k = '\n' :: z := by
        rw [hke, List.drop_append_eq_append_drop]
        simp
      rw [this] at hcs
      have : '\n' = '|' := (List.cons.inj hcs).1
      exact absurd this (by decide)
    · have hkgt : a.length < k := by omega
      have hnl : '\n' ∈ (a ++ '\n' :: z).take k := by
        rw [List.take_append_eq_append_take]
        refine List.mem_append_right _ ?_
        have : k - a.length ≥ 1 := by omega
        cases hkk : k - a.length with
        | zero => omega
        | succ m => rw [List.take_succ_cons]; simp
      have := dashCount_take (a ++ '\n' :: z) '\n' hnl
      exact absurd this (by decide)

theorem groupLen_none_transfer {a z z0 : List Char}
    (h : groupLen (a ++ z) = none) : groupLen (a ++ '\n' :: z0) = none := by
  cases hg : groupLen (a ++ '\n' :: z0) with
  | none => rfl
  | some g =>
      exfalso
      have hb := groupLen_nl_bound hg
      have := groupLen_some_transfer hg hb z
      rw [h] at this
      exact absurd this (by simp)

theorem chainSkip_le : ∀ s : List Char, chainSkip s ≤ s.length := by
  have haux : ∀ f s, s.length < f → chainSkipF f s ≤ s.length := by
    intro f
    induction f with
    | zero => intro s h; omega
    | succ f ih =>
        intro s h
        show (match groupLen s with
          | some g => g + chainSkipF f (s.drop g)
          | none => 0) ≤ s.length
        cases hg : groupLen s with
        | none => exact Nat.zero_le _
        | some g =>
            obtain ⟨hg2, hgle⟩ := groupLen_bounds hg
            have hdl : (s.drop g).length = s.length - g := by simp
            have hrec := ih (s.drop g) (by omega)
            show g + chainSkipF f (s.drop g) ≤ s.length
            omega
  intro s
  exact haux (s.length + 1) s (by omega)

theorem chainSkip_pos {s : List Char} {g : Nat} (h : groupLen s = some g) :
    2 ≤ chainSkip s := by
  rw [chainSkip_unfold, h]
  obtain ⟨hg2, _⟩ := groupLen_bounds h
  show 2 ≤ g + chainSkip (s.drop g)
  omega

theorem groupLen_nl (z : List Char) : groupLen ('\n' :: z) = none := by
  have hd : dashCount ('\n' :: z) = 0 := by
    show (if '\n' = '-' then dashCount z + 1 else 0) = 0
    rw [if_neg (by decide)]
  rw [groupLen_eq, hd]
  show (if '\n' = '|' then _ else none) = none
  rw [if_neg (by decide)]

theorem chainSkip_transfer_aux {z z0 : List Char} :
    ∀ (n : Nat) (a : List Char), a.length ≤ n → chainSkip (a ++ z) ≤ a.length →
      chainSkip (a ++ '\n' :: z0) = chainSkip (a ++ z) := by
  intro n
  induction n with
  | zero =>
      intro a ha hle
      have haz : a = [] := List.length_eq_zero.mp (by omega)
      subst haz
      have h1 : chainSkip ('\n' :: z0) = 0 := by
        rw [chainSkip_unfold, groupLen_nl]
      have h2 : chainSkip z = 0 := by
        have : chainSkip ([] ++ z) ≤ 0 := hle
        simpa using this
      show chainSkip ('\n' :: z0) = chainSkip z
      rw [h1, h2]
  | succ n ih =>
      intro a ha hle
      cases hg : groupLen (a ++ z) with
      | none =>
          have hleft : chainSkip (a ++ z) = 0 := by
            rw [chainSkip_unfold, hg]
          have hgr : groupLen (a ++ '\n' :: z0) = none := groupLen_none_transfer hg
          rw [chainSkip_unfold, hgr, hleft]
      | some g =>
          obtain ⟨hg2, hgle⟩ := groupLen_bounds hg
          have hun : chainSkip (a ++ z) = g + chainSkip ((a ++ z).drop g) := by
            rw [chainSkip_unfold, hg]
          have hga : g ≤ a.length := by
            have : 0 ≤ chainSkip ((a ++ z).drop g) := Nat.zero_le _
            omega
          have hdz : (a ++ z).drop g = a.drop g ++ z :=
            List.drop_append_of_le_length (by omega)
          have hdz0 : (a ++ '\n' :: z0).drop g = a.drop g ++ '\n' :: z0 :=
            List.drop_append_of_le_length (by omega)
          have hgr : groupLen (a ++ '\n' :: z0) = some g :=
            groupLen_some_transfer hg hga ('\n' :: z0)
          have hrec : chainSkip (a.drop g ++ '\n' :: z0) = chainSkip (a.drop g ++ z) := by
            refine ih (a.drop g) ?_ ?_
            · simp only [List.length_drop]; omega
            · rw [← hdz]
              simp only [List.length_drop]
              omega
          rw [chainSkip_unfold, hgr]
          show g + chainSkip ((a ++ '\n' :: z0).drop g) = chainSkip (a ++ z)
          rw [hdz0, hrec, hun, hdz]

theorem chainSkip_transfer {z z0 : List Char} (a : List Char)
    (h : chainSkip (a ++ z) ≤ a.length) :
    chainSkip (a ++ '\n' :: z0) = chainSkip (a ++ z) :=
  chainSkip_transfer_aux a.length a (Nat.le_refl _) h

theorem drop_append_plus (a w : List Char) (d : Nat) :
    (a ++ w).drop (a.length + d) = w.drop d := by
  rw [← List.drop_drop]
  congr 1
  exact List.drop_left a w

theorem lineLastPipe_eq (a : Char) (t : List Char) :
    lineLastPipe (a :: t) =
      if isNL a then none
      else
        match lineLastPipe t with
        | some m => some (m + 1)
        | none => if a = '|' then some 0 else none := rfl

theorem lineLastPipe_none_transfer {z z0 : List Char} :
    ∀ a : List Char, lineLastPipe (a ++ z) = none →
      lineLastPipe (a ++ '\n' :: z0) = none := by
  intro a
  induction a with
  | nil =>
      intro _
      show lineLastPipe ('\n' :: z0) = none
      rw [lineLastPipe_eq, if_pos (by decide)]
  | cons c a1 ih =>
      intro h
      have h' : (if isNL c then none
        else match lineLastPipe (a1 ++ z) with
          | some m => some (m + 1)
          | none => if c = '|' then some 0 else none) = none := h
      show (if isNL c then none
        else match lineLastPipe (a1 ++ '\n' :: z0) with
          | some m => some (m + 1)
          | none => if c = '|' then some 0 else none) = none
      by_cases hnl : isNL c
      · rw [if_pos hnl]
      · rw [if_neg hnl] at h' ⊢
        cases hin : lineLastPipe (a1 ++ z) with
        | some m =>
            rw [hin] at h'
            exact absurd h' (by simp)
        | none =>
            rw [hin] at h'
            have hc : c ≠ '|' := by
              by_cases hc : c = '|'
              · rw [if_pos hc] at h'; exact absurd h' (by simp)
              · exact hc
            rw [ih hin]
            show (if c = '|' then some 0 else none) = none
            rw [if_neg hc]

theorem lineLastPipe_some_transfer {z z0 : List Char} :
    ∀ (a : List Char) (e : Nat), lineLastPipe (a ++ z) = some e → e + 1 ≤ a.length →
      lineLastPipe (a ++ '\n' :: z0) = some e := by
  intro a
  induction a with
  | nil =>
      intro e _ he
      simp at he
  | cons c a1 ih =>
      intro e h he
      have h' : (if isNL c then none
        else match lineLastPipe (a1 ++ z) with
          | some m => some (m + 1)
          | none => if c = '|' then some 0 else none) = some e := h
      show (if isNL c then none
        else match lineLastPipe (a1 ++ '\n' :: z0) with
          | some m => some (m + 1)
          | none => if c = '|' then some 0 else none) = some e
      by_cases hnl : isNL c
      · rw [if_pos hnl] at h'; exact absurd h' (by simp)
      · rw [if_neg hnl] at h' ⊢
        cases hin : lineLastPipe (a1 ++ z) with
        | some m =>
            rw [hin] at h'
            have hm : m + 1 = e := by
              have : some (m + 1) = some e := h'
              exact Option.some.inj this
            have hml : m + 1 ≤ a1.length := by
              simp only [List.length_cons] at he
              omega
            rw [ih m hin hml]
            show some (m + 1) = some e
            rw [hm]
        | none =>
            rw [hin] at h'
            have hc : c = '|' := by
              by_cases hc : c = '|'
              · exact hc
              · rw [if_neg hc] at h'; exact absurd h' (by simp)
            rw [lineLastPipe_none_transfer a1 hin]
            show (if c = '|' then some 0 else none) = some e
            rw [if_pos hc] at h' ⊢
            exact h'

theorem lineLastPipe_pipe_at :
    ∀ (i : Nat) (s u : List Char), (∀ c ∈ s.take i, isNL c = false) →
      s.drop i = '|' :: u → ∃ e, lineLastPipe s = some e := by
  intro i
  induction i with
  | zero =>
      intro s u _ hd
      have hs : s = '|' :: u := by simpa using hd
      subst hs
      rw [lineLastPipe_eq, if_neg (by decide)]
      cases hin : lineLastPipe u with
      | some m => exact ⟨m + 1, rfl⟩
      | none =>
          refine ⟨0, ?_⟩
          show (if '|' = '|' then some 0 else none) = some 0
          rw [if_pos rfl]
  | succ i' ih =>
      intro s u hall hd
      cases s with
      | nil => simp at hd
      | cons c t =>
          have hc : isNL c = false := hall c (by rw [List.take_succ_cons]; simp)
          have hall' : ∀ x ∈ t.take i', isNL x = false := by
            intro x hx
            exact hall x (by rw [List.take_succ_cons]; exact List.mem_cons_of_mem c hx)
          obtain ⟨e, he⟩ := ih t u hall' (by simpa using hd)
          refine ⟨e + 1, ?_⟩
          rw [lineLastPipe_eq, if_neg (by rw [hc]; simp), he]

theorem nlTake_cons (c : Char) (t : List Char) :
    nlTake (c :: t) =
      if c = '\r' then
        (match t with
         | b :: _ => if b = '\n' then 2 else 1
         | [] => 1)
      else if c = '\n' then 1 else 0 := rfl

theorem nlTake_cons2 (a b : Char) (t : List Char) :
    nlTake (a :: b :: t) =
      if a = '\r' then (if b = '\n' then 2 else 1)
      else if a = '\n' then 1 else 0 := rfl

theorem nlTake_two {w : List Char} (h : 2 ≤ w.length) (z z' : List Char) :
    nlTake (w ++ z) = nlTake (w ++ z') := by
  cases w with
  | nil => simp at h
  | cons a w1 =>
      cases w1 with
      | nil => simp at h
      | cons b w2 =>
          show nlTake (a :: b :: (w2 ++ z)) = nlTake (a :: b :: (w2 ++ z'))
          rw [nlTake_cons2, nlTake_cons2]

theorem nlTake_nl (z : List Char) : nlTake ('\n' :: z) = 1 := by
  rw [nlTake_cons, if_neg (by decide), if_pos rfl]

theorem nlTake_cr_ge (z : List Char) : 1 ≤ nlTake ('\r' :: z) := by
  rw [nlTake_cons, if_pos rfl]
  cases z with
  | nil => exact Nat.le_refl 1
  | cons b z1 =>
      show 1 ≤ (if b = '\n' then 2 else 1)
      by_cases hb : b = '\n'
      · rw [if_pos hb]; omega
      · rw [if_neg hb]

theorem nlTake_cr_nl (z : List Char) : nlTake ('\r' :: '\n' :: z) = 2 := by
  rw [nlTake_cons2, if_pos rfl, if_pos rfl]

theorem nlTake_other {c : Char} (h1 : c ≠ '\r') (h2 : c ≠ '\n') (z : List Char) :
    nlTake (c :: z) = 0 := by
  rw [nlTake_cons, if_neg h1, if_neg h2]

theorem rowLen_eq (a : Char) (s1 : List Char) :
    rowLen (a :: s1) =
      if a = '|' then
        (match lineLastPipe s1 with
         | some e => some (1 + (e + 1) + nlTake (s1.drop (e + 1)))
         | none => none)
      else none := rfl

theorem rowLen_not_pipe {c : Char} (h : c ≠ '|') (z : List Char) :
    rowLen (c :: z) = none := by
  rw [rowLen_eq, if_neg h]

theorem rowsSkip_some {s : List Char} {g : Nat} (h : rowLen s = some g) :
    rowsSkip s = g + rowsSkip (s.drop g) := by
  rw [rowsSkip_unfold, h]

theorem rowsSkip_none {s : List Char} (h : rowLen s = none) : rowsSkip s = 0 := by
  rw [rowsSkip_unfold, h]

theorem chainSkip_some {s : List Char} {g : Nat} (h : groupLen s = some g) :
    chainSkip s = g + chainSkip (s.drop g) := by
  rw [chainSkip_unfold, h]

theorem chainSkip_none {s : List Char} (h : groupLen s = none) : chainSkip s = 0 := by
  rw [chainSkip_unfold, h]

theorem rowsSkip_le : ∀ s : List Char, rowsSkip s ≤ s.length := by
  have haux : ∀ f s, s.length < f → rowsSkipF f s ≤ s.length := by
    intro f
    induction f with
    | zero => intro s h; omega
    | succ f ih =>
        intro s h
        show (match rowLen s with
          | some g => g + rowsSkipF f (s.drop g)
          | none => 0) ≤ s.length
        cases hg : rowLen s with
        | none => exact Nat.zero_le _
        | some g =>
            obtain ⟨hg2, hgle⟩ := rowLen_bounds hg
            have hdl : (s.drop g).length = s.length - g := by simp
            have hrec := ih (s.drop g) (by omega)
            show g + rowsSkipF f (s.drop g) ≤ s.length
            omega
  intro s
  exact haux (s.length + 1) s (by omega)

theorem rowsSkip_zero_or_two (s : List Char) : rowsSkip s = 0 ∨ 2 ≤ rowsSkip s := by
  cases hg : rowLen s with
  | none => exact Or.inl (rowsSkip_none hg)
  | some g =>
      right
      rw [rowsSkip_some hg]
      obtain ⟨hg2, _⟩ := rowLen_bounds hg
      omega

theorem rowsSkip_end_aux {z : List Char} :
    ∀ (n : Nat) (a : List Char), a.length ≤ n → rowsSkip (a ++ z) = a.length →
      rowLen z = none := by
  intro n
  induction n with
  | zero =>
      intro a ha h
      have haz : a = [] := List.length_eq_zero.mp (by omega)
      subst haz
      cases hg : rowLen z with
      | none => rfl
      | some g =>
          exfalso
          have := rowsSkip_some hg
          obtain ⟨hg2, _⟩ := rowLen_bounds hg
          have h0 : rowsSkip z = 0 := by simpa using h
          omega
  | succ n ih =>
      intro a ha h
      by_cases haz : a = []
      · subst haz
        cases hg : rowLen z with
        | none => rfl
        | some g =>
            exfalso
            have := rowsSkip_some hg
            obtain ⟨hg2, _⟩ := rowLen_bounds hg
            have h0 : rowsSkip z = 0 := by simpa using h
            omega
      · have hal : 1 ≤ a.length := by
          cases a with
          | nil => exact absurd rfl haz
          | cons c a1 => simp
        cases hg : rowLen (a ++ z) with
        | none =>
            exfalso
            have := rowsSkip_none hg
            omega
        | some g =>
            obtain ⟨hg2, _⟩ := rowLen_bounds hg
            have hun := rowsSkip_some hg
            have hga : g ≤ a.length := by
              have : 0 ≤ rowsSkip ((a ++ z).drop g) := Nat.zero_le _
              omega
            have hdz : (a ++ z).drop g = a.drop g ++ z :=
              List.drop_append_of_le_length (by omega)
            refine ih (a.drop g) ?_ ?_
            · simp only [List.length_drop]; omega
            · rw [← hdz]
              simp only [List.length_drop]
              omega

theorem rowsSkip_end {a z : List Char} (h : rowsSkip (a ++ z) = a.length) :
    rowLen z = none :=
  rowsSkip_end_aux a.length a (Nat.le_refl _) h

theorem rowsSkip_sep_aux {z y : List Char} :
    ∀ (n : Nat) (a : List Char), a.length ≤ n → rowsSkip (a ++ z) = a.length →
      ∃ δ, δ ≤ 1 ∧ rowsSkip (a ++ '\n' :: '\n' :: y) = a.length + δ := by
  intro n
  induction n with
  | zero =>
      intro a ha h
      have haz : a = [] := List.length_eq_zero.mp (by omega)
      subst haz
      refine ⟨0, by omega, ?_⟩
      show rowsSkip ('\n' :: '\n' :: y) = 0
      exact rowsSkip_none (rowLen_not_pipe (by decide) _)
  | succ n ih =>
      intro a ha h
      by_cases haz : a = []
      · subst haz
        refine ⟨0, by omega, ?_⟩
        show rowsSkip ('\n' :: '\n' :: y) = 0
        exact rowsSkip_none (rowLen_not_pipe (by decide) _)
      · have hal : 1 ≤ a.length := by
          cases a with
          | nil => exact absurd rfl haz
          | cons c a1 => simp
        cases hg : rowLen (a ++ z) with
        | none =>
            exfalso
            have := rowsSkip_none hg
            omega
        | some g =>
            obtain ⟨hg2, hgb⟩ := rowLen_bounds hg
            have hun := rowsSkip_some hg
            have hga : g ≤ a.length := by
              have : 0 ≤ rowsSkip ((a ++ z).drop g) := Nat.zero_le _
              omega
            have hdz : (a ++ z).drop g = a.drop g ++ z :=
              List.drop_append_of_le_length (by omega)
            have hrest : rowsSkip (a.drop g ++ z) = (a.drop g).length := by
              rw [← hdz]
              simp only [List.length_drop]
              omega
            obtain ⟨c, a1, rfl⟩ : ∃ c a1, a = c :: a1 := by
              cases a with
              | nil => exact absurd rfl haz
              | cons c a1 => exact ⟨c, a1, rfl⟩
            have hrl : (if c = '|' then
                (match lineLastPipe (a1 ++ z) with
                 | some e => some (1 + (e + 1) + nlTake ((a1 ++ z).drop (e + 1)))
                 | none => none)
              else none) = some g := hg
            by_cases hc : c = '|'
            case neg => rw [if_neg hc] at hrl; exact absurd hrl (by simp)
            rw [if_pos hc] at hrl
            cases he : lineLastPipe (a1 ++ z) with
            | none => rw [he] at hrl; exact absurd hrl (by simp)
            | some e =>
                rw [he] at hrl
                have hgval : 1 + (e + 1) + nlTake ((a1 ++ z).drop (e + 1)) = g :=
                  Option.some.inj hrl
                have hea : e + 2 ≤ g := by
                  have : 0 ≤ nlTake ((a1 ++ z).drop (e + 1)) := Nat.zero_le _
                  omega
                have healen : e + 1 ≤ a1.length := by
                  simp only [List.length_cons] at hga
                  omega
                have hlp2 : lineLastPipe (a1 ++ '\n' :: '\n' :: y) = some e :=
                  lineLastPipe_some_transfer a1 e he healen
                have hsplitL : (a1 ++ z).drop (e + 1) = a1.drop (e + 1) ++ z :=
                  List.drop_append_of_le_length (by omega)
                have hsplitR : (a1 ++ '\n' :: '\n' :: y).drop (e + 1) =
                    a1.drop (e + 1) ++ '\n' :: '\n' :: y :=
                  List.drop_append_of_le_length (by omega)
                have hn1le : nlTake (a1.drop (e + 1) ++ z) ≤ (a1.drop (e + 1)).length := by
                  rw [← hsplitL]
                  simp only [List.length_drop, List.length_cons] at hga ⊢
                  omega
                by_cases ha2 : 2 ≤ (a1.drop (e + 1)).length
                · have hnt : nlTake (a1.drop (e + 1) ++ '\n' :: '\n' :: y) =
                      nlTake (a1.drop (e + 1) ++ z) := nlTake_two ha2 _ _
                  have hrg : rowLen (c :: a1 ++ '\n' :: '\n' :: y) = some g := by
                    show rowLen (c :: (a1 ++ '\n' :: '\n' :: y)) = some g
                    rw [rowLen_eq, if_pos hc, hlp2]
                    show some (1 + (e + 1) + nlTake ((a1 ++ '\n' :: '\n' :: y).drop (e + 1)))
                      = some g
                    rw [hsplitR, hnt, ← hsplitL, hgval]
                  obtain ⟨δ, hδ, hrec⟩ := ih ((c :: a1).drop g) (by
                    simp only [List.length_drop, List.length_cons] at ha ⊢
                    omega) hrest
                  refine ⟨δ, hδ, ?_⟩
                  rw [rowsSkip_some hrg]
                  have hdz2 : (c :: a1 ++ '\n' :: '\n' :: y).drop g =
                      (c :: a1).drop g ++ '\n' :: '\n' :: y := by
                    show ((c :: a1) ++ '\n' :: '\n' :: y).drop g = _
                    exact List.drop_append_of_le_length (by omega)
                  rw [hdz2, hrec]
                  simp only [List.length_drop]
                  omega
                · have ha2' : (a1.drop (e + 1)).length ≤ 1 := by omega
                  have hlen1 : (a1.drop (e + 1)).length = a1.length - (e + 1) := by simp
                  cases hpa : a1.drop (e + 1) with
                  | nil =>
                      have hzln : nlTake z ≤ 0 := by
                        have := hn1le
                        rw [hpa] at this
                        simpa [hsplitL, hpa] using this
                      have hn1z : nlTake ((a1 ++ z).drop (e + 1)) = 0 := by
                        rw [hsplitL, hpa]
                        simpa using hzln
                      have hglen : g = (c :: a1).length := by
                        simp only [List.length_cons]
                        rw [hn1z] at hgval
                        have : a1.length = e + 1 := by
                          rw [hpa] at hlen1
                          simp at hlen1
                          omega
                        omega
                      have hrg : rowLen (c :: a1 ++ '\n' :: '\n' :: y) = some (g + 1) := by
                        show rowLen (c :: (a1 ++ '\n' :: '\n' :: y)) = some (g + 1)
                        rw [rowLen_eq, if_pos hc, hlp2]
                        show some (1 + (e + 1) +
                          nlTake ((a1 ++ '\n' :: '\n' :: y).drop (e + 1))) = some (g + 1)
                        rw [hsplitR, hpa]
                        show some (1 + (e + 1) + nlTake ('\n' :: '\n' :: y)) = some (g + 1)
                        rw [nlTake_nl]
                        rw [← hgval, hn1z]
                      refine ⟨1, by omega, ?_⟩
                      rw [rowsSkip_some hrg]
                      have hdz2 : (c :: a1 ++ '\n' :: '\n' :: y).drop (g + 1) = '\n' :: y := by
                        rw [hglen]
                        show ((c :: a1) ++ '\n' :: '\n' :: y).drop ((c :: a1).length + 1) =
                          '\n' :: y
                        rw [drop_append_plus]
                        rfl
                      rw [hdz2]
                      rw [rowsSkip_none (rowLen_not_pipe (by decide) _)]
                      omega
                  | cons ch a3 =>
                      have ha3 : a3 = [] := by
                        have := congrArg List.length hpa
                        simp at this
                        cases a3 with
                        | nil => rfl
                        | cons x xs => simp at this; omega
                      subst ha3
                      have hn1 : nlTake ((a1 ++ z).drop (e + 1)) = nlTake (ch :: z) := by
                        rw [hsplitL, hpa]
                        rfl
                      have hlen2 : a1.length = e + 2 := by
                        rw [hpa] at hlen1
                        simp at hlen1
                        omega
                      by_cases hch : ch = '\n'
                      · have hnz : nlTake (ch :: z) = 1 := by rw [hch]; exact nlTake_nl z
                        have hglen : g = (c :: a1).length := by
                          simp only [List.length_cons]
                          rw [hn1, hnz] at hgval
                          omega
                        have hrg : rowLen (c :: a1 ++ '\n' :: '\n' :: y) = some g := by
                          show rowLen (c :: (a1 ++ '\n' :: '\n' :: y)) = some g
                          rw [rowLen_eq, if_pos hc, hlp2]
                          show some (1 + (e + 1) +
                            nlTake ((a1 ++ '\n' :: '\n' :: y).drop (e + 1))) = some g
                          rw [hsplitR, hpa, hch]
                          show some (1 + (e + 1) + nlTake ('\n' :: '\n' :: '\n' :: y)) = some g
                          rw [nlTake_nl]
                          rw [← hgval, hn1, hnz]
                        refine ⟨0, by omega, ?_⟩
                        rw [rowsSkip_some hrg]
                        have hdz2 : (c :: a1 ++ '\n' :: '\n' :: y).drop g = '\n' :: '\n' :: y := by
                          rw [hglen]
                          show ((c :: a1) ++ '\n' :: '\n' :: y).drop ((c :: a1).length) = _
                          exact List.drop_left _ _
                        rw [hdz2]
                        rw [rowsSkip_none (rowLen_not_pipe (by decide) _)]
                        omega
                      · by_cases hcr : ch = '\r'
                        · have hnz : nlTake (ch :: z) = 1 := by
                            have hle1 : nlTake (ch :: z) ≤ 1 := by
                              have := hn1le
                              rw [hpa] at this
                              simpa using this
                            have hge1 : 1 ≤ nlTake (ch :: z) := by
                              rw [hcr]; exact nlTake_cr_ge z
                            omega
                          have hglen : g = (c :: a1).length := by
                            simp only [List.length_cons]
                            rw [hn1, hnz] at hgval
                            omega
                          have hrg : rowLen (c :: a1 ++ '\n' :: '\n' :: y) = some (g + 1) := by
                            show rowLen (c :: (a1 ++ '\n' :: '\n' :: y)) = some (g + 1)
                            rw [rowLen_eq, if_pos hc, hlp2]
                            show some (1 + (e + 1) +
                              nlTake ((a1 ++ '\n' :: '\n' :: y).drop (e + 1))) = some (g + 1)
                            rw [hsplitR, hpa, hcr]
                            show some (1 + (e + 1) + nlTake ('\r' :: '\n' :: '\n' :: y)) =
                              some (g + 1)
                            rw [nlTake_cr_nl]
                            rw [← hgval, hn1, hnz]
                          refine ⟨1, by omega, ?_⟩
                          rw [rowsSkip_some hrg]
                          have hdz2 : (c :: a1 ++ '\n' :: '\n' :: y).drop (g + 1) =
                              '\n' :: y := by
                            rw [hglen]
                            show ((c :: a1) ++ '\n' :: '\n' :: y).drop ((c :: a1).length + 1) =
                              '\n' :: y
                            rw [drop_append_plus]
                            rfl
                          rw [hdz2]
                          rw [rowsSkip_none (rowLen_not_pipe (by decide) _)]
                          omega
                        · exfalso
                          have hnz : nlTake (ch :: z) = 0 := nlTake_other hcr hch z
                          have hgval2 : g = e + 2 := by
                            rw [hn1, hnz] at hgval
                            omega
                          have hdrop : (c :: a1).drop g = [ch] := by
                            rw [hgval2]
                            show a1.drop (e + 1) = [ch]
                            exact hpa
                          rw [hdrop] at hrest
                          have h1 : rowsSkip ([ch] ++ z) = 1 := by
                            rw [hrest]; rfl
                          rcases rowsSkip_zero_or_two ([ch] ++ z) with h0 | h2
                          · omega
                          · omega

theorem rowsSkip_sep {a z y : List Char} (h : rowsSkip (a ++ z) = a.length) :
    ∃ δ, δ ≤ 1 ∧ rowsSkip (a ++ '\n' :: '\n' :: y) = a.length + δ :=
  rowsSkip_sep_aux a.length a (Nat.le_refl _) h

theorem tailSpec_eq (r : List Char) :
    tailSpec r = (r.drop (nlTake r)).drop (rowsSkip (r.drop (nlTake r))) := rfl

theorem tailSpec_sep {a z : List Char} (h : tailSpec (a ++ z) = z) :
    rowLen z = none ∧ ∀ y : List Char, ∃ δ, δ ≤ 1 ∧
      tailSpec (a ++ '\n' :: '\n' :: y) = ('\n' :: '\n' :: y).drop δ := by
  have hnle : nlTake (a ++ z) ≤ (a ++ z).length := nlTake_le _
  have hrle : rowsSkip ((a ++ z).drop (nlTake (a ++ z))) ≤
      ((a ++ z).drop (nlTake (a ++ z))).length := rowsSkip_le _
  have hlen : z.length = (a ++ z).length - nlTake (a ++ z) -
      rowsSkip ((a ++ z).drop (nlTake (a ++ z))) := by
    have := congrArg List.length h
    rw [tailSpec_eq] at this
    simp only [List.length_drop] at this
    omega
  have hsum : nlTake (a ++ z) + rowsSkip ((a ++ z).drop (nlTake (a ++ z))) = a.length := by
    simp only [List.length_append] at hlen hnle hrle
    simp only [List.length_drop, List.length_append] at hrle
    omega
  set n := nlTake (a ++ z) with hndef
  have hna : n ≤ a.length := by omega
  have hdn : (a ++ z).drop n = a.drop n ++ z := List.drop_append_of_le_length hna
  have hrows : rowsSkip (a.drop n ++ z) = (a.drop n).length := by
    rw [← hdn]
    simp only [List.length_drop]
    omega
  have hrlz : rowLen z = none := rowsSkip_end hrows
  refine ⟨hrlz, ?_⟩
  intro y
  by_cases ha2 : 2 ≤ a.length
  · have hnt : nlTake (a ++ '\n' :: '\n' :: y) = n := by
      rw [hndef]
      exact nlTake_two ha2 _ _
    obtain ⟨δ, hδ, hrs⟩ := @rowsSkip_sep _ _ y hrows
    refine ⟨δ, hδ, ?_⟩
    rw [tailSpec_eq, hnt]
    rw [List.drop_append_of_le_length hna, hrs]
    have : (a.drop n).length + δ = (a.drop n).length + δ := rfl
    rw [drop_append_plus]
  · by_cases ha0 : a.length = 0
    · have haz : a = [] := List.length_eq_zero.mp ha0
      subst haz
      refine ⟨1, by omega, ?_⟩
      show tailSpec ('\n' :: '\n' :: y) = '\n' :: y
      rw [tailSpec_eq, nlTake_nl]
      show (('\n' :: y).drop (rowsSkip ('\n' :: y))) = '\n' :: y
      rw [rowsSkip_none (rowLen_not_pipe (by decide) _)]
      rfl
    · have ha1 : a.length = 1 := by omega
      obtain ⟨ch, rfl⟩ : ∃ ch, a = [ch] := by
        cases a with
        | nil => simp at ha1
        | cons c t =>
            cases t with
            | nil => exact ⟨c, rfl⟩
            | cons d u => simp at ha1
      by_cases hch : ch = '\n'
      · subst hch
        have hn1 : n = 1 := by rw [hndef]; exact nlTake_nl _
        refine ⟨0, by omega, ?_⟩
        show tailSpec ('\n' :: '\n' :: '\n' :: y) = '\n' :: '\n' :: y
        rw [tailSpec_eq, nlTake_nl]
        show (('\n' :: '\n' :: y).drop (rowsSkip ('\n' :: '\n' :: y))) = '\n' :: '\n' :: y
        rw [rowsSkip_none (rowLen_not_pipe (by decide) _)]
        rfl
      · by_cases hcr : ch = '\r'
        · subst hcr
          refine ⟨1, by omega, ?_⟩
          show tailSpec ('\r' :: '\n' :: '\n' :: y) = '\n' :: y
          rw [tailSpec_eq, nlTake_cr_nl]
          show (('\n' :: y).drop (rowsSkip ('\n' :: y))) = '\n' :: y
          rw [rowsSkip_none (rowLen_not_pipe (by decide) _)]
          rfl
        · exfalso
          have hn0 : n = 0 := by rw [hndef]; exact nlTake_other hcr hch z
          have : rowsSkip ([ch] ++ z) = 1 := by
            have := hrows
            rw [hn0] at this
            simpa using this
          rcases rowsSkip_zero_or_two ([ch] ++ z) with h0 | h2
          · omega
          · omega

theorem delimSpec_eq (a : Char) (s1 : List Char) :
    delimSpec (a :: s1) =
      if a = '|' then
        (match groupLen s1 with
         | some _ => some (s1.drop (chainSkip s1))
         | none => none)
      else none := rfl

theorem delimSpec_sep_kill {v z : List Char} (h : (delimSpec (v ++ '\n' :: z)).isSome) :
    ∀ z' : List Char, (delimSpec (v ++ z')).isSome := by
  intro z'
  cases v with
  | nil =>
      exfalso
      have h' : (delimSpec ('\n' :: z)).isSome := h
      rw [delimSpec_eq, if_neg (by decide)] at h'
      simp at h'
  | cons a v1 =>
      have h' : (delimSpec (a :: (v1 ++ '\n' :: z))).isSome := h
      rw [delimSpec_eq] at h'
      by_cases ha : a = '|'
      · rw [if_pos ha] at h'
        cases hg : groupLen (v1 ++ '\n' :: z) with
        | none => rw [hg] at h'; simp at h'
        | some g =>
            have hb : g ≤ v1.length := groupLen_nl_bound hg
            have ht : groupLen (v1 ++ z') = some g := groupLen_some_transfer hg hb z'
            show (delimSpec (a :: (v1 ++ z'))).isSome
            rw [delimSpec_eq, if_pos ha, ht]
            simp
      · rw [if_neg ha] at h'; simp at h'

theorem delim_tail_sep {cw r : List Char}
    (h : (delimSpec (cw ++ r)).map tailSpec = some r) :
    rowLen r = none ∧ ∀ y : List Char, ∃ δ, δ ≤ 1 ∧
      (delimSpec (cw ++ '\n' :: '\n' :: y)).map tailSpec =
        some (('\n' :: '\n' :: y).drop δ) := by
  cases hd : delimSpec (cw ++ r) with
  | none => rw [hd] at h; exact absurd h (by simp)
  | some dv =>
      rw [hd] at h
      have htl : tailSpec dv = r := by
        have : some (tailSpec dv) = some r := h
        exact Option.some.inj this
      cases cw with
      | nil =>
          exfalso
          have hd2 : delimSpec r = some dv := hd
          cases hr : r with
          | nil =>
              rw [hr] at hd2
              have hnone : delimSpec ([] : List Char) = none := rfl
              rw [hnone] at hd2
              exact absurd hd2 (by simp)
          | cons a r1 =>
              rw [hr] at hd2
              have hd' : (if a = '|' then
                  (match groupLen r1 with
                   | some _ => some (r1.drop (chainSkip r1))
                   | none => none)
                else none) = some dv := hd2
              by_cases ha : a = '|'
              · rw [if_pos ha] at hd'
                cases hg : groupLen r1 with
                | none => rw [hg] at hd'; exact absurd hd' (by simp)
                | some g0 =>
                    rw [hg] at hd'
                    have hdv : r1.drop (chainSkip r1) = dv := Option.some.inj hd'
                    have hc2 : 2 ≤ chainSkip r1 := chainSkip_pos hg
                    have hcle : chainSkip r1 ≤ r1.length := chainSkip_le r1
                    have hdvlen : dv.length = r1.length - chainSkip r1 := by
                      rw [← hdv]; simp
                    have h1 : r.length = (tailSpec dv).length := by rw [htl]
                    have h2 : (tailSpec dv).length ≤ dv.length := tailSpec_length_le dv
                    rw [hr] at h1
                    simp only [List.length_cons] at h1
                    omega
              · rw [if_neg ha] at hd'; exact absurd hd' (by simp)
      | cons a cw1 =>
          have hd' : (if a = '|' then
              (match groupLen (cw1 ++ r) with
               | some _ => some ((cw1 ++ r).drop (chainSkip (cw1 ++ r)))
               | none => none)
            else none) = some dv := hd
          by_cases ha : a = '|'
          case neg => rw [if_neg ha] at hd'; exact absurd hd' (by simp)
          rw [if_pos ha] at hd'
          cases hg : groupLen (cw1 ++ r) with
          | none => rw [hg] at hd'; exact absurd hd' (by simp)
          | some g0 =>
              rw [hg] at hd'
              have hdv : (cw1 ++ r).drop (chainSkip (cw1 ++ r)) = dv := Option.some.inj hd'
              set C := chainSkip (cw1 ++ r) with hCdef
              have hc2 : 2 ≤ C := chainSkip_pos hg
              have hcle : C ≤ (cw1 ++ r).length := chainSkip_le _
              have hCcw : C ≤ cw1.length := by
                by_contra hgt
                push_neg at hgt
                have hdvlen : dv.length = cw1.length + r.length - C := by
                  rw [← hdv]; simp
                have h1 : r.length = (tailSpec dv).length := by rw [htl]
                have h2 : (tailSpec dv).length ≤ dv.length := tailSpec_length_le dv
                simp only [List.length_append] at hcle
                omega
              have hdv2 : dv = cw1.drop C ++ r := by
                rw [← hdv]
                exact List.drop_append_of_le_length hCcw
              have htail : tailSpec (cw1.drop C ++ r) = r := by rw [← hdv2, htl]
              obtain ⟨hrl, hδall⟩ := tailSpec_sep htail
              refine ⟨hrl, ?_⟩
              intro y
              obtain ⟨δ, hδ, hts⟩ := hδall y
              refine ⟨δ, hδ, ?_⟩
              have hg0C : g0 ≤ C := by
                have := chainSkip_some hg
                rw [← hCdef] at this
                have : C = g0 + chainSkip ((cw1 ++ r).drop g0) := this
                have hpos : 0 ≤ chainSkip ((cw1 ++ r).drop g0) := Nat.zero_le _
                omega
              have hgt : groupLen (cw1 ++ '\n' :: '\n' :: y) = some g0 :=
                groupLen_some_transfer hg (by omega) _
              have hct : chainSkip (cw1 ++ '\n' :: '\n' :: y) = C := by
                rw [hCdef]
                exact chainSkip_transfer cw1 (by omega)
              show (delimSpec (a :: (cw1 ++ '\n' :: '\n' :: y))).map tailSpec = _
              rw [delimSpec_eq, if_pos ha, hgt]
              show some (tailSpec ((cw1 ++ '\n' :: '\n' :: y).drop
                (chainSkip (cw1 ++ '\n' :: '\n' :: y)))) = _
              rw [hct, List.drop_append_of_le_length hCcw, hts]

theorem nlCands_cons2 (a b : Char) (t : List Char) :
    nlCands (a :: b :: t) =
      if a = '\r' then
        (if b = '\n' then [t, b :: t, a :: b :: t] else [b :: t, a :: b :: t])
      else if a = '\n' then [b :: t, a :: b :: t]
      else [a :: b :: t] := rfl

theorem nlCands_append {w : List Char} (h : 2 ≤ w.length) (z : List Char) :
    nlCands (w ++ z) = (nlCands w).map (fun c => c ++ z) := by
  cases w with
  | nil => simp at h
  | cons a w1 =>
      cases w1 with
      | nil => simp at h
      | cons b w2 =>
          show nlCands (a :: b :: (w2 ++ z)) = (nlCands (a :: b :: w2)).map (fun c => c ++ z)
          rw [nlCands_cons2, nlCands_cons2]
          by_cases ha : a = '\r'
          · rw [if_pos ha, if_pos ha]
            by_cases hb : b = '\n'
            · rw [if_pos hb, if_pos hb]
              simp
            · rw [if_neg hb, if_neg hb]
              simp
          · rw [if_neg ha, if_neg ha]
            by_cases ha2 : a = '\n'
            · rw [if_pos ha2, if_pos ha2]
              simp
            · rw [if_neg ha2, if_neg ha2]
              simp

theorem afterHdr_eq (u1 : List Char) :
    afterHdr u1 = firstSome (fun c => (delimSpec c).map tailSpec) (nlCands u1) := rfl

theorem firstSome_cons (k : List Char → Option (List Char)) (c : List Char)
    (cs : List (List Char)) :
    firstSome k (c :: cs) =
      match k c with
      | some v => some v
      | none => firstSome k cs := rfl

theorem firstSome_sep_parallel {r y : List Char} :
    ∀ cs : List (List Char),
      firstSome (fun c => (delimSpec c).map tailSpec) (cs.map (fun cw => cw ++ r)) = some r →
      rowLen r = none ∧ ∃ δ, δ ≤ 1 ∧
        firstSome (fun c => (delimSpec c).map tailSpec)
          (cs.map (fun cw => cw ++ '\n' :: '\n' :: y)) =
          some (('\n' :: '\n' :: y).drop δ) := by
  intro cs
  induction cs with
  | nil => intro h; exact absurd h (by simp [firstSome])
  | cons cw cs ih =>
      intro h
      rw [List.map_cons, firstSome_cons] at h
      cases hk : (delimSpec (cw ++ r)).map tailSpec with
      | some v =>
          rw [hk] at h
          have hv : v = r := Option.some.inj h
          subst hv
          obtain ⟨hrl, hall⟩ := delim_tail_sep hk
          obtain ⟨δ, hδ, hmap2⟩ := hall y
          refine ⟨hrl, δ, hδ, ?_⟩
          rw [List.map_cons, firstSome_cons, hmap2]
      | none =>
          rw [hk] at h
          obtain ⟨hrl, δ, hδ, hrec⟩ := ih h
          refine ⟨hrl, δ, hδ, ?_⟩
          rw [List.map_cons, firstSome_cons]
          cases hk2 : (delimSpec (cw ++ '\n' :: '\n' :: y)).map tailSpec with
          | none => exact hrec
          | some w =>
              exfalso
              have hds : (delimSpec (cw ++ '\n' :: '\n' :: y)).isSome := by
                cases hdd : delimSpec (cw ++ '\n' :: '\n' :: y) with
                | none => rw [hdd] at hk2; simp at hk2
                | some u => simp
              have := @delimSpec_sep_kill _ ('\n' :: y) hds r
              cases hdd : delimSpec (cw ++ r) with
              | none => rw [hdd] at this; simp at this
              | some u => rw [hdd] at hk; simp at hk

theorem delimSpec_consume {c dv : List Char} (h : delimSpec c = some dv) :
    dv.length + 3 ≤ c.length := by
  cases c with
  | nil => exact absurd h (by simp [delimSpec])
  | cons a c1 =>
      have h' : (if a = '|' then
          (match groupLen c1 with
           | some _ => some (c1.drop (chainSkip c1))
           | none => none)
        else none) = some dv := h
      by_cases ha : a = '|'
      case neg => rw [if_neg ha] at h'; exact absurd h' (by simp)
      rw [if_pos ha] at h'
      cases hg : groupLen c1 with
      | none => rw [hg] at h'; exact absurd h' (by simp)
      | some g =>
          rw [hg] at h'
          have hdv : c1.drop (chainSkip c1) = dv := Option.some.inj h'
          have hc2 : 2 ≤ chainSkip c1 := chainSkip_pos hg
          have hcle : chainSkip c1 ≤ c1.length := chainSkip_le c1
          have : dv.length = c1.length - chainSkip c1 := by rw [← hdv]; simp
          simp only [List.length_cons]
          omega

theorem afterHdr_min_width {w r : List Char} (h : afterHdr (w ++ r) = some r) :
    3 ≤ w.length := by
  rw [afterHdr_eq] at h
  obtain ⟨c, hc, hk⟩ := firstSome_some_elim _ r h
  obtain ⟨d, hd2, hdrop⟩ := nlCands_mem_drop hc
  cases hds : delimSpec c with
  | none => rw [hds] at hk; exact absurd hk (by simp)
  | some dv =>
      rw [hds] at hk
      have htl : tailSpec dv = r := by
        have : some (tailSpec dv) = some r := hk
        exact Option.some.inj this
      have h1 : dv.length + 3 ≤ c.length := delimSpec_consume hds
      have h2 : r.length ≤ dv.length := by
        rw [← htl]; exact tailSpec_length_le dv
      have h3 : c.length = (w ++ r).length - d := by
        rw [hdrop]; simp
      simp only [List.length_append] at h3
      omega

theorem afterHdr_sep_kill {w y : List Char} (h : (afterHdr (w ++ '\n' :: '\n' :: y)).isSome) :
    ∀ z, (afterHdr (w ++ z)).isSome := by
  intro z
  by_cases hw2 : 2 ≤ w.length
  · rw [afterHdr_eq, nlCands_append hw2] at h
    obtain ⟨c, hc, hkc⟩ := firstSome_isSome_elim _ h
    obtain ⟨cw, hcw, hcweq⟩ := List.mem_map.mp hc
    have hds : (delimSpec (cw ++ '\n' :: '\n' :: y)).isSome := by
      rw [← hcweq] at hkc
      cases hdd : delimSpec (cw ++ '\n' :: '\n' :: y) with
      | none => rw [hdd] at hkc; simp at hkc
      | some u => simp
    have hdz : (delimSpec (cw ++ z)).isSome := @delimSpec_sep_kill _ ('\n' :: y) hds z
    rw [afterHdr_eq, nlCands_append hw2]
    refine firstSome_isSome_intro _ (cw ++ z) (List.mem_map.mpr ⟨cw, hcw, rfl⟩) ?_
    cases hdd : delimSpec (cw ++ z) with
    | none => rw [hdd] at hdz; simp at hdz
    | some u => simp
  · exfalso
    have hknl : ∀ u : List Char, (delimSpec ('\n' :: u)).map tailSpec = none := by
      intro u
      rw [delimSpec_eq, if_neg (by decide)]
      rfl
    have hkch : ∀ (c : Char) (u : List Char), (delimSpec (c :: '\n' :: u)).map tailSpec =
        none := by
      intro c u
      by_cases hp : c = '|'
      · rw [delimSpec_eq, if_pos hp, groupLen_nl]
        rfl
      · rw [delimSpec_eq, if_neg hp]
        rfl
    have hnone : afterHdr (w ++ '\n' :: '\n' :: y) = none := by
      cases w with
      | nil =>
          show afterHdr ('\n' :: '\n' :: y) = none
          rw [afterHdr_eq, nlCands_cons2, if_neg (by decide), if_pos rfl]
          rw [firstSome_cons, hknl, firstSome_cons, hknl]
          rfl
      | cons ch w1 =>
          have hw1 : w1 = [] := by
            cases w1 with
            | nil => rfl
            | cons d u =>
                exact absurd (by simp only [List.length_cons]; omega :
                  2 ≤ (ch :: d :: u).length) hw2
          subst hw1
          show afterHdr (ch :: '\n' :: '\n' :: y) = none
          rw [afterHdr_eq, nlCands_cons2]
          by_cases hcr : ch = '\r'
          · rw [if_pos hcr, if_pos rfl]
            rw [firstSome_cons, hknl, firstSome_cons, hknl, firstSome_cons, hkch]
            rfl
          · rw [if_neg hcr]
            by_cases hnl : ch = '\n'
            · rw [if_pos hnl]
              rw [firstSome_cons, hknl, firstSome_cons, hkch]
              rfl
            · rw [if_neg hnl]
              rw [firstSome_cons, hkch]
              rfl
    rw [hnone] at h
    simp at h

theorem afterHdr_sep_shift {w r : List Char} (h : afterHdr (w ++ r) = some r) :
    rowLen r = none ∧ ∀ y, ∃ δ, δ ≤ 1 ∧
      afterHdr (w ++ '\n' :: '\n' :: y) = some (('\n' :: '\n' :: y).drop δ) := by
  have hw3 : 3 ≤ w.length := afterHdr_min_width h
  have hw2 : 2 ≤ w.length := by omega
  rw [afterHdr_eq, nlCands_append hw2] at h
  constructor
  · exact (@firstSome_sep_parallel _ [] _ h).1
  · intro y
    obtain ⟨_, δ, hδ, hres⟩ := @firstSome_sep_parallel _ y _ h
    refine ⟨δ, hδ, ?_⟩
    rw [afterHdr_eq, nlCands_append hw2]
    exact hres

theorem specRun_nil : specRun [] = none := rfl

theorem specRun_nl (s : List Char) : specRun ('\n' :: s) = none := by
  rw [specRun_cons, if_neg (by decide)]

theorem specRun_consumes {s v : List Char} (h : specRun s = some v) :
    v.length + 2 ≤ s.length := by
  cases s with
  | nil => exact absurd h (by simp [specRun])
  | cons a s1 =>
      rw [specRun_cons] at h
      by_cases ha : a = '|'
      case neg => rw [if_neg ha] at h; exact absurd h (by simp)
      rw [if_pos ha] at h
      obtain ⟨i, hi, hk, _⟩ := predStarRun_some_elim s1 v h
      cases hd : s1.drop i with
      | nil => rw [hd, specK_nil] at hk; exact absurd hk (by simp)
      | cons b u1 =>
          rw [hd, specK_cons] at hk
          by_cases hb : b = '|'
          case neg => rw [if_neg hb] at hk; exact absurd hk (by simp)
          rw [if_pos hb] at hk
          obtain ⟨m, hm⟩ := afterHdr_is_drop hk
          have h1 : v.length ≤ u1.length := by
            rw [hm]; simp
          have h2 : u1.length + 1 = s1.length - i := by
            have := congrArg List.length hd
            simp at this
            omega
          simp only [List.length_cons]
          omega

theorem rowLen_none_specRun {s : List Char} (h : rowLen s = none) : specRun s = none := by
  cases s with
  | nil => exact specRun_nil
  | cons a s1 =>
      rw [specRun_cons]
      by_cases ha : a = '|'
      case neg => rw [if_neg ha]
      rw [if_pos ha]
      rw [rowLen_eq, if_pos ha] at h
      have hlp : lineLastPipe s1 = none := by
        cases hl : lineLastPipe s1 with
        | none => rfl
        | some e => rw [hl] at h; exact absurd h (by simp)
      refine predStarRun_none_intro s1 ?_
      intro i hile
      cases hd : s1.drop i with
      | nil => exact specK_nil
      | cons b u1 =>
          rw [specK_cons]
          by_cases hb : b = '|'
          · exfalso
            have hall : ∀ c ∈ s1.take i, isNL c = false := by
              intro c hc
              have := leadCount_all (fun c => !isNL c) s1 i hile c hc
              simpa using this
            obtain ⟨e, he⟩ := lineLastPipe_pipe_at i s1 u1 hall (by rw [hd, hb])
            rw [he] at hlp
            exact absurd hlp (by simp)
          · rw [if_neg hb]

theorem specRun_sep_kill {x y : List Char} (h : (specRun (x ++ '\n' :: '\n' :: y)).isSome) :
    ∀ z, (specRun (x ++ z)).isSome := by
  intro z
  cases x with
  | nil =>
      exfalso
      have h' : (specRun ('\n' :: '\n' :: y)).isSome := h
      rw [specRun_nl] at h'
      simp at h'
  | cons a x1 =>
      have h' : (specRun (a :: (x1 ++ '\n' :: '\n' :: y))).isSome := h
      rw [specRun_cons] at h'
      by_cases ha : a = '|'
      case neg => rw [if_neg ha] at h'; simp at h'
      rw [if_pos ha] at h'
      obtain ⟨v, hv⟩ := Option.isSome_iff_exists.mp h'
      obtain ⟨i, hi, hk, _⟩ := predStarRun_some_elim _ v hv
      have hlc : leadCount (fun c => !isNL c) (x1 ++ '\n' :: '\n' :: y) =
          leadCount (fun c => !isNL c) x1 := leadCount_append_nl x1 ('\n' :: y)
      have hix : i ≤ x1.length := by
        have := leadCount_le (fun c => !isNL c) x1
        omega
      by_cases hieq : i = x1.length
      · exfalso
        have hdeq : (x1 ++ '\n' :: '\n' :: y).drop i = '\n' :: '\n' :: y := by
          rw [hieq]
          exact List.drop_left _ _
        rw [hdeq, specK_cons, if_neg (by decide)] at hk
        exact absurd hk (by simp)
      · have hilt : i < x1.length := by omega
        cases hxd : x1.drop i with
        | nil =>
            exfalso
            have := congrArg List.length hxd
            simp at this
            omega
        | cons b w =>
            have hdeq : (x1 ++ '\n' :: '\n' :: y).drop i = b :: (w ++ '\n' :: '\n' :: y) := by
              rw [List.drop_append_of_le_length (by omega), hxd]
              rfl
            rw [hdeq, specK_cons] at hk
            by_cases hb : b = '|'
            case neg => rw [if_neg hb] at hk; exact absurd hk (by simp)
            rw [if_pos hb] at hk
            have hah : (afterHdr (w ++ '\n' :: '\n' :: y)).isSome := by rw [hk]; simp
            have hahz := afterHdr_sep_kill hah z
            show (specRun (a :: (x1 ++ z))).isSome
            rw [specRun_cons, if_pos ha]
            refine predStarRun_isSome_intro (x1 ++ z) i ?_ ?_
            · have := leadCount_append_mono (fun c => !isNL c) x1 z
              omega
            · have hdeq2 : (x1 ++ z).drop i = b :: (w ++ z) := by
                rw [List.drop_append_of_le_length (by omega), hxd]
                rfl
              rw [hdeq2, specK_cons, if_pos hb]
              exact hahz

theorem specRun_sep_shift {t r : List Char} (h : specRun (t ++ r) = some r) :
    specRun r = none ∧ ∀ y, ∃ δ, δ ≤ 1 ∧
      specRun (t ++ '\n' :: '\n' :: y) = some (('\n' :: '\n' :: y).drop δ) := by
  cases t with
  | nil =>
      exfalso
      have h' : specRun r = some r := h
      have := specRun_consumes h'
      omega
  | cons a t1 =>
      have h' : specRun (a :: (t1 ++ r)) = some r := h
      rw [specRun_cons] at h'
      by_cases ha : a = '|'
      case neg => rw [if_neg ha] at h'; exact absurd h' (by simp)
      rw [if_pos ha] at h'
      obtain ⟨i, hi, hk, hmin⟩ := predStarRun_some_elim _ r h'
      have hit : i < t1.length := by
        by_contra hge
        push_neg at hge
        have hdeq : (t1 ++ r).drop i = r.drop (i - t1.length) := by
          rw [List.drop_append_eq_append_drop]
          rw [List.drop_eq_nil_of_le (by omega)]
          rfl
        rw [hdeq] at hk
        cases hrd : r.drop (i - t1.length) with
        | nil => rw [hrd, specK_nil] at hk; exact absurd hk (by simp)
        | cons b u1 =>
            rw [hrd, specK_cons] at hk
            by_cases hb : b = '|'
            case neg => rw [if_neg hb] at hk; exact absurd hk (by simp)
            rw [if_pos hb] at hk
            obtain ⟨m, hm⟩ := afterHdr_is_drop hk
            have h1 : r.length ≤ u1.length := by rw [hm]; simp
            have h2 : u1.length + 1 = (r.drop (i - t1.length)).length := by
              have := congrArg List.length hrd
              simp at this
              omega
            simp only [List.length_drop] at h2
            omega
      cases hxd : t1.drop i with
      | nil =>
          exfalso
          have := congrArg List.length hxd
          simp at this
          omega
      | cons b w =>
          have hdeq : (t1 ++ r).drop i = b :: (w ++ r) := by
            rw [List.drop_append_of_le_length (by omega), hxd]
            rfl
          rw [hdeq, specK_cons] at hk
          by_cases hb : b = '|'
          case neg => rw [if_neg hb] at hk; exact absurd hk (by simp)
          rw [if_pos hb] at hk
          obtain ⟨hrl, hall⟩ := afterHdr_sep_shift hk
          refine ⟨rowLen_none_specRun hrl, ?_⟩
          intro y
          obtain ⟨δ, hδ, hah2⟩ := hall y
          refine ⟨δ, hδ, ?_⟩
          have hilead : i ≤ leadCount (fun c => !isNL c) t1 := by
            refine le_leadCount (fun c => !isNL c) t1 i (by omega) ?_
            intro c hc
            have hmem : c ∈ (t1 ++ r).take i := by
              rw [List.take_append_of_le_length (by omega)]
              exact hc
            exact leadCount_all (fun c => !isNL c) (t1 ++ r) i hi c hmem
          show specRun (a :: (t1 ++ '\n' :: '\n' :: y)) = some (('\n' :: '\n' :: y).drop δ)
          rw [specRun_cons, if_pos ha]
          have hlc : leadCount (fun c => !isNL c) (t1 ++ '\n' :: '\n' :: y) =
              leadCount (fun c => !isNL c) t1 := leadCount_append_nl t1 ('\n' :: y)
          refine predStarRun_some_intro _ _ i (by omega) ?_ ?_
          · have hdeq2 : (t1 ++ '\n' :: '\n' :: y).drop i = b :: (w ++ '\n' :: '\n' :: y) := by
              rw [List.drop_append_of_le_length (by omega), hxd]
              rfl
            rw [hdeq2, specK_cons, if_pos hb]
            exact hah2
          · intro j hj1 hj2
            have hjt : j ≤ t1.length := by
              have := leadCount_le (fun c => !isNL c) t1
              omega
            by_cases hjeq : j = t1.length
            · have hdeq2 : (t1 ++ '\n' :: '\n' :: y).drop j = '\n' :: '\n' :: y := by
                rw [hjeq]
                exact List.drop_left _ _
              rw [hdeq2, specK_cons, if_neg (by decide)]
            · have hjlt : j < t1.length := by omega
              cases hjd : t1.drop j with
              | nil =>
                  exfalso
                  have := congrArg List.length hjd
                  simp at this
                  omega
              | cons bj wj =>
                  have hdeq2 : (t1 ++ '\n' :: '\n' :: y).drop j =
                      bj :: (wj ++ '\n' :: '\n' :: y) := by
                    rw [List.drop_append_of_le_length (by omega), hjd]
                    rfl
                  rw [hdeq2, specK_cons]
                  by_cases hbj : bj = '|'
                  case neg => rw [if_neg hbj]
                  rw [if_pos hbj]
                  cases hahj : afterHdr (wj ++ '\n' :: '\n' :: y) with
                  | none => rfl
                  | some u =>
                      exfalso
                      have hsj : (afterHdr (wj ++ '\n' :: '\n' :: y)).isSome := by
                        rw [hahj]; simp
                      have hsr := afterHdr_sep_kill hsj r
                      have hminj := hmin j hj1 (by
                        have := leadCount_append_mono (fun c => !isNL c) t1 r
                        omega)
                      have hdeqj : (t1 ++ r).drop j = bj :: (wj ++ r) := by
                        rw [List.drop_append_of_le_length (by omega), hjd]
                        rfl
                      rw [hdeqj, specK_cons, if_pos hbj] at hminj
                      rw [hminj] at hsr
                      simp at hsr

theorem matchAtSpec_eq (s : List Char) :
    matchAtSpec s = (specRun s).map (fun t => s.length - t.length) := rfl

theorem matchAtSpec_nil : matchAtSpec [] = none := rfl

theorem matchAtSpec_nl (s : List Char) : matchAtSpec ('\n' :: s) = none := by
  rw [matchAtSpec_eq, specRun_nl]
  rfl

theorem scanAux_none_all : ∀ (s : List Char) (i : Nat), scanAux i s = none →
    ∀ p, matchAt (s.drop p) = none := by
  intro s
  induction s with
  | nil =>
      intro i _ p
      rw [List.drop_nil]
      rfl
  | cons a t ih =>
      intro i h p
      rw [scanAux_eq] at h
      cases hm : matchAt (a :: t) with
      | some len => rw [hm] at h; exact absurd h (by simp)
      | none =>
          rw [hm] at h
          cases p with
          | zero => exact hm
          | succ p' => exact ih (i + 1) h p'

theorem specScan_nil (i : Nat) : specScan i [] = none := rfl

theorem specScan_cons (i : Nat) (a : Char) (t : List Char) :
    specScan i (a :: t) =
      match matchAtSpec (a :: t) with
      | some len => some (i, len)
      | none => specScan (i + 1) t := rfl

theorem specScan_head {u : List Char} {len : Nat} (h : matchAtSpec u = some len) (i : Nat) :
    specScan i u = some (i, len) := by
  cases u with
  | nil => rw [matchAtSpec_nil] at h; exact absurd h (by simp)
  | cons a t => rw [specScan_cons, h]

theorem specScan_pre_skip :
    ∀ (q u : List Char), (∀ p, p < q.length → matchAtSpec ((q ++ u).drop p) = none) →
      ∀ i, specScan i (q ++ u) = specScan (i + q.length) u := by
  intro q
  induction q with
  | nil =>
      intro u _ i
      show specScan i u = specScan (i + 0) u
      rw [Nat.add_zero]
  | cons a q1 ih =>
      intro u hf i
      have h0 : matchAtSpec (a :: (q1 ++ u)) = none := by
        have := hf 0 (by simp)
        simpa using this
      show specScan i (a :: (q1 ++ u)) = _
      rw [specScan_cons, h0]
      have hsh : ∀ p, p < q1.length → matchAtSpec ((q1 ++ u).drop p) = none := by
        intro p hp
        have := hf (p + 1) (by simp; omega)
        simpa using this
      rw [ih u hsh (i + 1)]
      rw [show i + 1 + q1.length = i + (a :: q1).length from by
        simp only [List.length_cons]; omega]

theorem specScan_none_intro :
    ∀ (s : List Char) (i : Nat), (∀ p, matchAtSpec (s.drop p) = none) →
      specScan i s = none := by
  intro s
  induction s with
  | nil => intro i _; rfl
  | cons a t ih =>
      intro i h
      rw [specScan_cons]
      have h0 : matchAtSpec (a :: t) = none := by simpa using h 0
      rw [h0]
      refine ih (i + 1) ?_
      intro p
      simpa using h (p + 1)

/-- Flattened form of a list of block texts, at the character-list level:
the texts joined by the blank-line separator. -/
def joinL : List (List Char) → List Char
  | [] => []
  | [c] => c
  | c :: c2 :: cs => c ++ '\n' :: '\n' :: joinL (c2 :: cs)

theorem joinL_nil : joinL [] = [] := rfl

theorem joinL_single (c : List Char) : joinL [c] = c := rfl

theorem joinL_cons2 (c c2 : List Char) (cs : List (List Char)) :
    joinL (c :: c2 :: cs) = c ++ '\n' :: '\n' :: joinL (c2 :: cs) := rfl

theorem intercalate_go_data (sep : String) : ∀ (as : List String) (acc : String),
    (String.intercalate.go acc sep as).data =
      acc.data ++ (as.map (fun a => sep.data ++ a.data)).flatten := by
  intro as
  induction as with
  | nil => intro acc; simp [String.intercalate.go]
  | cons a as ih =>
      intro acc
      show (String.intercalate.go (acc ++ sep ++ a) sep as).data = _
      rw [ih]
      simp [String.data_append, List.append_assoc]

theorem intercalate_data : ∀ l : List String,
    (String.intercalate "\n\n" l).data = joinL (l.map String.data) := by
  intro l
  cases l with
  | nil => rfl
  | cons a as =>
      show (String.intercalate.go a "\n\n" as).data = _
      rw [intercalate_go_data]
      induction as generalizing a with
      | nil => simp [joinL]
      | cons b bs ih =>
          show a.data ++ (("\n\n".data ++ b.data) ::
            bs.map (fun x => "\n\n".data ++ x.data)).flatten =
            joinL (a.data :: b.data :: bs.map String.data)
          rw [joinL_cons2]
          have ihb := ih b
          rw [List.map_cons] at ihb
          rw [← ihb]
          show a.data ++ (("\n\n".data ++ b.data) ++
            (bs.map (fun x => "\n\n".data ++ x.data)).flatten) = _
          rw [List.append_assoc]
          rfl

theorem combineParts_data (parts : List DocumentPart) :
    (combineParts parts).data = joinL (parts.map (fun p => p.content.data)) := by
  show (String.intercalate "\n\n" (parts.map (fun p => p.content))).data = _
  rw [intercalate_data, List.map_map]
  rfl

theorem specSegmentLoop_zero (rest : List Char) (i : Nat) :
    specSegmentLoop 0 rest i = [] := rfl

theorem specSegmentLoop_succ (f : Nat) (rest : List Char) (i : Nat) :
    specSegmentLoop (f + 1) rest i =
      match specScan i rest with
      | none =>
          if rest.isEmpty then []
          else [(PartType.markdown, String.mk rest)]
      | some (idx, len) =>
          (if i < idx then
            [(PartType.markdown, String.mk (rest.take (idx - i)))]
           else []) ++
          (PartType.table, String.mk ((rest.drop (idx - i)).take len)) ::
            specSegmentLoop f (rest.drop (idx - i + len)) (idx + len) := rfl

theorem specSegmentLoop_empty : ∀ (fuel : Nat) (i : Nat), specSegmentLoop fuel [] i = [] := by
  intro fuel i
  cases fuel with
  | zero => rfl
  | succ f =>
      rw [specSegmentLoop_succ, specScan_nil]
      rfl

theorem specSegmentLoop_nonempty {rest : List Char} {fuel i : Nat} (hne : rest ≠ [])
    (hf : rest.length < fuel) : specSegmentLoop fuel rest i ≠ [] := by
  cases fuel with
  | zero => simp at hf
  | succ f =>
      rw [specSegmentLoop_succ]
      cases hs : specScan i rest with
      | none =>
          have : rest.isEmpty = false := by
            cases rest with
            | nil => exact absurd rfl hne
            | cons a t => rfl
          rw [this]
          simp
      | some q =>
          obtain ⟨idx, len⟩ := q
          simp

theorem matchAtSpec_none_iff (s : List Char) : matchAtSpec s = none ↔ specRun s = none := by
  rw [matchAtSpec_eq]
  cases hr : specRun s with
  | none => simp
  | some v => simp

theorem specScan_skip_nl :
    ∀ (pre u : List Char), (∀ c ∈ pre, c = '\n') →
      ∀ i, specScan i (pre ++ u) = specScan (i + pre.length) u := by
  intro pre
  induction pre with
  | nil =>
      intro u _ i
      show specScan i u = specScan (i + 0) u
      rw [Nat.add_zero]
  | cons c pq ih =>
      intro u hall i
      have hc : c = '\n' := hall c (by simp)
      subst hc
      show specScan i ('\n' :: (pq ++ u)) = _
      rw [specScan_cons, matchAtSpec_nl]
      rw [ih u (fun x hx => hall x (List.mem_cons_of_mem _ hx)) (i + 1)]
      rw [show i + 1 + pq.length = i + ('\n' :: pq).length from by
        simp only [List.length_cons]; omega]

theorem specScan_gap_skip {gtxt z W : List Char}
    (hfail : ∀ p, p < gtxt.length → specRun (gtxt.drop p ++ z) = none) (i : Nat) :
    specScan i (gtxt ++ '\n' :: '\n' :: W) = specScan (i + (gtxt.length + 2)) W := by
  have hskip : ∀ p, p < gtxt.length →
      matchAtSpec ((gtxt ++ '\n' :: '\n' :: W).drop p) = none := by
    intro p hp
    have hdp : (gtxt ++ '\n' :: '\n' :: W).drop p = gtxt.drop p ++ '\n' :: '\n' :: W :=
      List.drop_append_of_le_length (by omega)
    rw [hdp, matchAtSpec_none_iff]
    cases hr : specRun (gtxt.drop p ++ '\n' :: '\n' :: W) with
    | none => rfl
    | some v =>
        exfalso
        have hks : (specRun (gtxt.drop p ++ '\n' :: '\n' :: W)).isSome := by
          rw [hr]; simp
        have := specRun_sep_kill hks z
        rw [hfail p hp] at this
        simp at this
  rw [specScan_pre_skip gtxt ('\n' :: '\n' :: W) hskip i]
  rw [specScan_cons, matchAtSpec_nl, specScan_cons, matchAtSpec_nl]
  rw [show i + gtxt.length + 1 + 1 = i + (gtxt.length + 2) from by omega]

theorem rematch_sep {m rest2 jt : List Char} (hm : specRun (m ++ rest2) = some rest2) :
    matchAtSpec rest2 = none ∧
    ∃ δ, δ ≤ 1 ∧ matchAtSpec (m ++ '\n' :: '\n' :: jt) = some (m.length + δ) ∧
      (m ++ '\n' :: '\n' :: jt).drop (m.length + δ) = (['\n', '\n'].drop δ) ++ jt := by
  obtain ⟨hadj, hall⟩ := specRun_sep_shift hm
  refine ⟨by rw [matchAtSpec_none_iff]; exact hadj, ?_⟩
  obtain ⟨δ, hδ, hrun⟩ := hall jt
  refine ⟨δ, hδ, ?_, ?_⟩
  · rw [matchAtSpec_eq, hrun]
    show some ((m ++ '\n' :: '\n' :: jt).length - (('\n' :: '\n' :: jt).drop δ).length) = _
    simp only [List.length_append, List.length_drop, List.length_cons]
    congr 1
    omega
  · rw [drop_append_plus]
    show ('\n' :: '\n' :: jt).drop δ = _
    have : '\n' :: '\n' :: jt = ['\n', '\n'] ++ jt := rfl
    rw [this, List.drop_append_of_le_length (by simp; omega)]

theorem rematch_last {m rest2 : List Char} (hm : specRun (m ++ rest2) = some rest2)
    (h2 : rest2 = []) : matchAtSpec m = some m.length := by
  subst h2
  have hm' : specRun m = some [] := by
    have : m ++ [] = m := List.append_nil m
    rw [this] at hm
    exact hm
  rw [matchAtSpec_eq, hm']
  rfl

theorem specSegmentLoop_succ_none {f : Nat} {rest : List Char} {i : Nat}
    (h : specScan i rest = none) :
    specSegmentLoop (f + 1) rest i =
      if rest.isEmpty then [] else [(PartType.markdown, String.mk rest)] := by
  rw [specSegmentLoop_succ, h]

theorem specSegmentLoop_succ_some {f : Nat} {rest : List Char} {i idx len : Nat}
    (h : specScan i rest = some (idx, len)) :
    specSegmentLoop (f + 1) rest i =
      (if i < idx then
        [(PartType.markdown, String.mk (rest.take (idx - i)))]
       else []) ++
      (PartType.table, String.mk ((rest.drop (idx - i)).take len)) ::
        specSegmentLoop f (rest.drop (idx - i + len)) (idx + len) := by
  rw [specSegmentLoop_succ, h]

theorem mem_drop_nl : ∀ (δ : Nat) (c : Char), c ∈ (['\n', '\n'] : List Char).drop δ →
    c = '\n' := by
  intro δ c hc
  cases δ with
  | zero => simpa using hc
  | succ δ1 =>
      cases δ1 with
      | zero => simpa using hc
      | succ δ2 => simp at hc

/-- Re-running the scan loop over the flattened output reproduces the same
sequence of block kinds.  The leftover separator newlines after a
re-matched table are carried as the all-newline prefix `pre`, which is
nonempty only when another block follows, in which case the next gap in the
original scan is nonempty by the adjacency property of the matcher. -/
theorem respec_loop :
    ∀ (fuel : Nat) (rest : List Char) (i i2 : Nat) (pre : List Char) (fuel2 : Nat),
      rest.length < fuel →
      (∀ c ∈ pre, c = '\n') →
      (pre = [] ∨ (rest ≠ [] ∧ matchAtSpec rest = none)) →
      (pre ++ joinL ((specSegmentLoop fuel rest i).map (fun b => b.2.data))).length < fuel2 →
      (specSegmentLoop fuel2
          (pre ++ joinL ((specSegmentLoop fuel rest i).map (fun b => b.2.data)))
          i2).map Prod.fst =
        (specSegmentLoop fuel rest i).map Prod.fst := by
  intro fuel
  induction fuel with
  | zero =>
      intro rest i i2 pre fuel2 hfl _ _ _
      exact absurd hfl (Nat.not_lt_zero _)
  | succ f ih =>
      intro rest i i2 pre fuel2 hfl hpre halign hf2
      cases hs : specScan i rest with
      | none =>
          rw [specSegmentLoop_succ_none hs] at hf2 ⊢
          by_cases hre : rest = []
          · have hie : rest.isEmpty = true := by rw [hre]; rfl
            rw [if_pos hie] at hf2 ⊢
            have hpe : pre = [] := by
              rcases halign with h | ⟨hne, _⟩
              · exact h
              · exact absurd hre hne
            subst hpe
            show (specSegmentLoop fuel2 [] i2).map Prod.fst =
              ([] : List (PartType × String)).map Prod.fst
            rw [specSegmentLoop_empty]
          · have hie : rest.isEmpty = false := by
              cases rest with
              | nil => exact absurd rfl hre
              | cons a t => rfl
            rw [if_neg (by simp [hie])] at hf2 ⊢
            have hallnone : ∀ p, matchAtSpec (rest.drop p) = none := by
              intro p
              have hsa : scanAux i rest = none := by
                rw [specScan_eq_scanAux]; exact hs
              rw [← matchAt_eq_spec]
              exact scanAux_none_all rest i hsa p
            show (specSegmentLoop fuel2 (pre ++ rest) i2).map Prod.fst =
              [(PartType.markdown, String.mk rest)].map Prod.fst
            have hscan2 : specScan i2 (pre ++ rest) = none := by
              rw [specScan_skip_nl pre rest hpre i2]
              exact specScan_none_intro rest (i2 + pre.length) hallnone
            obtain ⟨f2, rfl⟩ : ∃ f2, fuel2 = f2 + 1 := ⟨fuel2 - 1, by omega⟩
            rw [specSegmentLoop_succ_none hscan2]
            have hSne : pre ++ rest ≠ [] := by
              intro hEq
              exact hre (List.append_eq_nil.mp hEq).2
            have hSie : (pre ++ rest).isEmpty = false := by
              cases hq : pre ++ rest with
              | nil => exact absurd hq hSne
              | cons a t => rfl
            rw [if_neg (by simp [hSie])]
            rfl
      | some q =>
          obtain ⟨idx, len⟩ := q
          have hsa : scanAux i rest = some (idx, len) := by
            rw [specScan_eq_scanAux]; exact hs
          obtain ⟨j, hj, hrange, hlpos, hmatch, hmin⟩ := scanAux_spec hsa
          have hmatchS : matchAtSpec (rest.drop j) = some len := by
            rw [← matchAt_eq_spec]; exact hmatch
          have hminS : ∀ p, p < j → matchAtSpec (rest.drop p) = none := by
            intro p hp
            rw [← matchAt_eq_spec]
            exact hmin p hp
          have hji : idx - i = j := by omega
          rw [specSegmentLoop_succ_some hs, hji] at hf2 ⊢
          have hdd : (rest.drop j).drop len = rest.drop (j + len) := by
            rw [List.drop_drop]
          have hmdecomp : rest.drop j = (rest.drop j).take len ++ rest.drop (j + len) := by
            rw [← hdd]
            exact (List.take_append_drop len (rest.drop j)).symm
          have hmlen : ((rest.drop j).take len).length = len := by
            simp only [List.length_take, List.length_drop]
            omega
          have hspecm : specRun ((rest.drop j).take len ++ rest.drop (j + len)) =
              some (rest.drop (j + len)) := by
            obtain ⟨hle2, hsr⟩ := matchAtSpec_some_decomp hmatchS
            rw [hdd] at hsr
            rw [← hmdecomp]
            exact hsr
          have hadjS : matchAtSpec (rest.drop (j + len)) = none :=
            (@rematch_sep _ _ [] hspecm).1
          have hr2fl : (rest.drop (j + len)).length < f := by
            have : (rest.drop (j + len)).length = rest.length - (j + len) := by simp
            omega
          by_cases hj0 : j = 0
          · subst hj0
            have hpe : pre = [] := by
              rcases halign with h | ⟨_, hnm⟩
              · exact h
              · exfalso
                rw [List.drop_zero] at hmatchS
                rw [hmatchS] at hnm
                exact absurd hnm (by simp)
            subst hpe
            have hnix : ¬ i < idx := by omega
            rw [if_neg hnix] at hf2 ⊢
            simp only [Nat.zero_add, List.drop_zero] at hf2 hspecm hadjS hr2fl hmlen hmdecomp ⊢
            by_cases hr20 : rest.drop len = []
            · have hDR : specSegmentLoop f (rest.drop len) (idx + len) = [] := by
                rw [hr20]
                exact specSegmentLoop_empty f (idx + len)
              rw [hDR] at hf2 ⊢
              show (specSegmentLoop fuel2 (rest.take len) i2).map Prod.fst = [PartType.table]
              have hscanM : specScan i2 (rest.take len) = some (i2, len) := by
                have hmm2 : matchAtSpec (rest.take len) = some (rest.take len).length :=
                  rematch_last hspecm hr20
                rw [hmlen] at hmm2
                exact specScan_head hmm2 i2
              obtain ⟨f2, rfl⟩ : ∃ f2, fuel2 = f2 + 1 := ⟨fuel2 - 1, by omega⟩
              rw [specSegmentLoop_succ_some hscanM]
              rw [if_neg (by omega : ¬ i2 < i2)]
              have hdropM : (rest.take len).drop (i2 - i2 + len) = [] := by
                rw [show i2 - i2 + len = len from by omega]
                exact List.drop_eq_nil_of_le hmlen.le
              rw [hdropM, specSegmentLoop_empty]
              rfl
            · have hDRne : specSegmentLoop f (rest.drop len) (idx + len) ≠ [] :=
                specSegmentLoop_nonempty hr20 hr2fl
              cases hD : specSegmentLoop f (rest.drop len) (idx + len) with
              | nil => exact absurd hD hDRne
              | cons c0 ct =>
                  rw [hD] at hf2
                  obtain ⟨δ, hδ, hmS, hdropS⟩ :=
                    (@rematch_sep _ _ (joinL ((c0 :: ct).map (fun b => b.2.data)))
                      hspecm).2
                  rw [hmlen] at hmS
                  show (specSegmentLoop fuel2
                      (rest.take len ++ '\n' :: '\n' ::
                        joinL ((c0 :: ct).map (fun b => b.2.data))) i2).map Prod.fst =
                    ((PartType.table, String.mk (rest.take len)) :: c0 :: ct).map Prod.fst
                  have hscanS : specScan i2 (rest.take len ++ '\n' :: '\n' ::
                      joinL ((c0 :: ct).map (fun b => b.2.data))) = some (i2, len + δ) :=
                    specScan_head hmS i2
                  obtain ⟨f2, rfl⟩ : ∃ f2, fuel2 = f2 + 1 := ⟨fuel2 - 1, by omega⟩
                  rw [specSegmentLoop_succ_some hscanS]
                  rw [if_neg (by omega : ¬ i2 < i2)]
                  have hidx2 : i2 - i2 + (len + δ) = (rest.take len).length + δ := by
                    rw [hmlen]; omega
                  rw [hidx2, hdropS]
                  have hflen : (((['\n', '\n'] : List Char).drop δ) ++
                      joinL ((specSegmentLoop f (rest.drop len) (idx + len)).map
                        (fun b => b.2.data))).length < f2 := by
                    rw [hD]
                    have h1 : (rest.take len ++ '\n' :: '\n' ::
                        joinL ((c0 :: ct).map (fun b => b.2.data))).length < f2 + 1 := hf2
                    simp only [List.length_append, List.length_cons, List.length_drop,
                      List.length_nil] at h1 ⊢
                    omega
                  have hihm := ih (rest.drop len) (idx + len) (i2 + (len + δ))
                    ((['\n', '\n'] : List Char).drop δ) f2 hr2fl
                    (fun c hc => mem_drop_nl δ c hc)
                    (Or.inr ⟨hr20, hadjS⟩) hflen
                  rw [hD] at hihm
                  show PartType.table ::
                      (specSegmentLoop f2 ((['\n', '\n'] : List Char).drop δ ++
                        joinL ((c0 :: ct).map (fun b => b.2.data))) (i2 + (len + δ))).map
                        Prod.fst =
                    PartType.table :: (c0 :: ct).map Prod.fst
                  rw [hihm]
          · have hiip : i < idx := by omega
            rw [if_pos hiip] at hf2 ⊢
            have hgfail : ∀ p, p < (rest.take j).length →
                specRun ((rest.take j).drop p ++ rest.drop j) = none := by
              intro p hp
              have hpj : p < j := by
                simp only [List.length_take] at hp
                omega
              have hdp : rest.drop p = (rest.take j).drop p ++ rest.drop j := by
                conv_lhs => rw [← List.take_append_drop j rest]
                rw [List.drop_append_of_le_length
                  (by simp only [List.length_take]; omega)]
              have h1 : matchAtSpec (rest.drop p) = none := hminS p hpj
              rw [hdp, matchAtSpec_none_iff] at h1
              exact h1
            have hQlen : (pre ++ (rest.take j ++ (['\n', '\n'] : List Char))).length =
                pre.length + ((rest.take j).length + 2) := by
              simp [List.length_append]
            by_cases hr20 : rest.drop (j + len) = []
            · have hDR : specSegmentLoop f (rest.drop (j + len)) (idx + len) = [] := by
                rw [hr20]
                exact specSegmentLoop_empty f (idx + len)
              rw [hDR] at hf2 ⊢
              show (specSegmentLoop fuel2
                  (pre ++ (rest.take j ++ '\n' :: '\n' :: (rest.drop j).take len))
                  i2).map Prod.fst =
                [PartType.markdown, PartType.table]
              have hscanS : specScan i2
                  (pre ++ (rest.take j ++ '\n' :: '\n' :: (rest.drop j).take len)) =
                  some (i2 + pre.length + ((rest.take j).length + 2), len) := by
                rw [specScan_skip_nl pre _ hpre i2]
                rw [@specScan_gap_skip _ (rest.drop j) _ hgfail (i2 + pre.length)]
                have hmm2 : matchAtSpec ((rest.drop j).take len) =
                    some ((rest.drop j).take len).length :=
                  rematch_last hspecm hr20
                rw [hmlen] at hmm2
                exact specScan_head hmm2 _
              obtain ⟨f2, rfl⟩ : ∃ f2, fuel2 = f2 + 1 := ⟨fuel2 - 1, by omega⟩
              rw [specSegmentLoop_succ_some hscanS]
              rw [if_pos (by omega :
                i2 < i2 + pre.length + ((rest.take j).length + 2))]
              have hQ : pre ++ (rest.take j ++ '\n' :: '\n' :: (rest.drop j).take len) =
                  (pre ++ (rest.take j ++ (['\n', '\n'] : List Char))) ++
                    (rest.drop j).take len := by
                simp [List.append_assoc]
              have hdrop2 : (pre ++ (rest.take j ++ '\n' :: '\n' ::
                  (rest.drop j).take len)).drop
                    (i2 + pre.length + ((rest.take j).length + 2) - i2 + len) = [] := by
                rw [show i2 + pre.length + ((rest.take j).length + 2) - i2 + len =
                  (pre ++ (rest.take j ++ (['\n', '\n'] : List Char))).length + len from by
                  rw [hQlen]; omega]
                rw [hQ, drop_append_plus]
                exact List.drop_eq_nil_of_le hmlen.le
              rw [hdrop2, specSegmentLoop_empty]
              rfl
            · have hDRne : specSegmentLoop f (rest.drop (j + len)) (idx + len) ≠ [] :=
                specSegmentLoop_nonempty hr20 hr2fl
              cases hD : specSegmentLoop f (rest.drop (j + len)) (idx + len) with
              | nil => exact absurd hD hDRne
              | cons c0 ct =>
                  rw [hD] at hf2
                  obtain ⟨δ, hδ, hmS, hdropS⟩ :=
                    (@rematch_sep _ _ (joinL ((c0 :: ct).map (fun b => b.2.data)))
                      hspecm).2
                  rw [hmlen] at hmS
                  show (specSegmentLoop fuel2
                      (pre ++ (rest.take j ++ '\n' :: '\n' ::
                        ((rest.drop j).take len ++ '\n' :: '\n' ::
                          joinL ((c0 :: ct).map (fun b => b.2.data))))) i2).map Prod.fst =
                    PartType.markdown :: PartType.table :: (c0 :: ct).map Prod.fst
                  have hscanS : specScan i2
                      (pre ++ (rest.take j ++ '\n' :: '\n' ::
                        ((rest.drop j).take len ++ '\n' :: '\n' ::
                          joinL ((c0 :: ct).map (fun b => b.2.data))))) =
                      some (i2 + pre.length + ((rest.take j).length + 2), len + δ) := by
                    rw [specScan_skip_nl pre _ hpre i2]
                    rw [@specScan_gap_skip _ (rest.drop j) _ hgfail (i2 + pre.length)]
                    exact specScan_head hmS _
                  obtain ⟨f2, rfl⟩ : ∃ f2, fuel2 = f2 + 1 := ⟨fuel2 - 1, by omega⟩
                  rw [specSegmentLoop_succ_some hscanS]
                  rw [if_pos (by omega :
                    i2 < i2 + pre.length + ((rest.take j).length + 2))]
                  have hQ : pre ++ (rest.take j ++ '\n' :: '\n' ::
                      ((rest.drop j).take len ++ '\n' :: '\n' ::
                        joinL ((c0 :: ct).map (fun b => b.2.data)))) =
                      (pre ++ (rest.take j ++ (['\n', '\n'] : List Char))) ++
                        ((rest.drop j).take len ++ '\n' :: '\n' ::
                          joinL ((c0 :: ct).map (fun b => b.2.data))) := by
                    simp [List.append_assoc]
                  have hdrop2 : (pre ++ (rest.take j ++ '\n' :: '\n' ::
                      ((rest.drop j).take len ++ '\n' :: '\n' ::
                        joinL ((c0 :: ct).map (fun b => b.2.data))))).drop
                      (i2 + pre.length + ((rest.take j).length + 2) - i2 + (len + δ)) =
                      (['\n', '\n'] : List Char).drop δ ++
                        joinL ((c0 :: ct).map (fun b => b.2.data)) := by
                    rw [show i2 + pre.length + ((rest.take j).length + 2) - i2 + (len + δ) =
                      (pre ++ (rest.take j ++ (['\n', '\n'] : List Char))).length +
                        (len + δ) from by rw [hQlen]; omega]
                    rw [hQ, drop_append_plus]
                    rw [show len + δ = ((rest.drop j).take len).length + δ from by
                      rw [hmlen]]
                    exact hdropS
                  rw [hdrop2]
                  have hflen : (((['\n', '\n'] : List Char).drop δ) ++
                      joinL ((specSegmentLoop f (rest.drop (j + len)) (idx + len)).map
                        (fun b => b.2.data))).length < f2 := by
                    rw [hD]
                    have h1 : (pre ++ (rest.take j ++ '\n' :: '\n' ::
                        ((rest.drop j).take len ++ '\n' :: '\n' ::
                          joinL ((c0 :: ct).map (fun b => b.2.data))))).length <
                        f2 + 1 := hf2
                    simp only [List.length_append, List.length_cons, List.length_drop,
                      List.length_nil] at h1 ⊢
                    omega
                  have hihm := ih (rest.drop (j + len)) (idx + len)
                    (i2 + pre.length + ((rest.take j).length + 2) + (len + δ))
                    ((['\n', '\n'] : List Char).drop δ) f2 hr2fl
                    (fun c hc => mem_drop_nl δ c hc)
                    (Or.inr ⟨hr20, hadjS⟩) hflen
                  rw [hD] at hihm
                  show PartType.markdown :: PartType.table ::
                      (specSegmentLoop f2 ((['\n', '\n'] : List Char).drop δ ++
                        joinL ((c0 :: ct).map (fun b => b.2.data)))
                        (i2 + pre.length + ((rest.take j).length + 2) + (len + δ))).map
                        Prod.fst =
                    PartType.markdown :: PartType.table :: (c0 :: ct).map Prod.fst
                  rw [hihm]

/-- C6: for every document string D, re-running segmentation on the flattened
output — block texts joined with the separator between two newline characters,
as `combineParts` does — yields the same sequence of block kinds, in the same
order, as segmenting D directly. -/
theorem reclassification_idempotent (D : String) :
    (parseMarkdown (combineParts (parseMarkdown D))).map (fun p => p.type) =
      (parseMarkdown D).map (fun p => p.type) := by
  have htype : ∀ (fuel : Nat) (rest : List Char) (i : Nat),
      (parseLoop fuel rest i).map (fun p => p.type) =
        (specSegmentLoop fuel rest i).map Prod.fst := by
    intro fuel rest i
    rw [← parseLoop_spec fuel rest i, List.map_map]
    rfl
  have hdata : (combineParts (parseMarkdown D)).data =
      joinL ((specSegmentLoop (D.length + 1) D.data 0).map (fun b => b.2.data)) := by
    rw [combineParts_data]
    rw [← parseLoop_spec (D.length + 1) D.data 0, List.map_map]
    rfl
  have hf2 : (([] : List Char) ++
      joinL ((specSegmentLoop (D.length + 1) D.data 0).map (fun b => b.2.data))).length <
      (combineParts (parseMarkdown D)).length + 1 := by
    show (joinL ((specSegmentLoop (D.length + 1) D.data 0).map
      (fun b => b.2.data))).length < _
    rw [← hdata]
    exact Nat.lt_succ_self _
  have hmain := respec_loop (D.length + 1) D.data 0 0 []
    ((combineParts (parseMarkdown D)).length + 1)
    (Nat.lt_succ_self _)
    (fun c hc => absurd hc (List.not_mem_nil c))
    (Or.inl rfl) hf2
  show (parseLoop ((combineParts (parseMarkdown D)).length + 1)
      (combineParts (parseMarkdown D)).data 0).map (fun p => p.type) =
    (parseLoop (D.length + 1) D.data 0).map (fun p => p.type)
  rw [htype, htype, hdata]
  exact hmain

/-- If no match starts at the very first position of the suffix, the first
block the loop emits (if any) is a markdown block: either the scan finds no
match at all, or the first match begins strictly later and the gap before it
is emitted first. -/
theorem specSegmentLoop_head_md :
    ∀ (fuel : Nat) (rest : List Char) (i : Nat), matchAtSpec rest = none →
      ∀ b ct, specSegmentLoop fuel rest i = b :: ct → b.1 = PartType.markdown := by
  intro fuel rest i hnm b ct hEq
  cases fuel with
  | zero =>
      rw [specSegmentLoop_zero] at hEq
      exact absurd hEq (by simp)
  | succ f =>
      cases hs : specScan i rest with
      | none =>
          rw [specSegmentLoop_succ_none hs] at hEq
          by_cases hie : rest.isEmpty = true
          · rw [if_pos hie] at hEq
            exact absurd hEq (by simp)
          · rw [if_neg hie] at hEq
            injection hEq with h1 h2
            rw [← h1]
      | some q =>
          obtain ⟨idx, len⟩ := q
          have hsa : scanAux i rest = some (idx, len) := by
            rw [specScan_eq_scanAux]; exact hs
          obtain ⟨j, hj, hrange, hlpos, hmatch, hmin⟩ := scanAux_spec hsa
          have hj0 : j ≠ 0 := by
            intro h0
            subst h0
            rw [List.drop_zero, matchAt_eq_spec, hnm] at hmatch
            exact absurd hmatch (by simp)
          have hlt : i < idx := by omega
          rw [specSegmentLoop_succ_some hs, if_pos hlt] at hEq
          rw [List.singleton_append] at hEq
          injection hEq with h1 h2
          rw [← h1]

/-- The kind sequence the loop produces never has two adjacent table entries:
the position immediately after a match can never start a new match, so a
nonempty markdown gap always precedes the next table block. -/
theorem specSegmentLoop_sep :
    ∀ (fuel : Nat) (rest : List Char) (i : Nat),
      List.Chain' (fun a b => ¬(a = PartType.table ∧ b = PartType.table))
        ((specSegmentLoop fuel rest i).map Prod.fst) := by
  intro fuel
  induction fuel with
  | zero =>
      intro rest i
      rw [specSegmentLoop_zero]
      exact List.chain'_nil
  | succ f ih =>
      intro rest i
      cases hs : specScan i rest with
      | none =>
          rw [specSegmentLoop_succ_none hs]
          by_cases hie : rest.isEmpty = true
          · rw [if_pos hie]
            exact List.chain'_nil
          · rw [if_neg hie]
            exact List.chain'_singleton _
      | some q =>
          obtain ⟨idx, len⟩ := q
          have hsa : scanAux i rest = some (idx, len) := by
            rw [specScan_eq_scanAux]; exact hs
          obtain ⟨j, hj, hrange, hlpos, hmatch, hmin⟩ := scanAux_spec hsa
          have hmatchS : matchAtSpec (rest.drop j) = some len := by
            rw [← matchAt_eq_spec]; exact hmatch
          have hji : idx - i = j := by omega
          rw [specSegmentLoop_succ_some hs, hji]
          have hdd : (rest.drop j).drop len = rest.drop (j + len) := by
            rw [List.drop_drop]
          have hmdecomp : rest.drop j =
              (rest.drop j).take len ++ rest.drop (j + len) := by
            rw [← hdd]
            exact (List.take_append_drop len (rest.drop j)).symm
          have hspecm : specRun ((rest.drop j).take len ++ rest.drop (j + len)) =
              some (rest.drop (j + len)) := by
            obtain ⟨hle2, hsr⟩ := matchAtSpec_some_decomp hmatchS
            rw [hdd] at hsr
            rw [← hmdecomp]
            exact hsr
          have hadjS : matchAtSpec (rest.drop (j + len)) = none :=
            (@rematch_sep _ _ [] hspecm).1
          have htail : List.Chain'
              (fun a b => ¬(a = PartType.table ∧ b = PartType.table))
              (PartType.table ::
                (specSegmentLoop f (rest.drop (j + len)) (idx + len)).map Prod.fst) := by
            cases hD : specSegmentLoop f (rest.drop (j + len)) (idx + len) with
            | nil => exact List.chain'_singleton _
            | cons c0 ct =>
                have hc0 : c0.1 = PartType.markdown :=
                  specSegmentLoop_head_md f (rest.drop (j + len)) (idx + len)
                    hadjS c0 ct hD
                have hch := ih (rest.drop (j + len)) (idx + len)
                rw [hD, List.map_cons] at hch
                rw [List.map_cons]
                exact List.chain'_cons.mpr ⟨by rw [hc0]; simp, hch⟩
          by_cases hlt : i < idx
          · rw [if_pos hlt]
            simp only [List.singleton_append, List.map_cons]
            exact List.chain'_cons.mpr ⟨by simp, htail⟩
          · rw [if_neg hlt]
            exact htail

/-- C4 corrected: for every document, segmentation never emits two adjacent
Table blocks — between any two consecutive Table blocks there is always a
Prose block carrying the unconsumed gap text, because a new match can never
start at the position immediately after a previous match; in particular the
zero-length omitted gap of the original claim is impossible, and the concrete
scenario-B input of two tables separated by one blank line yields Table,
Prose holding the leftover newline, Table. -/
theorem tables_never_adjacent :
    (∀ D : String,
      List.Chain' (fun a b => ¬(a = PartType.table ∧ b = PartType.table))
        ((parseMarkdown D).map (fun p => p.type))) ∧
    (parseMarkdown "| a |\n|---|\n\n| b |\n|---|").map (fun p => (p.type, p.content)) =
      [(PartType.table, "| a |\n|---|\n"),
       (PartType.markdown, "\n"),
       (PartType.table, "| b |\n|---|")] := by
  constructor
  · intro D
    have hsep := specSegmentLoop_sep (D.length + 1) D.data 0
    have ht : (parseMarkdown D).map (fun p => p.type) =
        (specSegmentLoop (D.length + 1) D.data 0).map Prod.fst := by
      rw [← parseLoop_spec (D.length + 1) D.data 0, List.map_map]
      rfl
    rw [ht]
    exact hsep
  · decide

end MdSeg
